import Mathlib

/-!
# Bean counter: Sauvola thresholding, marker propagation and flood-fill labelling

A shallow embedding of `contafeijoes.c`.

Conventions of the embedding.

* A C `int` is a Lean `Int`.  Loop counters, labels and marker ids are bounded by
  `width * height + 1`, which the program itself needs to be representable (it allocates
  `2 * width * height` stack slots), so they are not wrapped.  The one product that the
  program forms from pixel data, `pixel * pixel`, is wrapped to 32 bits (`wrapInt`).
* The pixel buffer `int **pixels` is a function `Int → Int → Int` (row, then column).  The
  program only reads and writes cells with `0 ≤ row < height` and `0 ≤ col < width`; the
  value of the function elsewhere is never used by a result.
* A `double` is a real number: the floating point operations of the thresholder are
  idealised as exact real arithmetic.
* `while` loops whose termination is not structural take a fuel argument and return
  `none` when the fuel runs out.
* File output (`writePGM` calls at the end of the two image stages) is not modelled.
-/

namespace BeanCounter

/-! ## The program -/

/-- Image record of the program (lines 7-10): `width`, `height`, `max_val` and the pixel
buffer. -/
structure PGM where
  width : Int
  height : Int
  max_val : Int
  pixels : Int → Int → Int

/-- The values taken by the counter of `for (i = lo; i < hi; ++i)`, in order. -/
def rangeInt (lo hi : Int) : List Int :=
  (List.range (hi - lo).toNat).map (fun (n : Nat) => lo + (n : Int))

/-- The cells visited by the nested loops
`for (i = r0; i < r1; ++i) for (j = c0; j < c1; ++j)`, in raster order. -/
def rasterCells (r0 r1 c0 c1 : Int) : List (Int × Int) :=
  (rangeInt r0 r1).flatMap (fun i => (rangeInt c0 c1).map (fun j => (i, j)))

/-- Row offsets of the eight neighbours (lines 139 and 202). -/
def dx : List Int := [-1, -1, -1, 0, 0, 1, 1, 1]

/-- Column offsets of the eight neighbours (lines 140 and 203). -/
def dy : List Int := [-1, 0, 1, -1, 1, -1, 0, 1]

/-- The assignment `buf[x][y] = v` on an integer buffer. -/
def setCell (buf : Int → Int → Int) (x y v : Int) : Int → Int → Int :=
  fun a b => if a = x ∧ b = y then v else buf a b

/-! ### Connected component labelling (lines 137-198) -/

/-- State of the flood-fill loop: the explicit stack and the label buffer.  One stack entry
stands for the two consecutive slots holding a row and a column, so the C stack pointer is
twice the length of `stack`; the head of the list is the top of the stack. -/
structure FloodState where
  stack : List (Int × Int)
  labels : Int → Int → Int

/-- One iteration of the neighbour loop of `floodFill` (lines 158-164) for the popped cell
`(x, y)` and the offset `d = (dx[i], dy[i])`. -/
def floodNeighbor (img : PGM) (label x y : Int) (st : FloodState) (d : Int × Int) : FloodState :=
  let nx := x + d.1
  let ny := y + d.2
  if nx ≥ 0 ∧ nx < img.height ∧ ny ≥ 0 ∧ ny < img.width ∧ img.pixels nx ny = 0
      ∧ st.labels nx ny = 0 then
    { stack := (nx, ny) :: st.stack, labels := setCell st.labels nx ny label }
  else st

/-- The neighbour loop `for (i = 0; i < 8; ++i)` of `floodFill` (lines 157-165), run after
the cell `(x, y)` has been popped. -/
def floodStep (img : PGM) (label x y : Int) (rest : FloodState) : FloodState :=
  (dx.zip dy).foldl (floodNeighbor img label x y) rest

/-- The loop `while (stack_ptr > 0)` of `floodFill` (lines 152-166); returns the label
buffer at loop exit, or `none` when the fuel is used up. -/
def floodLoop (img : PGM) (label : Int) : Nat → FloodState → Option (Int → Int → Int)
  | 0, _ => none
  | fuel + 1, st =>
    match st.stack with
    | [] => some st.labels
    | (x, y) :: rest => floodLoop img label fuel (floodStep img label x y { st with stack := rest })

/-- Function `floodFill` (lines 138-170).  The result pairs the returned `label` with the
label buffer after the call.  The loop is given `stack_size + 1` iterations. -/
def floodFill (img : PGM) (x y label : Int) (labels : Int → Int → Int) :
    Option (Int × (Int → Int → Int)) :=
  let stack_size := img.height * img.width
  (floodLoop img label (stack_size.toNat + 1)
      { stack := [(x, y)], labels := setCell labels x y label }).map
    (fun ls => (label, ls))

/-- Body of the raster loop of `labelComponents` (lines 185-187) on the state
`(label, labels)`, at the cell `p`. -/
def labelCell (img : PGM) (acc : Option (Int × (Int → Int → Int))) (p : Int × Int) :
    Option (Int × (Int → Int → Int)) :=
  acc.bind fun st =>
    if img.pixels p.1 p.2 = 0 ∧ st.2 p.1 p.2 = 0 then
      (floodFill img p.1 p.2 st.1 st.2).map (fun r => (st.1 + 1, r.2))
    else some st

/-- Function `labelComponents` (lines 173-198): `label` starts at 1, the label buffer is
zeroed, and the result is `label - 1`. -/
def labelComponents (img : PGM) : Option Int :=
  ((rasterCells 0 img.height 0 img.width).foldl (labelCell img) (some (1, fun _ _ => 0))).map
    (fun st => st.1 - 1)

/-! ### Sauvola thresholding (lines 90-135) -/

/-- Two's complement wrap-around of an `int` result to 32 bits. -/
def wrapInt (v : Int) : Int := (v + 2147483648) % 4294967296 - 2147483648

/-- The three `double` accumulators `sum`, `sumSq`, `num` (line 100). -/
structure WindowSums where
  sum : ℝ
  sumSq : ℝ
  num : ℝ

/-- Body of the window loop (lines 110-113). -/
noncomputable def windowAdd (img : PGM) (acc : WindowSums) (p : Int × Int) : WindowSums :=
  let pixel := img.pixels p.1 p.2
  { sum := acc.sum + (pixel : ℝ)
    sumSq := acc.sumSq + ((wrapInt (pixel * pixel) : Int) : ℝ)
    num := acc.num + 1 }

/-- The cells of the sliding window of `(i, j)` in loop order (lines 102-109). -/
def windowCells (img : PGM) (windowSize i j : Int) : List (Int × Int) :=
  let minI := max 0 (i - windowSize)
  let maxI := min (img.height - 1) (i + windowSize)
  let minJ := max 0 (j - windowSize)
  let maxJ := min (img.width - 1) (j + windowSize)
  rasterCells minI (maxI + 1) minJ (maxJ + 1)

/-- The accumulators after the window loop (lines 100-115). -/
noncomputable def windowSums (img : PGM) (windowSize i j : Int) : WindowSums :=
  (windowCells img windowSize i j).foldl (windowAdd img) ⟨0, 0, 0⟩

/-- The local `mean` (line 118). -/
noncomputable def sauvolaMean (img : PGM) (windowSize i j : Int) : ℝ :=
  (windowSums img windowSize i j).sum / (windowSums img windowSize i j).num

/-- The local `stdDev` (line 119). -/
noncomputable def sauvolaStdDev (img : PGM) (windowSize i j : Int) : ℝ :=
  Real.sqrt ((windowSums img windowSize i j).sumSq / (windowSums img windowSize i j).num
    - sauvolaMean img windowSize i j * sauvolaMean img windowSize i j)

/-- The local `threshold` (line 121). -/
noncomputable def sauvolaThreshold (img : PGM) (windowSize : Int) (k R : ℝ) (i j : Int) : ℝ :=
  sauvolaMean img windowSize i j * (1 + k * (sauvolaStdDev img windowSize i j / R - 1))

/-- Function `applySauvolaThreshold` (lines 90-135): every cell of the new buffer is computed
from the original buffer (line 124), then the new buffer replaces the old one (line 133). -/
noncomputable def applySauvolaThreshold (img : PGM) (windowSize : Int) (k R : ℝ) : PGM :=
  { img with
    pixels := fun i j =>
      if (img.pixels i j : ℝ) < sauvolaThreshold img windowSize k R i j then 0 else 255 }

/-! ### Marker propagation (lines 201-273) -/

/-- The flag `isBorder` after the loop of lines 217-224: some neighbour has value 255. -/
def isBorder (img : PGM) (i j : Int) : Bool :=
  (dx.zip dy).any (fun d => decide (img.pixels (i + d.1) (j + d.2) = 255))

/-- Body of the seeding loop (lines 214-228) on the state `(current_label, markers)`. -/
def seedCell (img : PGM) (st : Int × (Int → Int → Int)) (p : Int × Int) :
    Int × (Int → Int → Int) :=
  if img.pixels p.1 p.2 = 0 then
    if isBorder img p.1 p.2 then (st.1 + 1, setCell st.2 p.1 p.2 st.1) else st
  else st

/-- Step 1 of `applyWatershed` (lines 211-230): `current_label` and the marker buffer after
seeding. -/
def seedMarkers (img : PGM) : Int × (Int → Int → Int) :=
  (rasterCells 1 (img.height - 1) 1 (img.width - 1)).foldl (seedCell img) (1, fun _ _ => 0)

/-- The local `min_label` after the loop of lines 239-247. -/
def minLabel (markers : Int → Int → Int) (current_label i j : Int) : Int :=
  (dx.zip dy).foldl
    (fun min_label d =>
      if markers (i + d.1) (j + d.2) > 0 ∧ markers (i + d.1) (j + d.2) < min_label then
        markers (i + d.1) (j + d.2)
      else min_label)
    current_label

/-- Body of one relaxation sweep (lines 238-252) on the state `(changes, markers)`. -/
def relaxCell (img : PGM) (current_label : Int) (st : Int × (Int → Int → Int)) (p : Int × Int) :
    Int × (Int → Int → Int) :=
  if img.pixels p.1 p.2 = 0 ∧ st.2 p.1 p.2 = 0 then
    if minLabel st.2 current_label p.1 p.2 < current_label then
      (st.1 + 1, setCell st.2 p.1 p.2 (minLabel st.2 current_label p.1 p.2))
    else st
  else st

/-- One pass of the body of the `do ... while` loop (lines 235-254). -/
def relaxSweep (img : PGM) (current_label : Int) (markers : Int → Int → Int) :
    Int × (Int → Int → Int) :=
  (rasterCells 1 (img.height - 1) 1 (img.width - 1)).foldl (relaxCell img current_label)
    (0, markers)

/-- The loop `do ... while (changes > 0)` (lines 234-255); `none` when the fuel is used
up. -/
def relaxLoop (img : PGM) (current_label : Int) : Nat → (Int → Int → Int) →
    Option (Int → Int → Int)
  | 0, _ => none
  | fuel + 1, markers =>
    if (relaxSweep img current_label markers).1 > 0 then
      relaxLoop img current_label fuel (relaxSweep img current_label markers).2
    else some (relaxSweep img current_label markers).2

/-- The commit loop of `applyWatershed` (lines 258-264) over all cells of the grid. -/
def commitMarkers (img : PGM) (markers : Int → Int → Int) : PGM :=
  { img with
    pixels := fun i j =>
      if 0 ≤ i ∧ i < img.height ∧ 0 ≤ j ∧ j < img.width ∧ markers i j > 0 then markers i j
      else img.pixels i j }

/-- Function `applyWatershed` (lines 201-273): seeding, relaxation, then the commit loop.
The relaxation loop is given `height * width + 1` sweeps. -/
def applyWatershed (img : PGM) : Option PGM :=
  (relaxLoop img (seedMarkers img).1 ((img.height * img.width).toNat + 1)
      (seedMarkers img).2).map (commitMarkers img)

/-- The count printed by `main` (lines 283-296): propagation, then thresholding with
`windowSize = 17`, `k = 0.920`, `R = 128.0`, then labelling. -/
noncomputable def mainCount (img : PGM) : Option Int :=
  (applyWatershed img).bind
    (fun g => labelComponents (applySauvolaThreshold g 17 0.920 128))

/-! ## Specification vocabulary -/

/-- Cell `p` lies inside the grid. -/
def inBounds (img : PGM) (p : Int × Int) : Prop :=
  0 ≤ p.1 ∧ p.1 < img.height ∧ 0 ≤ p.2 ∧ p.2 < img.width

/-- Cell `p` is a foreground pixel: it lies inside the grid and has value 0. -/
def isForeground (img : PGM) (p : Int × Int) : Prop :=
  inBounds img p ∧ img.pixels p.1 p.2 = 0

/-- Two distinct cells are 8-neighbours: they differ by at most 1 in row and in column. -/
def adjacent8 (p q : Int × Int) : Prop :=
  p ≠ q ∧ |q.1 - p.1| ≤ 1 ∧ |q.2 - p.2| ≤ 1

/-- Two cells touch diagonally: they differ by exactly 1 in row and in column. -/
def diagonal (p q : Int × Int) : Prop :=
  |q.1 - p.1| = 1 ∧ |q.2 - p.2| = 1

/-- One step of 8-adjacency between foreground pixels. -/
def fgStep (img : PGM) (p q : Int × Int) : Prop :=
  isForeground img p ∧ isForeground img q ∧ adjacent8 p q

/-- Reflexive-transitive closure of 8-adjacency restricted to foreground pixels. -/
def fgConnected (img : PGM) (p q : Int × Int) : Prop :=
  Relation.ReflTransGen (fgStep img) p q

/-- A set of cells is 8-connected: any two of its cells are joined by a chain of
8-neighbours inside the set. -/
def connectedSet (A : Set (Int × Int)) : Prop :=
  ∀ a ∈ A, ∀ b ∈ A, Relation.ReflTransGen (fun p q => p ∈ A ∧ q ∈ A ∧ adjacent8 p q) a b

/-- Seed of the propagation stage in the words of the specification: an interior pixel of
value 0 with at least one 8-neighbour of value 255. -/
def isSeed (img : PGM) (p : Int × Int) : Prop :=
  1 ≤ p.1 ∧ p.1 ≤ img.height - 2 ∧ 1 ≤ p.2 ∧ p.2 ≤ img.width - 2 ∧ img.pixels p.1 p.2 = 0 ∧
    ∃ q, adjacent8 p q ∧ img.pixels q.1 q.2 = 255

/-- The clipped window of `(i, j)` as a set of cells. -/
def sauvolaWindow (img : PGM) (windowSize i j : Int) : Finset (Int × Int) :=
  Finset.Icc (max 0 (i - windowSize)) (min (img.height - 1) (i + windowSize)) ×ˢ
    Finset.Icc (max 0 (j - windowSize)) (min (img.width - 1) (j + windowSize))

/-- Arithmetic mean of the pixel values over the window. -/
noncomputable def windowMean (img : PGM) (windowSize i j : Int) : ℝ :=
  (∑ p ∈ sauvolaWindow img windowSize i j, (img.pixels p.1 p.2 : ℝ))
    / ((sauvolaWindow img windowSize i j).card : ℝ)

/-- Population standard deviation of the pixel values over the window. -/
noncomputable def windowStdDev (img : PGM) (windowSize i j : Int) : ℝ :=
  Real.sqrt ((∑ p ∈ sauvolaWindow img windowSize i j,
      ((img.pixels p.1 p.2 : ℝ) - windowMean img windowSize i j) ^ 2)
    / ((sauvolaWindow img windowSize i j).card : ℝ))

/-! ## Auxiliary definitions used by the proofs -/

/-- Number of cells of the grid whose label is still 0. -/
def unlabeled (img : PGM) (labels : Int → Int → Int) : Nat :=
  (rasterCells 0 img.height 0 img.width).countP (fun p => decide (labels p.1 p.2 = 0))

/-- Invariant of the flood-fill loop started at the seed `s` on the label buffer `L0`.
`cur` is the cell whose neighbours are being examined, if any. -/
structure FloodInv (img : PGM) (L0 : Int → Int → Int) (s : Int × Int) (cur : Option (Int × Int))
    (st : FloodState) : Prop where
  seed : st.labels s.1 s.2 ≠ 0
  keep : ∀ p : Int × Int, L0 p.1 p.2 ≠ 0 → st.labels p.1 p.2 ≠ 0
  sound : ∀ p : Int × Int, st.labels p.1 p.2 ≠ 0 → L0 p.1 p.2 ≠ 0 ∨ fgConnected img s p
  stk : ∀ p ∈ st.stack, isForeground img p ∧ fgConnected img s p
  closed : ∀ p q : Int × Int, L0 p.1 p.2 = 0 → st.labels p.1 p.2 ≠ 0 → fgStep img p q →
    st.labels q.1 q.2 ≠ 0 ∨ p ∈ st.stack ∨ cur = some p

/-- Invariant of the raster loop of `labelComponents`: `reps` lists the seeds of the flood
fills made so far. -/
structure LabelInv (img : PGM) (reps : List (Int × Int)) (st : Int × (Int → Int → Int)) :
    Prop where
  count : st.1 = (reps.length : Int) + 1
  fg : ∀ r ∈ reps, isForeground img r
  sep : reps.Pairwise (fun a b => ¬ fgConnected img a b)
  lab : ∀ p : Int × Int, st.2 p.1 p.2 ≠ 0 ↔ ∃ r ∈ reps, fgConnected img r p

/-- Foreground pixels are equivalent when they are connected. -/
def componentSetoid (img : PGM) : Setoid {p : Int × Int // isForeground img p} where
  r a b := fgConnected img a.1 b.1
  iseqv :=
    ⟨fun _ => Relation.ReflTransGen.refl,
     fun {a b} h => by
      have hsymm : ∀ p q, fgStep img p q → fgStep img q p := by
        intro p q hpq
        refine ⟨hpq.2.1, hpq.1, fun e => hpq.2.2.1 e.symm, ?_, ?_⟩
        · rw [abs_sub_comm]; exact hpq.2.2.2.1
        · rw [abs_sub_comm]; exact hpq.2.2.2.2
      have hall : ∀ p q, fgConnected img p q → fgConnected img q p := by
        intro p q hpq
        induction hpq with
        | refl => exact Relation.ReflTransGen.refl
        | tail _ hbc ih => exact Relation.ReflTransGen.head (hsymm _ _ hbc) ih
      exact hall _ _ h,
     Relation.ReflTransGen.trans⟩

/-- Number of 8-connected components of the foreground: the number of equivalence classes
of foreground pixels under `fgConnected`. -/
noncomputable def componentCount (img : PGM) : Nat :=
  Nat.card (Quotient (componentSetoid img))

/-- The window accumulators as integers: sum, sum of wrapped squares, and sample count. -/
def windowSumsInt (img : PGM) (windowSize i j : Int) : Int × Int × Int :=
  (((windowCells img windowSize i j).map (fun p => img.pixels p.1 p.2)).sum,
   ((windowCells img windowSize i j).map
      (fun p => wrapInt (img.pixels p.1 p.2 * img.pixels p.1 p.2))).sum,
   ((windowCells img windowSize i j).length : Int))

/-- Integer form of the test `p < mean * (1 + k * (stdDev / R - 1))` for a pixel value `p`,
window sums `S`, `Q`, sample count `N`, `k = kn / kd` and `R = rn / rd`: with
`A = p N² kd rn - S N rn (kd - kn)`, `B = S kn rd` and `D = max (Q N - S²) 0` the test is
`A < B * sqrt D`. -/
def sauvolaBelowInt (p S Q N kn kd rn rd : Int) : Prop :=
  (0 < S * kn * rd ∧
      (p * N * N * kd * rn - S * N * rn * (kd - kn) < 0 ∨
        (p * N * N * kd * rn - S * N * rn * (kd - kn))
            * (p * N * N * kd * rn - S * N * rn * (kd - kn))
          < (S * kn * rd) * (S * kn * rd) * max (Q * N - S * S) 0)) ∨
    (S * kn * rd ≤ 0 ∧ p * N * N * kd * rn - S * N * rn * (kd - kn) < 0 ∧
      (S * kn * rd) * (S * kn * rd) * max (Q * N - S * S) 0
        < (p * N * N * kd * rn - S * N * rn * (kd - kn))
            * (p * N * N * kd * rn - S * N * rn * (kd - kn)))

instance (p S Q N kn kd rn rd : Int) : Decidable (sauvolaBelowInt p S Q N kn kd rn rd) := by
  unfold sauvolaBelowInt
  infer_instance

/-- Executable form of `applySauvolaThreshold` for rational parameters `k = kn / kd` and
`R = rn / rd`; `applySauvolaThreshold_exact` shows that it computes the same grid. -/
def applySauvolaExact (img : PGM) (windowSize kn kd rn rd : Int) : PGM :=
  { img with
    pixels := fun i j =>
      if sauvolaBelowInt (img.pixels i j) (windowSumsInt img windowSize i j).1
          (windowSumsInt img windowSize i j).2.1 (windowSumsInt img windowSize i j).2.2
          kn kd rn rd
      then 0 else 255 }

/-- Executable form of `mainCount` (`k = 23 / 25`, `R = 128 / 1`). -/
def mainCountExact (img : PGM) : Option Int :=
  (applyWatershed img).bind (fun g => labelComponents (applySauvolaExact g 17 23 25 128 1))

/-! ## Example grids -/

/-- The 5x5 grid with a centred 3x3 block of value 10 inside a ring of value 240. -/
def blockGrid : PGM :=
  { width := 5, height := 5, max_val := 255,
    pixels := fun i j => if (1 ≤ i ∧ i ≤ 3 ∧ 1 ≤ j ∧ j ≤ 3) then 10 else 240 }

/-- The 5x5 grid with the eight cells around the centre set to 0 and all others to 255. -/
def ringGrid : PGM :=
  { width := 5, height := 5, max_val := 255,
    pixels := fun i j =>
      if (1 ≤ i ∧ i ≤ 3 ∧ 1 ≤ j ∧ j ≤ 3 ∧ ¬ (i = 2 ∧ j = 2)) then 0 else 255 }

/-- A 3x5 grid, all 255 except row 1, which is `255 0 0 255 152`. -/
def markerGrid : PGM :=
  { width := 5, height := 3, max_val := 255,
    pixels := fun i j =>
      if (i = 1 ∧ (j = 1 ∨ j = 2)) then 0 else if (i = 1 ∧ j = 4) then 152 else 255 }

/-- A 1x3 grid with the row `0 255 0`. -/
def twoDotsGrid : PGM :=
  { width := 3, height := 1, max_val := 255, pixels := fun _ j => if j = 1 then 255 else 0 }

/-- A 3x3 grid with zeros on the main diagonal and 255 elsewhere. -/
def diagonalGrid : PGM :=
  { width := 3, height := 3, max_val := 255, pixels := fun i j => if i = j then 0 else 255 }

/-- A 2x2 grid with zeros at `(0,0)` and `(1,1)` and 255 elsewhere. -/
def diagonalPairGrid : PGM :=
  { width := 2, height := 2, max_val := 255, pixels := fun i j => if i = j then 0 else 255 }

/-- A 3x4 grid all of whose pixels are 255. -/
def whiteGrid : PGM :=
  { width := 4, height := 3, max_val := 255, pixels := fun _ _ => 255 }

/-- A 3x3 grid with a single 0 at the centre and 255 elsewhere. -/
def dotGrid : PGM :=
  { width := 3, height := 3, max_val := 255,
    pixels := fun i j => if (i = 1 ∧ j = 1) then 0 else 255 }

/-! ## Vocabulary and run traces for marker propagation -/

/-- Cell `p` is interior: it is not in the first or last row or column. -/
def isInterior (img : PGM) (p : Int × Int) : Prop :=
  1 ≤ p.1 ∧ p.1 ≤ img.height - 2 ∧ 1 ≤ p.2 ∧ p.2 ≤ img.width - 2

/-- One step of 8-adjacency between interior zero-valued pixels. -/
def intStep (img : PGM) (p q : Int × Int) : Prop :=
  isInterior img p ∧ img.pixels p.1 p.2 = 0 ∧ isInterior img q ∧ img.pixels q.1 q.2 = 0 ∧
    adjacent8 p q

/-- Cell `p` is joined to a seed by a path of 8-adjacent interior zero-valued pixels. -/
def joinedToSeed (img : PGM) (p : Int × Int) : Prop :=
  ∃ s, isSeed img s ∧ Relation.ReflTransGen (intStep img) s p

/-- Number of seeds of the grid. -/
noncomputable def numSeeds (img : PGM) : Nat := Set.ncard {p | isSeed img p}

/-- Number of foreground (value 0) pixels of the grid. -/
noncomputable def numForeground (img : PGM) : Nat := Set.ncard {p | isForeground img p}

/-- Raster (row-major) order on cells. -/
def rasterBefore (p q : Int × Int) : Prop := p.1 < q.1 ∨ (p.1 = q.1 ∧ p.2 < q.2)

/-- The test of lines 214 and 225 under which the seeding loop assigns a marker. -/
def seedTest (img : PGM) (p : Int × Int) : Bool :=
  decide (img.pixels p.1 p.2 = 0) && isBorder img p.1 p.2

/-- The cells that the seeding loop marks, in the order in which it visits them. -/
def seedList (img : PGM) : List (Int × Int) :=
  (rasterCells 1 (img.height - 1) 1 (img.width - 1)).filter (seedTest img)

/-- State `(current_label, markers)` of the seeding loop after its first `n` cells. -/
def seedAt (img : PGM) (n : Nat) : Int × (Int → Int → Int) :=
  ((rasterCells 1 (img.height - 1) 1 (img.width - 1)).take n).foldl (seedCell img)
    (1, fun _ _ => 0)

/-- The marker buffer at the start of relaxation sweep number `k` (counted from 0). -/
def sweepStart (img : PGM) (k : Nat) : Int → Int → Int :=
  (fun m => (relaxSweep img (seedMarkers img).1 m).2)^[k] (seedMarkers img).2

/-- State `(changes, markers)` of relaxation sweep number `k` after its first `n` cells. -/
def relaxAt (img : PGM) (k n : Nat) : Int × (Int → Int → Int) :=
  ((rasterCells 1 (img.height - 1) 1 (img.width - 1)).take n).foldl
    (relaxCell img (seedMarkers img).1) (0, sweepStart img k)

/-- The marker buffer at the points of the run of `applyWatershed`: phase 0 is the seeding
loop, phase `k + 1` is relaxation sweep number `k`; `n` counts the cells already visited in
that phase. -/
def markersAt (img : PGM) : Nat → Nat → (Int → Int → Int)
  | 0, n => (seedAt img n).2
  | k + 1, n => (relaxAt img k n).2

/-- Number of interior zero-valued cells without a marker. -/
def unmarked (img : PGM) (markers : Int → Int → Int) : Nat :=
  (rasterCells 1 (img.height - 1) 1 (img.width - 1)).countP
    (fun p => decide (img.pixels p.1 p.2 = 0 ∧ markers p.1 p.2 = 0))

/-- A 3x258 grid: the 256 interior cells of row 1 are 0, every other cell is 255. -/
def stripeGrid : PGM :=
  { width := 258, height := 3, max_val := 255,
    pixels := fun i j => if (i = 1 ∧ 1 ≤ j ∧ j ≤ 256) then 0 else 255 }

/-- A 1x1 grid with `max_val = 1` whose pixel is 1. -/
def unitGrid : PGM :=
  { width := 1, height := 1, max_val := 1, pixels := fun _ _ => 1 }

/-- The loop of lines 241-247 over an arbitrary list of offsets, started at `init`. -/
def minLabelOver (markers : Int → Int → Int) (i j : Int) (ds : List (Int × Int)) (init : Int) :
    Int :=
  ds.foldl
    (fun min_label d =>
      if markers (i + d.1) (j + d.2) > 0 ∧ markers (i + d.1) (j + d.2) < min_label then
        markers (i + d.1) (j + d.2)
      else min_label)
    init

/-- The condition under which the body of a relaxation sweep assigns a marker at `p`. -/
def relaxFires (img : PGM) (current_label : Int) (markers : Int → Int → Int) (p : Int × Int) :
    Prop :=
  img.pixels p.1 p.2 = 0 ∧ markers p.1 p.2 = 0 ∧
    minLabel markers current_label p.1 p.2 < current_label

instance (img : PGM) (current_label : Int) (markers : Int → Int → Int) (p : Int × Int) :
    Decidable (relaxFires img current_label markers p) := by
  unfold relaxFires
  infer_instance

/-- Invariant of the marker buffer during relaxation: marker values lie between 1 and the
number of seeds, seeds keep their ids, and every marked cell carries the id of a seed that is
joined to it by interior zero-valued pixels. -/
structure MarkerInv (img : PGM) (markers : Int → Int → Int) : Prop where
  range : ∀ q : Int × Int, markers q.1 q.2 ≠ 0 →
    1 ≤ markers q.1 q.2 ∧ markers q.1 q.2 < (seedMarkers img).1
  seedKeep : ∀ q : Int × Int, (seedMarkers img).2 q.1 q.2 ≠ 0 →
    markers q.1 q.2 = (seedMarkers img).2 q.1 q.2
  origin : ∀ q : Int × Int, markers q.1 q.2 ≠ 0 →
    ∃ s, isSeed img s ∧ markers q.1 q.2 = (seedMarkers img).2 s.1 s.2 ∧
      Relation.ReflTransGen (intStep img) s q

/-! ## Run trace of the flood fill -/

/-- One iteration of the loop `while (stack_ptr > 0)` of `floodFill`: the pop of lines
153-154 followed by the neighbour loop; a state with an empty stack is left as it is. -/
def floodNext (img : PGM) (label : Int) (st : FloodState) : FloodState :=
  match st.stack with
  | [] => st
  | (x, y) :: rest => floodStep img label x y { st with stack := rest }

/-- The state inside an iteration of the loop of `floodFill` that starts in `st`: after the
pop and the first `n` passes of the neighbour loop. -/
def floodMid (img : PGM) (label : Int) (st : FloodState) (n : Nat) : FloodState :=
  match st.stack with
  | [] => st
  | (x, y) :: rest =>
    ((dx.zip dy).take n).foldl (floodNeighbor img label x y) { st with stack := rest }

/-- The state of `floodFill img x y label labels` at the head of the loop after `k`
iterations. -/
def floodHead (img : PGM) (x y label : Int) (labels : Int → Int → Int) (k : Nat) : FloodState :=
  (floodNext img label)^[k] { stack := [(x, y)], labels := setCell labels x y label }

/-- The state of `floodFill img x y label labels` at the points of its run: `k` complete
iterations of the loop, then the pop and `n` passes of the neighbour loop. -/
def floodAt (img : PGM) (x y label : Int) (labels : Int → Int → Int) (k n : Nat) : FloodState :=
  floodMid img label (floodHead img x y label labels k) n

/-- Invariant behind the stack bound: the stack length plus the number of unlabelled cells
is at most the number of cells, the stack has no repeated cell, and every cell on the stack
is labelled. -/
structure StackInv (img : PGM) (st : FloodState) : Prop where
  measure : st.stack.length + unlabeled img st.labels ≤ img.height.toNat * img.width.toNat
  nodup : st.stack.Nodup
  labelled : ∀ c ∈ st.stack, st.labels c.1 c.2 ≠ 0

/-! ## Reading and writing the text file format (lines 13-87)

A file and a C string are lists of characters.  The C library functions used by the
program are modelled after their standard behaviour; a call that fails in a way the program
does not survive (`exit(1)`, or the use of an unset or null result) yields `none`. -/

/-- The character `'\n'`. -/
def chNewline : Char := Char.ofNat 10

/-- The character `' '`. -/
def chSpace : Char := Char.ofNat 32

/-- The character `'#'`. -/
def chHash : Char := Char.ofNat 35

/-- The character `'+'`. -/
def chPlus : Char := Char.ofNat 43

/-- The character `'-'`. -/
def chMinus : Char := Char.ofNat 45

/-- The terminating character of a C string. -/
def chNul : Char := Char.ofNat 0

/-- The string `"P2\n"`. -/
def magicLine : List Char := [Char.ofNat 80, Char.ofNat 50, chNewline]

/-- The decimal digit character of `d`. -/
def digitChar (d : Nat) : Char := Char.ofNat (48 + d)

/-- Decimal representation of a natural number, most significant digit first. -/
def printNat (n : Nat) : List Char :=
  if n = 0 then [digitChar 0] else (Nat.digits 10 n).reverse.map digitChar

/-- Output of the conversion `%d` of `fprintf`. -/
def printInt (v : Int) : List Char :=
  if v < 0 then chMinus :: printNat v.natAbs else printNat v.toNat

/-- The C library predicate `isspace` (space, `\t`, `\n`, `\v`, `\f`, `\r`). -/
def isSpaceChar (c : Char) : Bool :=
  decide (c.toNat = 32 ∨ (9 ≤ c.toNat ∧ c.toNat ≤ 13))

/-- The C library predicate `isdigit`. -/
def isDigitChar (c : Char) : Bool :=
  decide (48 ≤ c.toNat ∧ c.toNat ≤ 57)

/-- Value of a digit character. -/
def digitValue (c : Char) : Nat := c.toNat - 48

/-- Value of a sequence of decimal digits. -/
def digitsValue (ds : List Char) : Nat :=
  ds.foldl (fun acc c => 10 * acc + digitValue c) 0

/-- The digits part of the conversion `%d`: a non-empty run of digits and the rest of the
input. -/
def scanNat (s : List Char) : Option (Nat × List Char) :=
  if s.takeWhile isDigitChar = [] then none
  else some (digitsValue (s.takeWhile isDigitChar), s.dropWhile isDigitChar)

/-- The conversion `%d` of `sscanf` and `fscanf`: white space is skipped, then an optional
sign and a non-empty run of digits are read.  The result is the value and the unread rest of
the input; `none` when the conversion fails. -/
def scanInt (s : List Char) : Option (Int × List Char) :=
  if (s.dropWhile isSpaceChar).head? = some chMinus then
    (scanNat (s.dropWhile isSpaceChar).tail).map (fun r => (-(r.1 : Int), r.2))
  else if (s.dropWhile isSpaceChar).head? = some chPlus then
    (scanNat (s.dropWhile isSpaceChar).tail).map (fun r => ((r.1 : Int), r.2))
  else (scanNat (s.dropWhile isSpaceChar)).map (fun r => ((r.1 : Int), r.2))

/-- The characters of a C string held in a buffer: those before the first NUL. -/
def cstr (buf : List Char) : List Char := buf.takeWhile (fun c => decide (c ≠ chNul))

/-- The characters that `fgets` stores when it may store at most `n` of them, and the rest
of the file: reading stops after a newline. -/
def fgetsAux : Nat → List Char → List Char × List Char
  | 0, s => ([], s)
  | _ + 1, [] => ([], [])
  | n + 1, c :: t =>
    if c = chNewline then ([c], t) else (c :: (fgetsAux n t).1, (fgetsAux n t).2)

/-- The C library function `fgets(line, size, file)`: the line read and the rest of the
file, or `none` at end of file. -/
def fgets (size : Nat) (file : List Char) : Option (List Char × List Char) :=
  if file = [] then none else some (fgetsAux (size - 1) file)

/-- Function `readValidLine` (lines 13-21): the first line that does not start with `#` and
is longer than one character, with the rest of the file; `none` for the result `NULL` (and
when the fuel is used up). -/
def readValidLine : Nat → List Char → Option (List Char × List Char)
  | 0, _ => none
  | fuel + 1, file =>
    match fgets 1024 file with
    | none => none
    | some r =>
      if r.1.head? ≠ some chHash ∧ (cstr r.1).length > 1 then some r
      else readValidLine fuel r.2

/-- Body of the pixel loop of `readPGM` (lines 61-64) on the state (pixel buffer, rest of
the file). -/
def readPixel (acc : Option ((Int → Int → Int) × List Char)) (p : Int × Int) :
    Option ((Int → Int → Int) × List Char) :=
  acc.bind fun st => (scanInt st.2).map (fun r => (setCell st.1 p.1 p.2 r.1, r.2))

/-- Function `readPGM` (lines 24-70) applied to the content of the file.  The loop of
`readValidLine` is given one iteration per character of the file, plus one. -/
def readPGM (file : List Char) : Option PGM :=
  (fgets 1024 file).bind fun l1 =>
    if cstr l1.1 ≠ magicLine then none
    else
      (readValidLine (l1.2.length + 1) l1.2).bind fun l2 =>
        (scanInt (cstr l2.1)).bind fun w =>
          (scanInt w.2).bind fun h =>
            (readValidLine (l2.2.length + 1) l2.2).bind fun l3 =>
              (scanInt (cstr l3.1)).bind fun mv =>
                ((rasterCells 0 h.1 0 w.1).foldl readPixel (some (fun _ _ => 0, l3.2))).map
                  (fun st => { width := w.1, height := h.1, max_val := mv.1, pixels := st.1 })

/-- Function `writePGM` (lines 73-87): the text written to the file. -/
def writePGM (img : PGM) : List Char :=
  magicLine ++ printInt img.width ++ [chSpace] ++ printInt img.height ++ [chNewline]
    ++ printInt img.max_val ++ [chNewline]
    ++ (rangeInt 0 img.height).flatMap (fun i =>
        (rangeInt 0 img.width).flatMap (fun j => printInt (img.pixels i j) ++ [chSpace])
          ++ [chNewline])

/-- The pixel buffer after the cells `cells` have been stored with the values of `pix`. -/
def fillCells (pix : Int → Int → Int) (cells : List (Int × Int)) (buf : Int → Int → Int) :
    Int → Int → Int :=
  cells.foldl (fun b p => setCell b p.1 p.2 (pix p.1 p.2)) buf

/-! ## Lemmas -/

/-! ### Loop ranges and 8-adjacency -/

theorem mem_rangeInt (lo hi i : Int) : i ∈ rangeInt lo hi ↔ lo ≤ i ∧ i < hi := by
  unfold rangeInt
  simp only [List.mem_map, List.mem_range]
  constructor
  · rintro ⟨n, hn, rfl⟩
    omega
  · intro h
    exact ⟨(i - lo).toNat, by omega, by omega⟩

theorem mem_rasterCells (r0 r1 c0 c1 : Int) (p : Int × Int) :
    p ∈ rasterCells r0 r1 c0 c1 ↔ (r0 ≤ p.1 ∧ p.1 < r1) ∧ (c0 ≤ p.2 ∧ p.2 < c1) := by
  unfold rasterCells
  simp only [List.mem_flatMap, List.mem_map, mem_rangeInt]
  constructor
  · rintro ⟨i, hi, j, hj, rfl⟩
    exact ⟨hi, hj⟩
  · intro h
    exact ⟨p.1, h.1, p.2, h.2, rfl⟩

theorem mem_dirs (d : Int × Int) :
    d ∈ dx.zip dy ↔ d ≠ (0, 0) ∧ |d.1| ≤ 1 ∧ |d.2| ≤ 1 := by
  obtain ⟨a, b⟩ := d
  simp only [dx, dy, List.zip_cons_cons, List.zip_nil_right, List.mem_cons, Prod.mk.injEq,
    List.mem_nil_iff, or_false, ne_eq, abs_le]
  constructor
  · intro h
    omega
  · intro h
    omega

theorem adjacent8_iff (p q : Int × Int) :
    adjacent8 p q ↔ ∃ d ∈ dx.zip dy, q = (p.1 + d.1, p.2 + d.2) := by
  constructor
  · rintro ⟨hne, h1, h2⟩
    refine ⟨(q.1 - p.1, q.2 - p.2), (mem_dirs _).2 ⟨?_, h1, h2⟩, ?_⟩
    · intro h
      simp only [Prod.mk.injEq] at h
      exact hne (Prod.ext (by omega) (by omega))
    · ext <;> simp
  · rintro ⟨d, hd, rfl⟩
    obtain ⟨hne, h1, h2⟩ := (mem_dirs d).1 hd
    refine ⟨?_, by simpa using h1, by simpa using h2⟩
    intro h
    apply hne
    have h1 := congrArg Prod.fst h
    have h2 := congrArg Prod.snd h
    simp at h1 h2
    ext <;> simp [h1, h2]

theorem adjacent8_symm {p q : Int × Int} (h : adjacent8 p q) : adjacent8 q p := by
  obtain ⟨hne, h1, h2⟩ := h
  refine ⟨fun e => hne e.symm, ?_, ?_⟩
  · rw [abs_sub_comm]; exact h1
  · rw [abs_sub_comm]; exact h2

theorem fgStep_symm {img : PGM} {p q : Int × Int} (h : fgStep img p q) : fgStep img q p :=
  ⟨h.2.1, h.1, adjacent8_symm h.2.2⟩

theorem fgConnected_symm {img : PGM} {p q : Int × Int} (h : fgConnected img p q) :
    fgConnected img q p := by
  induction h with
  | refl => exact Relation.ReflTransGen.refl
  | tail _ hbc ih => exact Relation.ReflTransGen.head (fgStep_symm hbc) ih

/-! ### Flood fill: termination measure and loop invariant -/

@[simp] theorem setCell_apply (buf : Int → Int → Int) (x y v a b : Int) :
    setCell buf x y v a b = if a = x ∧ b = y then v else buf a b := rfl

theorem countP_lt_of_imp {α : Type} (P Q : α → Bool) (q : α) (hQ : Q q = true) (hP : P q = false)
    (himp : ∀ a, P a = true → Q a = true) :
    ∀ l : List α, q ∈ l → l.countP P < l.countP Q := by
  intro l
  induction l with
  | nil => intro h; simp at h
  | cons a l ih =>
    intro hq
    have hmono : l.countP P ≤ l.countP Q := List.countP_mono_left (fun x _ hx => himp x hx)
    rcases List.mem_cons.1 hq with rfl | hq
    · rw [List.countP_cons_of_pos _ _ hQ, List.countP_cons_of_neg _ _ (by simp [hP])]
      omega
    · have := ih hq
      by_cases hPa : P a = true
      · rw [List.countP_cons_of_pos _ _ hPa, List.countP_cons_of_pos _ _ (himp a hPa)]
        omega
      · rw [List.countP_cons_of_neg _ _ hPa]
        by_cases hQa : Q a = true
        · rw [List.countP_cons_of_pos _ _ hQa]; omega
        · rw [List.countP_cons_of_neg _ _ hQa]; omega

theorem unlabeled_setCell_lt (img : PGM) (labels : Int → Int → Int) (q : Int × Int) (v : Int)
    (hq : inBounds img q) (h0 : labels q.1 q.2 = 0) (hv : v ≠ 0) :
    unlabeled img (setCell labels q.1 q.2 v) < unlabeled img labels := by
  unfold unlabeled
  apply countP_lt_of_imp _ _ q
  · simpa using h0
  · simp [hv]
  · intro a ha
    simp only [setCell_apply, decide_eq_true_eq] at ha ⊢
    split at ha
    · exact absurd ha hv
    · exact ha
  · rw [mem_rasterCells]
    exact ⟨⟨hq.1, hq.2.1⟩, hq.2.2.1, hq.2.2.2⟩

theorem floodNeighbor_measure (img : PGM) (label x y : Int) (hl : label ≠ 0) (st : FloodState)
    (d : Int × Int) :
    (floodNeighbor img label x y st d).stack.length
        + unlabeled img (floodNeighbor img label x y st d).labels
      ≤ st.stack.length + unlabeled img st.labels := by
  unfold floodNeighbor
  simp only
  split
  · rename_i h
    have hlt := unlabeled_setCell_lt img st.labels (x + d.1, y + d.2) label
      ⟨h.1, h.2.1, h.2.2.1, h.2.2.2.1⟩ h.2.2.2.2.2 hl
    simp only [List.length_cons] at hlt ⊢
    omega
  · exact le_refl _

theorem floodStep_measure (img : PGM) (label x y : Int) (hl : label ≠ 0) :
    ∀ (ds : List (Int × Int)) (st : FloodState),
      (ds.foldl (floodNeighbor img label x y) st).stack.length
          + unlabeled img (ds.foldl (floodNeighbor img label x y) st).labels
        ≤ st.stack.length + unlabeled img st.labels := by
  intro ds
  induction ds with
  | nil => intro st; exact le_refl _
  | cons d ds ih =>
    intro st
    exact le_trans (ih _) (floodNeighbor_measure img label x y hl st d)

theorem floodNeighbor_mono (img : PGM) (label x y : Int) (hl : label ≠ 0) (st : FloodState)
    (d : Int × Int) (p : Int × Int) (hp : st.labels p.1 p.2 ≠ 0) :
    (floodNeighbor img label x y st d).labels p.1 p.2 ≠ 0 := by
  unfold floodNeighbor
  simp only
  split
  · simp only [setCell_apply]
    split
    · exact hl
    · exact hp
  · exact hp

theorem floodStep_mono (img : PGM) (label x y : Int) (hl : label ≠ 0) (p : Int × Int) :
    ∀ (ds : List (Int × Int)) (st : FloodState), st.labels p.1 p.2 ≠ 0 →
      (ds.foldl (floodNeighbor img label x y) st).labels p.1 p.2 ≠ 0 := by
  intro ds
  induction ds with
  | nil => intro st h; exact h
  | cons d ds ih =>
    intro st h
    exact ih _ (floodNeighbor_mono img label x y hl st d p h)

theorem floodNeighbor_done (img : PGM) (label x y : Int) (hl : label ≠ 0) (st : FloodState)
    (d : Int × Int) (hfg : isForeground img (x + d.1, y + d.2)) :
    (floodNeighbor img label x y st d).labels (x + d.1) (y + d.2) ≠ 0 := by
  unfold floodNeighbor
  simp only
  split
  · simp [hl]
  · rename_i h
    intro h0
    exact h ⟨hfg.1.1, hfg.1.2.1, hfg.1.2.2.1, hfg.1.2.2.2, hfg.2, h0⟩

theorem floodStep_done (img : PGM) (label x y : Int) (hl : label ≠ 0) :
    ∀ (ds : List (Int × Int)) (st : FloodState) (d : Int × Int), d ∈ ds →
      isForeground img (x + d.1, y + d.2) →
      (ds.foldl (floodNeighbor img label x y) st).labels (x + d.1) (y + d.2) ≠ 0 := by
  intro ds
  induction ds with
  | nil => intro st d hd; simp at hd
  | cons e ds ih =>
    intro st d hd hfg
    rcases List.mem_cons.1 hd with rfl | hd
    · exact floodStep_mono img label x y hl (x + d.1, y + d.2) ds _
        (floodNeighbor_done img label x y hl st d hfg)
    · exact ih _ d hd hfg

theorem floodNeighbor_inv (img : PGM) (L0 : Int → Int → Int) (s : Int × Int) (label x y : Int)
    (hl : label ≠ 0) (hfg : isForeground img (x, y)) (hconn : fgConnected img s (x, y))
    (st : FloodState) (d : Int × Int) (hd : d ∈ dx.zip dy)
    (inv : FloodInv img L0 s (some (x, y)) st) :
    FloodInv img L0 s (some (x, y)) (floodNeighbor img label x y st d) := by
  have hmono := floodNeighbor_mono img label x y hl st d
  unfold floodNeighbor at hmono ⊢
  simp only at hmono ⊢
  split
  · rename_i h
    rw [if_pos h] at hmono
    have hq : isForeground img (x + d.1, y + d.2) := ⟨⟨h.1, h.2.1, h.2.2.1, h.2.2.2.1⟩, h.2.2.2.2.1⟩
    have hadj : adjacent8 (x, y) (x + d.1, y + d.2) := (adjacent8_iff _ _).2 ⟨d, hd, rfl⟩
    have hcq : fgConnected img s (x + d.1, y + d.2) :=
      Relation.ReflTransGen.tail hconn ⟨hfg, hq, hadj⟩
    refine ⟨hmono s inv.seed, fun p hp => hmono p (inv.keep p hp), ?_, ?_, ?_⟩
    · intro p hp
      simp only [setCell_apply] at hp
      split at hp
      · rename_i hpq
        right
        have : p = (x + d.1, y + d.2) := Prod.ext hpq.1 hpq.2
        rw [this]; exact hcq
      · exact inv.sound p hp
    · intro p hp
      rcases List.mem_cons.1 hp with rfl | hp
      · exact ⟨hq, hcq⟩
      · exact inv.stk p hp
    · intro p q hp0 hp hpq
      by_cases hpe : p = (x + d.1, y + d.2)
      · right; left; rw [hpe]; exact List.mem_cons_self _ _
      · have hp' : st.labels p.1 p.2 ≠ 0 := by
          simp only [setCell_apply] at hp
          split at hp
          · rename_i hpq'
            exact absurd (Prod.ext hpq'.1 hpq'.2) hpe
          · exact hp
        rcases inv.closed p q hp0 hp' hpq with h1 | h1 | h1
        · left; exact hmono q h1
        · right; left; exact List.mem_cons_of_mem _ h1
        · right; right; exact h1
  · exact inv

theorem floodStep_inv (img : PGM) (L0 : Int → Int → Int) (s : Int × Int) (label x y : Int)
    (hl : label ≠ 0) (hfg : isForeground img (x, y)) (hconn : fgConnected img s (x, y)) :
    ∀ (ds : List (Int × Int)), (∀ d ∈ ds, d ∈ dx.zip dy) → ∀ st : FloodState,
      FloodInv img L0 s (some (x, y)) st →
      FloodInv img L0 s (some (x, y)) (ds.foldl (floodNeighbor img label x y) st) := by
  intro ds
  induction ds with
  | nil => intro _ st inv; exact inv
  | cons d ds ih =>
    intro hds st inv
    exact ih (fun e he => hds e (List.mem_cons_of_mem _ he)) _
      (floodNeighbor_inv img L0 s label x y hl hfg hconn st d (hds d (List.mem_cons_self _ _)) inv)

theorem floodLoop_spec (img : PGM) (L0 : Int → Int → Int) (s : Int × Int) (label : Int)
    (hl : label ≠ 0) :
    ∀ (fuel : Nat) (st : FloodState), FloodInv img L0 s none st →
      st.stack.length + unlabeled img st.labels < fuel →
      ∃ ls, floodLoop img label fuel st = some ls ∧ FloodInv img L0 s none ⟨[], ls⟩ := by
  intro fuel
  induction fuel with
  | zero => intro st _ h; omega
  | succ fuel ih =>
    intro st inv hfuel
    obtain ⟨stack, labels⟩ := st
    cases stack with
    | nil => exact ⟨labels, rfl, inv⟩
    | cons c rest =>
      obtain ⟨x, y⟩ := c
      have hc := inv.stk (x, y) (List.mem_cons_self _ _)
      have inv1 : FloodInv img L0 s (some (x, y)) ⟨rest, labels⟩ := by
        refine ⟨inv.seed, inv.keep, inv.sound, fun p hp => inv.stk p (List.mem_cons_of_mem _ hp), ?_⟩
        intro p q hp0 hp hpq
        rcases inv.closed p q hp0 hp hpq with h1 | h1 | h1
        · left; exact h1
        · rcases List.mem_cons.1 h1 with rfl | h1
          · right; right; rfl
          · right; left; exact h1
        · cases h1
      have inv2 := floodStep_inv img L0 s label x y hl hc.1 hc.2 (dx.zip dy) (fun d hd => hd) _ inv1
      have inv3 : FloodInv img L0 s none (floodStep img label x y ⟨rest, labels⟩) := by
        refine ⟨inv2.seed, inv2.keep, inv2.sound, inv2.stk, ?_⟩
        intro p q hp0 hp hpq
        rcases inv2.closed p q hp0 hp hpq with h1 | h1 | h1
        · left; exact h1
        · right; left; exact h1
        · left
          have hpe : p = (x, y) := (Option.some.inj h1).symm
          subst hpe
          obtain ⟨d, hd, rfl⟩ := (adjacent8_iff _ _).1 hpq.2.2
          exact floodStep_done img label x y hl (dx.zip dy) _ d hd hpq.2.1
      have hm := floodStep_measure img label x y hl (dx.zip dy) ⟨rest, labels⟩
      simp only [List.length_cons] at hfuel hm
      have := ih (floodStep img label x y ⟨rest, labels⟩) inv3 (by unfold floodStep; omega)
      simpa [floodLoop] using this

theorem length_rasterCells (r0 r1 c0 c1 : Int) :
    (rasterCells r0 r1 c0 c1).length = (r1 - r0).toNat * (c1 - c0).toNat := by
  unfold rasterCells
  have hrow : ∀ l : List Int,
      (l.flatMap (fun i => (rangeInt c0 c1).map (fun j => (i, j)))).length
        = l.length * (c1 - c0).toNat := by
    intro l
    induction l with
    | nil => simp
    | cons a l ih =>
      simp only [List.flatMap_cons, List.length_append, List.length_map, ih, List.length_cons]
      simp only [rangeInt, List.length_map, List.length_range]
      ring
  rw [hrow]
  simp [rangeInt]

theorem unlabeled_le (img : PGM) (labels : Int → Int → Int) :
    unlabeled img labels ≤ img.height.toNat * img.width.toNat := by
  unfold unlabeled
  refine le_trans (List.countP_le_length _) ?_
  rw [length_rasterCells]
  simp

theorem floodFill_spec (img : PGM) (s : Int × Int) (label : Int) (L0 : Int → Int → Int)
    (hl : label ≠ 0) (hs : isForeground img s) (h0 : L0 s.1 s.2 = 0)
    (hclosed : ∀ p q : Int × Int, L0 p.1 p.2 ≠ 0 → fgStep img p q → L0 q.1 q.2 ≠ 0) :
    ∃ ls, floodFill img s.1 s.2 label L0 = some (label, ls) ∧
      ∀ p : Int × Int, ls p.1 p.2 ≠ 0 ↔ (L0 p.1 p.2 ≠ 0 ∨ fgConnected img s p) := by
  have inv0 : FloodInv img L0 s none ⟨[s], setCell L0 s.1 s.2 label⟩ := by
    refine ⟨by simp [hl], ?_, ?_, ?_, ?_⟩
    · intro p hp
      simp only [setCell_apply]
      split
      · exact hl
      · exact hp
    · intro p hp
      simp only [setCell_apply] at hp
      split at hp
      · rename_i h
        right
        rw [show p = s from Prod.ext h.1 h.2]
        exact Relation.ReflTransGen.refl
      · left; exact hp
    · intro p hp
      rw [List.mem_singleton] at hp
      subst hp
      exact ⟨hs, Relation.ReflTransGen.refl⟩
    · intro p q hp0 hp _
      simp only [setCell_apply] at hp
      split at hp
      · rename_i h
        right; left
        rw [show p = s from Prod.ext h.1 h.2]
        exact List.mem_singleton.2 rfl
      · exact absurd hp0 hp
  have hfuel : ([s] : List (Int × Int)).length + unlabeled img (setCell L0 s.1 s.2 label)
      < (img.height * img.width).toNat + 1 := by
    have h1 := unlabeled_setCell_lt img L0 s label hs.1 h0 hl
    have h2 := unlabeled_le img L0
    have h3 : (img.height * img.width).toNat = img.height.toNat * img.width.toNat := by
      obtain ⟨hh0, hh1, hw0, hw1⟩ := hs.1
      have hh : 0 ≤ img.height := by omega
      have hw : 0 ≤ img.width := by omega
      obtain ⟨a, ha⟩ := Int.eq_ofNat_of_zero_le hh
      obtain ⟨b, hb⟩ := Int.eq_ofNat_of_zero_le hw
      rw [ha, hb, ← Nat.cast_mul, Int.toNat_natCast, Int.toNat_natCast, Int.toNat_natCast]
    simp only [List.length_singleton]
    omega
  obtain ⟨ls, hls, inv⟩ := floodLoop_spec img L0 s label hl _ _ inv0 hfuel
  refine ⟨ls, ?_, ?_⟩
  · unfold floodFill
    simp only [hls, Option.map_some']
  · intro p
    constructor
    · exact inv.sound p
    · rintro (hp | hp)
      · exact inv.keep p hp
      · induction hp with
        | refl => exact inv.seed
        | @tail b c _ hbc ih =>
          by_cases hb : L0 b.1 b.2 = 0
          · rcases inv.closed b c hb ih hbc with h1 | h1 | h1
            · exact h1
            · simp at h1
            · cases h1
          · exact inv.keep c (hclosed b c hb hbc)

/-! ### The raster loop of `labelComponents` -/

theorem labelCell_spec (img : PGM) (reps : List (Int × Int)) (st : Int × (Int → Int → Int))
    (p : Int × Int) (hp : inBounds img p) (inv : LabelInv img reps st) :
    ∃ st' reps', labelCell img (some st) p = some st' ∧ LabelInv img reps' st' ∧
      (∀ q : Int × Int, st.2 q.1 q.2 ≠ 0 → st'.2 q.1 q.2 ≠ 0) ∧
      (isForeground img p → st'.2 p.1 p.2 ≠ 0) := by
  unfold labelCell
  simp only [Option.some_bind]
  split
  · rename_i h
    have hfg : isForeground img p := ⟨hp, h.1⟩
    have hl : st.1 ≠ 0 := by have := inv.count; omega
    have hclosed : ∀ a b : Int × Int, st.2 a.1 a.2 ≠ 0 → fgStep img a b → st.2 b.1 b.2 ≠ 0 := by
      intro a b ha hab
      obtain ⟨r, hr, hra⟩ := (inv.lab a).1 ha
      exact (inv.lab b).2 ⟨r, hr, Relation.ReflTransGen.tail hra hab⟩
    obtain ⟨ls, hls, hspec⟩ := floodFill_spec img p st.1 st.2 hl hfg h.2 hclosed
    refine ⟨(st.1 + 1, ls), p :: reps, by simp [hls], ⟨?_, ?_, ?_, ?_⟩, ?_, ?_⟩
    · simp only [List.length_cons, Nat.cast_add, Nat.cast_one]
      have := inv.count
      omega
    · intro r hr
      rcases List.mem_cons.1 hr with rfl | hr
      · exact hfg
      · exact inv.fg r hr
    · refine List.pairwise_cons.2 ⟨?_, inv.sep⟩
      intro r hr hpr
      exact (inv.lab p).2 ⟨r, hr, fgConnected_symm hpr⟩ h.2
    · intro q
      rw [hspec q, inv.lab q]
      constructor
      · rintro (⟨r, hr, hrq⟩ | hpq)
        · exact ⟨r, List.mem_cons_of_mem _ hr, hrq⟩
        · exact ⟨p, List.mem_cons_self _ _, hpq⟩
      · rintro ⟨r, hr, hrq⟩
        rcases List.mem_cons.1 hr with rfl | hr
        · exact Or.inr hrq
        · exact Or.inl ⟨r, hr, hrq⟩
    · intro q hq
      exact (hspec q).2 (Or.inl hq)
    · intro _
      exact (hspec p).2 (Or.inr Relation.ReflTransGen.refl)
  · rename_i h
    refine ⟨st, reps, rfl, inv, fun q hq => hq, ?_⟩
    intro hfg h0
    exact h ⟨hfg.2, h0⟩

theorem labelCells_spec (img : PGM) :
    ∀ (cells : List (Int × Int)), (∀ p ∈ cells, inBounds img p) →
      ∀ (reps : List (Int × Int)) (st : Int × (Int → Int → Int)), LabelInv img reps st →
      ∃ st' reps', cells.foldl (labelCell img) (some st) = some st' ∧ LabelInv img reps' st' ∧
        (∀ q : Int × Int, st.2 q.1 q.2 ≠ 0 → st'.2 q.1 q.2 ≠ 0) ∧
        (∀ p ∈ cells, isForeground img p → st'.2 p.1 p.2 ≠ 0) := by
  intro cells
  induction cells with
  | nil =>
    intro _ reps st inv
    exact ⟨st, reps, rfl, inv, fun q hq => hq, fun p hp => by simp at hp⟩
  | cons c cells ih =>
    intro hin reps st inv
    obtain ⟨st1, reps1, h1, inv1, mono1, done1⟩ :=
      labelCell_spec img reps st c (hin c (List.mem_cons_self _ _)) inv
    obtain ⟨st2, reps2, h2, inv2, mono2, done2⟩ :=
      ih (fun p hp => hin p (List.mem_cons_of_mem _ hp)) reps1 st1 inv1
    refine ⟨st2, reps2, by simp only [List.foldl_cons, h1, h2], inv2,
      fun q hq => mono2 q (mono1 q hq), ?_⟩
    intro p hp hfg
    rcases List.mem_cons.1 hp with rfl | hp
    · exact mono2 p (done1 hfg)
    · exact done2 p hp hfg

theorem labelComponents_reps (img : PGM) :
    ∃ reps : List (Int × Int), labelComponents img = some (reps.length : Int) ∧
      (∀ r ∈ reps, isForeground img r) ∧
      reps.Pairwise (fun a b => ¬ fgConnected img a b) ∧
      ∀ p : Int × Int, isForeground img p → ∃ r ∈ reps, fgConnected img r p := by
  have inv0 : LabelInv img [] (1, fun _ _ => 0) :=
    ⟨by simp, fun r hr => by simp at hr, List.Pairwise.nil, fun p => by simp⟩
  obtain ⟨st, reps, hrun, inv, _, hdone⟩ :=
    labelCells_spec img (rasterCells 0 img.height 0 img.width)
      (fun p hp => by
        rw [mem_rasterCells] at hp
        exact ⟨hp.1.1, hp.1.2, hp.2.1, hp.2.2⟩) [] _ inv0
  refine ⟨reps, ?_, inv.fg, inv.sep, ?_⟩
  · unfold labelComponents
    rw [hrun]
    simp only [Option.map_some', inv.count]
    congr 1
    omega
  · intro p hp
    apply (inv.lab p).1
    apply hdone p _ hp
    rw [mem_rasterCells]
    exact ⟨⟨hp.1.1, hp.1.2.1⟩, hp.1.2.2.1, hp.1.2.2.2⟩

/-! ### Counting components through representatives -/

theorem reps_bijective (img : PGM) (reps : List (Int × Int))
    (hfg : ∀ r ∈ reps, isForeground img r)
    (hsep : reps.Pairwise (fun a b => ¬ fgConnected img a b))
    (hall : ∀ p : Int × Int, isForeground img p → ∃ r ∈ reps, fgConnected img r p) :
    ∃ f : Fin reps.length → Quotient (componentSetoid img), Function.Bijective f := by
  refine ⟨fun i => Quotient.mk _ ⟨reps.get i, hfg _ (List.get_mem reps i.1 i.2)⟩, ?_, ?_⟩
  · intro i j hij
    have hc : fgConnected img (reps.get i) (reps.get j) := Quotient.exact hij
    rw [List.pairwise_iff_get] at hsep
    by_contra hne
    rcases lt_or_gt_of_ne hne with h | h
    · exact hsep i j h hc
    · exact hsep j i h (fgConnected_symm hc)
  · intro c
    induction c using Quotient.inductionOn with
    | _ a =>
      obtain ⟨r, hr, hra⟩ := hall a.1 a.2
      obtain ⟨i, hi⟩ := List.get_of_mem hr
      refine ⟨i, ?_⟩
      apply Quotient.sound
      show fgConnected img (reps.get i) a.1
      rw [hi]; exact hra

theorem componentCount_eq_length (img : PGM) (reps : List (Int × Int))
    (hfg : ∀ r ∈ reps, isForeground img r)
    (hsep : reps.Pairwise (fun a b => ¬ fgConnected img a b))
    (hall : ∀ p : Int × Int, isForeground img p → ∃ r ∈ reps, fgConnected img r p) :
    componentCount img = reps.length := by
  obtain ⟨f, hf⟩ := reps_bijective img reps hfg hsep hall
  unfold componentCount
  rw [← Nat.card_congr (Equiv.ofBijective f hf), Nat.card_eq_fintype_card, Fintype.card_fin]

theorem componentClasses_finite (img : PGM) : Finite (Quotient (componentSetoid img)) := by
  obtain ⟨reps, _, hfg, hsep, hall⟩ := labelComponents_reps img
  obtain ⟨f, hf⟩ := reps_bijective img reps hfg hsep hall
  exact Finite.of_surjective f hf.2

theorem labelComponents_eq (img : PGM) :
    labelComponents img = some (componentCount img : Int) := by
  obtain ⟨reps, hrun, hfg, hsep, hall⟩ := labelComponents_reps img
  rw [hrun, componentCount_eq_length img reps hfg hsep hall]

/-! ### Window statistics of the thresholder -/

theorem nodup_rangeInt (lo hi : Int) : (rangeInt lo hi).Nodup := by
  unfold rangeInt
  refine List.Nodup.map ?_ (List.nodup_range _)
  intro a b h
  simpa using h

theorem nodup_rasterCells (r0 r1 c0 c1 : Int) : (rasterCells r0 r1 c0 c1).Nodup := by
  have h : rasterCells r0 r1 c0 c1 = (rangeInt r0 r1) ×ˢ (rangeInt c0 c1) := rfl
  rw [h]
  exact List.Nodup.product (nodup_rangeInt _ _) (nodup_rangeInt _ _)

theorem nodup_windowCells (img : PGM) (windowSize i j : Int) :
    (windowCells img windowSize i j).Nodup := nodup_rasterCells _ _ _ _

theorem windowCells_toFinset (img : PGM) (windowSize i j : Int) :
    (windowCells img windowSize i j).toFinset = sauvolaWindow img windowSize i j := by
  ext p
  simp only [windowCells, List.mem_toFinset, mem_rasterCells, sauvolaWindow, Finset.mem_product,
    Finset.mem_Icc]
  omega

theorem foldl_windowAdd (img : PGM) :
    ∀ (cells : List (Int × Int)) (acc : WindowSums),
      cells.foldl (windowAdd img) acc =
        { sum := acc.sum + (cells.map (fun p => (img.pixels p.1 p.2 : ℝ))).sum
          sumSq := acc.sumSq +
            (cells.map (fun p => ((wrapInt (img.pixels p.1 p.2 * img.pixels p.1 p.2) : Int) : ℝ))).sum
          num := acc.num + (cells.length : ℝ) } := by
  intro cells
  induction cells with
  | nil => intro acc; simp
  | cons c cells ih =>
    intro acc
    rw [List.foldl_cons, ih]
    simp only [windowAdd, List.map_cons, List.sum_cons, List.length_cons, Nat.cast_add,
      Nat.cast_one]
    congr 1 <;> ring

theorem wrapInt_of_small (v : Int) (h0 : 0 ≤ v) (h1 : v < 2147483648) : wrapInt v = v := by
  unfold wrapInt
  omega

theorem windowSums_sum (img : PGM) (windowSize i j : Int) :
    (windowSums img windowSize i j).sum
      = ∑ p ∈ sauvolaWindow img windowSize i j, (img.pixels p.1 p.2 : ℝ) := by
  unfold windowSums
  rw [foldl_windowAdd, ← windowCells_toFinset,
    List.sum_toFinset _ (nodup_windowCells _ _ _ _)]
  simp

theorem windowSums_num (img : PGM) (windowSize i j : Int) :
    (windowSums img windowSize i j).num = ((sauvolaWindow img windowSize i j).card : ℝ) := by
  unfold windowSums
  rw [foldl_windowAdd, ← windowCells_toFinset,
    List.toFinset_card_of_nodup (nodup_windowCells _ _ _ _)]
  simp

theorem windowSums_sumSq (img : PGM) (windowSize i j : Int)
    (hsmall : ∀ p ∈ sauvolaWindow img windowSize i j,
      img.pixels p.1 p.2 * img.pixels p.1 p.2 < 2147483648) :
    (windowSums img windowSize i j).sumSq
      = ∑ p ∈ sauvolaWindow img windowSize i j, (img.pixels p.1 p.2 : ℝ) ^ 2 := by
  unfold windowSums
  rw [foldl_windowAdd, ← windowCells_toFinset,
    List.sum_toFinset _ (nodup_windowCells _ _ _ _)]
  simp only [zero_add]
  rw [← windowCells_toFinset] at hsmall
  have : ∀ p ∈ windowCells img windowSize i j,
      ((wrapInt (img.pixels p.1 p.2 * img.pixels p.1 p.2) : Int) : ℝ)
        = (img.pixels p.1 p.2 : ℝ) ^ 2 := by
    intro p hp
    rw [wrapInt_of_small _ (mul_self_nonneg _) (hsmall p (List.mem_toFinset.2 hp))]
    push_cast
    ring
  exact congrArg List.sum (List.map_congr_left this)

theorem variance_identity {ι : Type} (W : Finset ι) (f : ι → ℝ) :
    (∑ p ∈ W, (f p - (∑ q ∈ W, f q) / (W.card : ℝ)) ^ 2) / (W.card : ℝ)
      = (∑ p ∈ W, f p ^ 2) / (W.card : ℝ)
        - (∑ q ∈ W, f q) / (W.card : ℝ) * ((∑ q ∈ W, f q) / (W.card : ℝ)) := by
  by_cases hn : (W.card : ℝ) = 0
  · simp [hn]
  · have hexp : ∑ p ∈ W, (f p - (∑ q ∈ W, f q) / (W.card : ℝ)) ^ 2
        = (∑ p ∈ W, f p ^ 2) - 2 * ((∑ q ∈ W, f q) / (W.card : ℝ)) * (∑ p ∈ W, f p)
          + (W.card : ℝ) * ((∑ q ∈ W, f q) / (W.card : ℝ)) ^ 2 := by
      simp only [sub_sq, Finset.sum_add_distrib, Finset.sum_sub_distrib, Finset.sum_const,
        nsmul_eq_mul]
      rw [Finset.mul_sum]
      congr 2
      apply Finset.sum_congr rfl
      intro x _
      ring
    rw [hexp]
    field_simp
    ring

theorem sauvolaMean_eq (img : PGM) (windowSize i j : Int) :
    sauvolaMean img windowSize i j = windowMean img windowSize i j := by
  unfold sauvolaMean windowMean
  rw [windowSums_sum, windowSums_num]

theorem sauvolaStdDev_eq (img : PGM) (windowSize i j : Int)
    (hsmall : ∀ p ∈ sauvolaWindow img windowSize i j,
      img.pixels p.1 p.2 * img.pixels p.1 p.2 < 2147483648) :
    sauvolaStdDev img windowSize i j = windowStdDev img windowSize i j := by
  unfold sauvolaStdDev windowStdDev
  rw [sauvolaMean_eq, windowSums_sumSq img windowSize i j hsmall, windowSums_num]
  unfold windowMean
  rw [variance_identity]

/-! ### Exact evaluation of the threshold test for rational parameters -/

theorem lt_mul_sqrt_iff (a b d : ℝ) (hd : 0 ≤ d) :
    a < b * Real.sqrt d ↔
      (0 < b ∧ (a < 0 ∨ a * a < b * b * d)) ∨ (b ≤ 0 ∧ a < 0 ∧ b * b * d < a * a) := by
  have hs : 0 ≤ Real.sqrt d := Real.sqrt_nonneg d
  have hss : Real.sqrt d * Real.sqrt d = d := Real.mul_self_sqrt hd
  have ht : b * b * d = (b * Real.sqrt d) * (b * Real.sqrt d) := by
    rw [mul_mul_mul_comm, hss]
  rw [ht]
  rcases lt_or_le 0 b with hb | hb
  · have htn : 0 ≤ b * Real.sqrt d := mul_nonneg hb.le hs
    constructor
    · intro h
      left
      refine ⟨hb, ?_⟩
      rcases lt_or_le a 0 with ha | ha
      · exact Or.inl ha
      · exact Or.inr (mul_self_lt_mul_self ha h)
    · rintro (⟨_, h | h⟩ | ⟨h, _⟩)
      · exact lt_of_lt_of_le h htn
      · exact lt_of_mul_self_lt_mul_self₀ htn h
      · exact absurd hb (not_lt.2 h)
  · have htn : b * Real.sqrt d ≤ 0 := mul_nonpos_of_nonpos_of_nonneg hb hs
    constructor
    · intro h
      right
      refine ⟨hb, lt_of_lt_of_le h htn, ?_⟩
      have := mul_self_lt_mul_self (neg_nonneg.2 htn) (neg_lt_neg h)
      simpa using this
    · rintro (⟨h, _⟩ | ⟨_, ha, h⟩)
      · exact absurd h (not_lt.2 hb)
      · have h' : (-(b * Real.sqrt d)) * (-(b * Real.sqrt d)) < (-a) * (-a) := by simpa using h
        have := lt_of_mul_self_lt_mul_self₀ (neg_nonneg.2 ha.le) h'
        exact neg_lt_neg_iff.1 this

theorem sqrt_cast_max (D : Int) : Real.sqrt (D : ℝ) = Real.sqrt ((max D 0 : Int) : ℝ) := by
  rcases le_or_lt 0 D with h | h
  · rw [max_eq_left h]
  · rw [max_eq_right h.le, Real.sqrt_eq_zero_of_nonpos (by exact_mod_cast h.le)]
    simp

theorem threshold_test_iff (p S Q N kn kd rn rd : Int) (hN : 0 < N) (hkd : 0 < kd)
    (hrn : 0 < rn) (hrd : 0 < rd) :
    (p : ℝ) < ((S : ℝ) / N) * (1 + ((kn : ℝ) / kd) *
        (Real.sqrt ((Q : ℝ) / N - ((S : ℝ) / N) * ((S : ℝ) / N)) / ((rn : ℝ) / rd) - 1))
      ↔ sauvolaBelowInt p S Q N kn kd rn rd := by
  have hN' : (0 : ℝ) < N := by exact_mod_cast hN
  have hkd' : (0 : ℝ) < kd := by exact_mod_cast hkd
  have hrn' : (0 : ℝ) < rn := by exact_mod_cast hrn
  have hrd' : (0 : ℝ) < rd := by exact_mod_cast hrd
  have hvar : (Q : ℝ) / N - ((S : ℝ) / N) * ((S : ℝ) / N)
      = (((Q * N - S * S : Int) : ℝ)) / ((N : ℝ) * N) := by
    push_cast
    field_simp
    ring
  rw [hvar, Real.sqrt_div' _ (mul_nonneg hN'.le hN'.le), Real.sqrt_mul_self hN'.le,
    sqrt_cast_max]
  set s := Real.sqrt ((max (Q * N - S * S) 0 : Int) : ℝ) with hs
  have hdiff : ((S : ℝ) / N) * (1 + ((kn : ℝ) / kd) * (s / N / ((rn : ℝ) / rd) - 1)) - p
      = (((S * kn * rd : Int) : ℝ) * s
          - ((p * N * N * kd * rn - S * N * rn * (kd - kn) : Int) : ℝ))
        / ((N : ℝ) * N * kd * rn) := by
    push_cast
    field_simp
    ring
  have hden : (0 : ℝ) < (N : ℝ) * N * kd * rn := by positivity
  rw [← sub_pos, hdiff, div_pos_iff_of_pos_right hden, sub_pos,
    lt_mul_sqrt_iff _ _ _ (by exact_mod_cast le_max_right _ _)]
  unfold sauvolaBelowInt
  norm_cast

theorem cast_list_sum_map {α : Type} (f : α → Int) (l : List α) :
    (((l.map f).sum : Int) : ℝ) = (l.map (fun a => (f a : ℝ))).sum := by
  induction l with
  | nil => simp
  | cons a l ih => simp [ih]

theorem windowSums_cast (img : PGM) (windowSize i j : Int) :
    (windowSums img windowSize i j).sum = ((windowSumsInt img windowSize i j).1 : ℝ) ∧
    (windowSums img windowSize i j).sumSq = ((windowSumsInt img windowSize i j).2.1 : ℝ) ∧
    (windowSums img windowSize i j).num = ((windowSumsInt img windowSize i j).2.2 : ℝ) := by
  unfold windowSums windowSumsInt
  rw [foldl_windowAdd]
  simp only [zero_add, cast_list_sum_map, Int.cast_natCast, and_self]

theorem rangeInt_length (lo hi : Int) : (rangeInt lo hi).length = (hi - lo).toNat := by
  simp [rangeInt]

theorem windowSumsInt_num_pos (img : PGM) (windowSize i j : Int) (hw : 0 ≤ windowSize)
    (hij : 0 ≤ i ∧ i < img.height ∧ 0 ≤ j ∧ j < img.width) :
    0 < (windowSumsInt img windowSize i j).2.2 := by
  unfold windowSumsInt windowCells
  simp only [length_rasterCells]
  have h1 : 0 < (min (img.height - 1) (i + windowSize) + 1 - max 0 (i - windowSize)).toNat := by
    omega
  have h2 : 0 < (min (img.width - 1) (j + windowSize) + 1 - max 0 (j - windowSize)).toNat := by
    omega
  exact_mod_cast Nat.mul_pos h1 h2

theorem applySauvolaThreshold_exact (img : PGM) (windowSize kn kd rn rd : Int) (i j : Int)
    (hw : 0 ≤ windowSize) (hkd : 0 < kd) (hrn : 0 < rn) (hrd : 0 < rd)
    (hij : 0 ≤ i ∧ i < img.height ∧ 0 ≤ j ∧ j < img.width) :
    (applySauvolaThreshold img windowSize ((kn : ℝ) / kd) ((rn : ℝ) / rd)).pixels i j
      = (applySauvolaExact img windowSize kn kd rn rd).pixels i j := by
  obtain ⟨h1, h2, h3⟩ := windowSums_cast img windowSize i j
  have hN := windowSumsInt_num_pos img windowSize i j hw hij
  simp only [applySauvolaThreshold, applySauvolaExact, sauvolaThreshold, sauvolaStdDev,
    sauvolaMean, h1, h2, h3]
  rw [if_congr (threshold_test_iff _ _ _ _ kn kd rn rd hN hkd hrn hrd) rfl rfl]

/-! ### The count depends only on the pixels inside the grid -/

theorem fgConnected_congr (img img' : PGM)
    (hfg : ∀ p : Int × Int, isForeground img p ↔ isForeground img' p) (p q : Int × Int) :
    fgConnected img p q ↔ fgConnected img' p q := by
  have hstep : fgStep img = fgStep img' := by
    funext a b
    unfold fgStep
    rw [hfg a, hfg b]
  unfold fgConnected
  rw [hstep]

/-- The count only depends on the size of the grid and on the pixels inside it. -/
theorem labelComponents_congr (img img' : PGM) (hh : img.height = img'.height)
    (hw : img.width = img'.width)
    (hpix : ∀ p : Int × Int, inBounds img p → img.pixels p.1 p.2 = img'.pixels p.1 p.2) :
    labelComponents img = labelComponents img' := by
  have hfg : ∀ p : Int × Int, isForeground img p ↔ isForeground img' p := by
    intro p
    unfold isForeground
    constructor
    · rintro ⟨hb, h0⟩
      refine ⟨?_, ?_⟩
      · unfold inBounds at hb ⊢; rw [← hh, ← hw]; exact hb
      · rw [← hpix p hb]; exact h0
    · rintro ⟨hb, h0⟩
      have hb' : inBounds img p := by unfold inBounds at hb ⊢; rw [hh, hw]; exact hb
      exact ⟨hb', by rw [hpix p hb']; exact h0⟩
  obtain ⟨reps, hrun, hrfg, hsep, hall⟩ := labelComponents_reps img
  have h1 : componentCount img' = reps.length := by
    apply componentCount_eq_length
    · intro r hr; exact (hfg r).1 (hrfg r hr)
    · exact hsep.imp (fun {a b} hab hc => hab ((fgConnected_congr img img' hfg a b).2 hc))
    · intro p hp
      obtain ⟨r, hr, hc⟩ := hall p ((hfg p).2 hp)
      exact ⟨r, hr, (fgConnected_congr img img' hfg r p).1 hc⟩
  rw [hrun, labelComponents_eq img', h1]

theorem labelComponents_sauvola_exact (img : PGM) (windowSize kn kd rn rd : Int)
    (hw : 0 ≤ windowSize) (hkd : 0 < kd) (hrn : 0 < rn) (hrd : 0 < rd) :
    labelComponents (applySauvolaThreshold img windowSize ((kn : ℝ) / kd) ((rn : ℝ) / rd))
      = labelComponents (applySauvolaExact img windowSize kn kd rn rd) := by
  apply labelComponents_congr
  · rfl
  · rfl
  · intro p hp
    exact applySauvolaThreshold_exact img windowSize kn kd rn rd p.1 p.2 hw hkd hrn hrd hp

theorem mainCount_eq_exact (img : PGM) : mainCount img = mainCountExact img := by
  unfold mainCount mainCountExact
  have hk : (0.920 : ℝ) = ((23 : Int) : ℝ) / ((25 : Int) : ℝ) := by norm_num
  have hR : (128 : ℝ) = ((128 : Int) : ℝ) / ((1 : Int) : ℝ) := by norm_num
  rw [hk, hR]
  congr 1
  funext g
  exact labelComponents_sauvola_exact g 17 23 25 128 1 (by norm_num) (by norm_num)
    (by norm_num) (by norm_num)

/-! ### Marker propagation on a grid without seeds -/

theorem isBorder_eq_false_of_not_seed (img : PGM) (p : Int × Int)
    (hint : 1 ≤ p.1 ∧ p.1 ≤ img.height - 2 ∧ 1 ≤ p.2 ∧ p.2 ≤ img.width - 2)
    (h0 : img.pixels p.1 p.2 = 0) (hns : ¬ isSeed img p) : isBorder img p.1 p.2 = false := by
  unfold isBorder
  rw [List.any_eq_false]
  intro d hd
  simp only [decide_eq_true_eq]
  intro h255
  apply hns
  refine ⟨hint.1, hint.2.1, hint.2.2.1, hint.2.2.2, h0, (p.1 + d.1, p.2 + d.2), ?_, h255⟩
  exact (adjacent8_iff _ _).2 ⟨d, hd, rfl⟩

theorem seedCells_of_no_seed (img : PGM) (hns : ∀ p, ¬ isSeed img p) :
    ∀ (cells : List (Int × Int)),
      (∀ p ∈ cells, 1 ≤ p.1 ∧ p.1 ≤ img.height - 2 ∧ 1 ≤ p.2 ∧ p.2 ≤ img.width - 2) →
      ∀ st, cells.foldl (seedCell img) st = st := by
  intro cells
  induction cells with
  | nil => intro _ st; rfl
  | cons c cells ih =>
    intro hin st
    have hc : seedCell img st c = st := by
      unfold seedCell
      split
      · rename_i h0
        rw [isBorder_eq_false_of_not_seed img c (hin c (List.mem_cons_self _ _)) h0 (hns c)]
        rfl
      · rfl
    rw [List.foldl_cons, hc]
    exact ih (fun p hp => hin p (List.mem_cons_of_mem _ hp)) st

theorem minLabel_zero (current_label i j : Int) :
    minLabel (fun _ _ => 0) current_label i j = current_label := by
  unfold minLabel
  generalize dx.zip dy = ds
  induction ds with
  | nil => rfl
  | cons d ds ih => simp [ih]

theorem relaxCells_zero (img : PGM) (current_label : Int) :
    ∀ (cells : List (Int × Int)),
      cells.foldl (relaxCell img current_label) (0, fun _ _ => 0) = (0, fun _ _ => 0) := by
  intro cells
  induction cells with
  | nil => rfl
  | cons c cells ih =>
    have hc : relaxCell img current_label (0, fun _ _ => 0) c = (0, fun _ _ => 0) := by
      unfold relaxCell
      simp only [minLabel_zero, lt_self_iff_false, if_false, ite_self]
    rw [List.foldl_cons, hc]
    exact ih

theorem applyWatershed_of_no_seed (img : PGM) (hns : ∀ p, ¬ isSeed img p) :
    applyWatershed img = some img := by
  have hseed : seedMarkers img = (1, fun _ _ => 0) := by
    unfold seedMarkers
    apply seedCells_of_no_seed img hns
    intro p hp
    rw [mem_rasterCells] at hp
    omega
  have hsweep : relaxSweep img 1 (fun _ _ => 0) = (0, fun _ _ => 0) := by
    unfold relaxSweep
    exact relaxCells_zero img 1 _
  unfold applyWatershed
  rw [hseed]
  simp only [relaxLoop, hsweep, lt_self_iff_false, if_false, Option.map_some']
  unfold commitMarkers
  simp

/-! ### Helpers for the claims -/

theorem fgConnected_of_connectedSet (img : PGM) (A : Set (Int × Int))
    (hsub : ∀ p ∈ A, isForeground img p) (hA : connectedSet A) (a b : Int × Int)
    (ha : a ∈ A) (hb : b ∈ A) : fgConnected img a b :=
  Relation.ReflTransGen.mono (fun p q h => ⟨hsub p h.1, hsub q h.2.1, h.2.2⟩) (hA a ha b hb)

theorem adjacent8_of_diagonal {p q : Int × Int} (h : diagonal p q) : adjacent8 p q := by
  obtain ⟨h1, h2⟩ := h
  refine ⟨?_, by rw [h1], by rw [h2]⟩
  intro e
  rw [e] at h1
  simp at h1

theorem connectedSet_singleton (a : Int × Int) : connectedSet {a} := by
  intro x hx y hy
  rw [Set.mem_singleton_iff] at hx hy
  rw [hx, hy]

theorem labelComponents_of_reps (img : PGM) (reps : List (Int × Int))
    (hfg : ∀ r ∈ reps, isForeground img r)
    (hsep : reps.Pairwise (fun a b => ¬ fgConnected img a b))
    (hall : ∀ p : Int × Int, isForeground img p → ∃ r ∈ reps, fgConnected img r p) :
    labelComponents img = some (reps.length : Int) := by
  rw [labelComponents_eq, componentCount_eq_length img reps hfg hsep hall]

theorem blockGrid_output :
    (rasterCells 0 5 0 5).map
        (fun p => (applySauvolaThreshold blockGrid 1 0.5 128).pixels p.1 p.2)
      = [255, 255, 255, 255, 255,
         255, 0, 0, 0, 255,
         255, 0, 255, 0, 255,
         255, 0, 0, 0, 255,
         255, 255, 255, 255, 255] := by
  have hk : (0.5 : ℝ) = ((1 : Int) : ℝ) / ((2 : Int) : ℝ) := by norm_num
  have hR : (128 : ℝ) = ((128 : Int) : ℝ) / ((1 : Int) : ℝ) := by norm_num
  rw [hk, hR]
  have hex : ∀ p ∈ rasterCells 0 5 0 5,
      (applySauvolaThreshold blockGrid 1 (((1 : Int) : ℝ) / ((2 : Int) : ℝ))
          (((128 : Int) : ℝ) / ((1 : Int) : ℝ))).pixels p.1 p.2
        = (applySauvolaExact blockGrid 1 1 2 128 1).pixels p.1 p.2 := by
    intro p hp
    rw [mem_rasterCells] at hp
    exact applySauvolaThreshold_exact blockGrid 1 1 2 128 1 p.1 p.2 (by norm_num) (by norm_num)
      (by norm_num) (by norm_num) ⟨hp.1.1, hp.1.2, hp.2.1, hp.2.2⟩
  rw [List.map_congr_left hex]
  decide

theorem blockGrid_count :
    labelComponents (applySauvolaThreshold blockGrid 1 0.5 128) = some 1 := by
  have hk : (0.5 : ℝ) = ((1 : Int) : ℝ) / ((2 : Int) : ℝ) := by norm_num
  have hR : (128 : ℝ) = ((128 : Int) : ℝ) / ((1 : Int) : ℝ) := by norm_num
  rw [hk, hR, labelComponents_sauvola_exact blockGrid 1 1 2 128 1 (by norm_num) (by norm_num)
    (by norm_num) (by norm_num)]
  decide

theorem markerGrid_counts :
    mainCount markerGrid = some 1 ∧
      labelComponents (applySauvolaThreshold markerGrid 17 0.920 128) = some 2 := by
  constructor
  · rw [mainCount_eq_exact]
    decide
  · have hk : (0.920 : ℝ) = ((23 : Int) : ℝ) / ((25 : Int) : ℝ) := by norm_num
    have hR : (128 : ℝ) = ((128 : Int) : ℝ) / ((1 : Int) : ℝ) := by norm_num
    rw [hk, hR, labelComponents_sauvola_exact markerGrid 17 23 25 128 1 (by norm_num)
      (by norm_num) (by norm_num) (by norm_num)]
    decide

/-! ## Claims -/

/-- C1: for every grid, `labelComponents` returns the number of 8-connected components of
the zero-valued pixels, that is the (finite) number of equivalence classes of foreground
pixels under the reflexive-transitive closure of 8-adjacency restricted to foreground
pixels. -/
theorem labelComponents_counts_components (img : PGM) :
    Finite (Quotient (componentSetoid img)) ∧
      labelComponents img = some ((Nat.card (Quotient (componentSetoid img)) : Nat) : Int) :=
  ⟨componentClasses_finite img, labelComponents_eq img⟩

/-- C2: with real arithmetic and pixel values whose square fits an `int`, the standard
deviation computed by the code is the population standard deviation of the window, and the
pixel written at `(i, j)` is 0 exactly when the original value is strictly below
`mu * (1 + k * (sigma / R - 1))`, and 255 otherwise, for the window mean `mu` and the window
standard deviation `sigma`. -/
theorem sauvola_threshold_rule (img : PGM) (windowSize : Int) (k R : ℝ) (i j : Int)
    (_hw : 0 ≤ windowSize) (_hR : 0 < R)
    (_hij : 0 ≤ i ∧ i < img.height ∧ 0 ≤ j ∧ j < img.width)
    (hsmall : ∀ p ∈ sauvolaWindow img windowSize i j,
      img.pixels p.1 p.2 * img.pixels p.1 p.2 < 2147483648) :
    sauvolaStdDev img windowSize i j = windowStdDev img windowSize i j ∧
    ((applySauvolaThreshold img windowSize k R).pixels i j = 0 ↔
      (img.pixels i j : ℝ) < windowMean img windowSize i j
        * (1 + k * (windowStdDev img windowSize i j / R - 1))) ∧
    (¬ ((img.pixels i j : ℝ) < windowMean img windowSize i j
        * (1 + k * (windowStdDev img windowSize i j / R - 1))) →
      (applySauvolaThreshold img windowSize k R).pixels i j = 255) := by
  have hsd := sauvolaStdDev_eq img windowSize i j hsmall
  refine ⟨hsd, ?_, ?_⟩
  · simp only [applySauvolaThreshold, sauvolaThreshold, hsd, sauvolaMean_eq]
    split <;> simp_all
  · intro h
    simp only [applySauvolaThreshold, sauvolaThreshold, hsd, sauvolaMean_eq]
    rw [if_neg h]

/-- Witness of C2 on the 5x5 block grid at the corner pixel `(0, 0)` with `windowSize = 1`,
`k = 0.5`, `R = 128`. -/
theorem sauvola_threshold_rule_witness :
    sauvolaStdDev blockGrid 1 0 0 = windowStdDev blockGrid 1 0 0 ∧
    ((applySauvolaThreshold blockGrid 1 0.5 128).pixels 0 0 = 0 ↔
      (blockGrid.pixels 0 0 : ℝ) < windowMean blockGrid 1 0 0
        * (1 + 0.5 * (windowStdDev blockGrid 1 0 0 / 128 - 1))) ∧
    (¬ ((blockGrid.pixels 0 0 : ℝ) < windowMean blockGrid 1 0 0
        * (1 + 0.5 * (windowStdDev blockGrid 1 0 0 / 128 - 1))) →
      (applySauvolaThreshold blockGrid 1 0.5 128).pixels 0 0 = 255) :=
  sauvola_threshold_rule blockGrid 1 0.5 128 0 0 (by norm_num) (by norm_num) (by decide)
    (by
      intro p _
      show (if (1 ≤ p.1 ∧ p.1 ≤ 3 ∧ 1 ≤ p.2 ∧ p.2 ≤ 3) then (10 : Int) else 240)
        * (if (1 ≤ p.1 ∧ p.1 ≤ 3 ∧ 1 ≤ p.2 ∧ p.2 ≤ 3) then (10 : Int) else 240) < 2147483648
      split <;> norm_num)

/-- C3: after `applySauvolaThreshold`, for any parameters, every pixel is exactly 0 or
exactly 255, and width and height are unchanged. -/
theorem sauvola_output_binary (img : PGM) (windowSize : Int) (k R : ℝ) :
    (∀ i j : Int, (applySauvolaThreshold img windowSize k R).pixels i j = 0 ∨
        (applySauvolaThreshold img windowSize k R).pixels i j = 255) ∧
      (applySauvolaThreshold img windowSize k R).width = img.width ∧
      (applySauvolaThreshold img windowSize k R).height = img.height := by
  refine ⟨?_, rfl, rfl⟩
  intro i j
  unfold applySauvolaThreshold
  simp only
  split
  · exact Or.inl rfl
  · exact Or.inr rfl

/-- C4, refuted as stated: on the 5x5 block grid with `windowSize = 1`, `k = 0.5`,
`R = 128` the centre pixel `(2, 2)` of the block is classified 255 (its window is uniform, so
the threshold is `10 * (1 - 0.5) = 5`), hence not all nine block pixels become 0. -/
theorem blockGrid_centre_is_background :
    (applySauvolaThreshold blockGrid 1 0.5 128).pixels 2 2 = 255 ∧
    ¬ ((∀ i j : Int, 1 ≤ i ∧ i ≤ 3 ∧ 1 ≤ j ∧ j ≤ 3 →
          (applySauvolaThreshold blockGrid 1 0.5 128).pixels i j = 0) ∧
       (∀ i j : Int, 0 ≤ i ∧ i < 5 ∧ 0 ≤ j ∧ j < 5 ∧ ¬ (1 ≤ i ∧ i ≤ 3 ∧ 1 ≤ j ∧ j ≤ 3) →
          (applySauvolaThreshold blockGrid 1 0.5 128).pixels i j = 255)) := by
  have hmap := blockGrid_output
  have h22 : (applySauvolaThreshold blockGrid 1 0.5 128).pixels 2 2 = 255 := by
    have := congrArg (fun l => l.getD 12 0) hmap
    simpa [rasterCells, rangeInt, List.range, List.range.loop] using this
  refine ⟨h22, ?_⟩
  rintro ⟨hblock, _⟩
  have h0 := hblock 2 2 (by norm_num)
  rw [h22] at h0
  exact absurd h0 (by norm_num)

/-- C4, amended: on the 5x5 block grid with `windowSize = 1`, `k = 0.5`, `R = 128` the
output grid, listed in raster order, has the eight block pixels other than the centre equal
to 0, and the centre pixel and the sixteen ring pixels equal to 255. -/
theorem blockGrid_threshold_output :
    (rasterCells 0 5 0 5).map
        (fun p => (applySauvolaThreshold blockGrid 1 0.5 128).pixels p.1 p.2)
      = [255, 255, 255, 255, 255,
         255, 0, 0, 0, 255,
         255, 0, 255, 0, 255,
         255, 0, 0, 0, 255,
         255, 255, 255, 255, 255] :=
  blockGrid_output

/-- C5: on the 5x5 block grid, thresholding with `windowSize = 1`, `k = 0.5`, `R = 128`
and then labelling returns exactly 1. -/
theorem blockGrid_pipeline_count :
    labelComponents (applySauvolaThreshold blockGrid 1 0.5 128) = some 1 :=
  blockGrid_count

/-- C6, refuted as stated: on the 3x5 grid `markerGrid` the driver pipeline (propagation,
thresholding, labelling) reports 1 component, while thresholding and labelling without the
propagation stage reports 2: the marker ids 1 and 2 written by propagation move the
threshold from above 152 to below 152. -/
theorem markerGrid_count_differs :
    mainCount markerGrid = some 1 ∧
      labelComponents (applySauvolaThreshold markerGrid 17 0.920 128) = some 2 ∧
      mainCount markerGrid ≠ labelComponents (applySauvolaThreshold markerGrid 17 0.920 128) := by
  obtain ⟨h1, h2⟩ := markerGrid_counts
  refine ⟨h1, h2, ?_⟩
  rw [h1, h2]
  decide

/-- C6, amended: for every grid without a seed (no interior zero-valued pixel with an
8-neighbour of value 255) the propagation stage leaves the grid unchanged, and the count of
the driver pipeline equals the count obtained when the propagation stage is skipped. -/
theorem mainCount_of_no_seed (img : PGM) (hns : ∀ p, ¬ isSeed img p) :
    applyWatershed img = some img ∧
      mainCount img = labelComponents (applySauvolaThreshold img 17 0.920 128) := by
  have h := applyWatershed_of_no_seed img hns
  refine ⟨h, ?_⟩
  unfold mainCount
  rw [h]
  rfl

/-- Witness of the amended C6 on the 5x5 block grid, which has no zero-valued pixel. -/
theorem mainCount_of_no_seed_witness :
    applyWatershed blockGrid = some blockGrid ∧
      mainCount blockGrid = labelComponents (applySauvolaThreshold blockGrid 17 0.920 128) :=
  mainCount_of_no_seed blockGrid (by
    intro p hp
    have h0 : (if (1 ≤ p.1 ∧ p.1 ≤ 3 ∧ 1 ≤ p.2 ∧ p.2 ≤ 3) then (10 : Int) else 240) = 0 :=
      hp.2.2.2.2.1
    split at h0 <;> omega)

/-- C7: when the zero-valued pixels of a grid are the disjoint union of two non-empty
8-connected sets `A` and `B` with no pixel of `A` 8-adjacent to a pixel of `B`,
`labelComponents` returns 2. -/
theorem two_separate_regions (img : PGM) (A B : Set (Int × Int))
    (hA : A.Nonempty) (hB : B.Nonempty)
    (hcover : ∀ p, isForeground img p ↔ p ∈ A ∨ p ∈ B)
    (hdisj : ∀ p, p ∈ A → p ∉ B)
    (hAconn : connectedSet A) (hBconn : connectedSet B)
    (hsep : ∀ a ∈ A, ∀ b ∈ B, ¬ adjacent8 a b) :
    labelComponents img = some 2 := by
  obtain ⟨a0, ha0⟩ := hA
  obtain ⟨b0, hb0⟩ := hB
  have hstay : ∀ q, fgConnected img a0 q → q ∈ A := by
    intro q hq
    induction hq with
    | refl => exact ha0
    | @tail b c _ hbc ih =>
      rcases (hcover c).1 hbc.2.1 with hc | hc
      · exact hc
      · exact absurd hbc.2.2 (hsep b ih c hc)
  have h := labelComponents_of_reps img [a0, b0]
    (by
      intro r hr
      simp only [List.mem_cons, List.mem_singleton, List.mem_nil_iff, or_false] at hr
      rcases hr with rfl | rfl
      · exact (hcover _).2 (Or.inl ha0)
      · exact (hcover _).2 (Or.inr hb0))
    (by
      simp only [List.pairwise_cons, List.mem_singleton, forall_eq, List.not_mem_nil,
        IsEmpty.forall_iff, implies_true, List.Pairwise.nil, and_self, and_true]
      intro hc
      exact hdisj b0 (hstay b0 hc) hb0)
    (by
      intro p hp
      rcases (hcover p).1 hp with hpA | hpB
      · exact ⟨a0, by simp, fgConnected_of_connectedSet img A
          (fun q hq => (hcover q).2 (Or.inl hq)) hAconn a0 p ha0 hpA⟩
      · exact ⟨b0, by simp, fgConnected_of_connectedSet img B
          (fun q hq => (hcover q).2 (Or.inr hq)) hBconn b0 p hb0 hpB⟩)
  simpa using h

/-- Witness of C7 on the 1x3 grid with the row `0 255 0`, with `A = {(0,0)}` and
`B = {(0,2)}`. -/
theorem two_separate_regions_witness : labelComponents twoDotsGrid = some 2 :=
  two_separate_regions twoDotsGrid {(0, 0)} {(0, 2)} ⟨(0, 0), rfl⟩ ⟨(0, 2), rfl⟩
    (by
      rintro ⟨i, j⟩
      simp only [isForeground, inBounds, twoDotsGrid, Set.mem_singleton_iff, Prod.mk.injEq]
      constructor
      · rintro ⟨⟨h1, h2, h3, h4⟩, h5⟩
        split at h5
        · omega
        · omega
      · rintro (⟨rfl, rfl⟩ | ⟨rfl, rfl⟩) <;> simp)
    (by
      intro p hp hp'
      rw [Set.mem_singleton_iff] at hp hp'
      have h2 : ((0 : Int), (0 : Int)).2 = ((0 : Int), (2 : Int)).2 :=
        congrArg Prod.snd (hp.symm.trans hp')
      exact absurd h2 (by decide))
    (connectedSet_singleton _) (connectedSet_singleton _)
    (by
      intro a ha b hb
      rw [Set.mem_singleton_iff] at ha hb
      rw [ha, hb]
      unfold adjacent8
      simp)

/-- C8: diagonal contact merges components.  When the zero-valued pixels are two
8-connected regions `A` and `B` plus one pixel `c` that touches a pixel of each region
diagonally, `labelComponents` returns 1; and when the only zero-valued pixels are `(i, j)`
and `(i + 1, j + 1)`, `labelComponents` returns 1. -/
theorem diagonal_contact_merges :
    (∀ (img : PGM) (A B : Set (Int × Int)) (c a b : Int × Int),
        (∀ p, isForeground img p ↔ p ∈ A ∨ p ∈ B ∨ p = c) →
        connectedSet A → connectedSet B → a ∈ A → b ∈ B → diagonal c a → diagonal c b →
        labelComponents img = some 1) ∧
    (∀ (img : PGM) (i j : Int),
        (∀ p, isForeground img p ↔ p = (i, j) ∨ p = (i + 1, j + 1)) →
        labelComponents img = some 1) := by
  constructor
  · intro img A B c a b hcover hA hB ha hb hca hcb
    have hc : isForeground img c := (hcover c).2 (Or.inr (Or.inr rfl))
    have hAsub : ∀ q ∈ A, isForeground img q := fun q hq => (hcover q).2 (Or.inl hq)
    have hBsub : ∀ q ∈ B, isForeground img q := fun q hq => (hcover q).2 (Or.inr (Or.inl hq))
    have h := labelComponents_of_reps img [c]
      (by intro r hr; rw [List.mem_singleton] at hr; rw [hr]; exact hc)
      (List.pairwise_singleton _ _)
      (by
        intro p hp
        refine ⟨c, List.mem_singleton.2 rfl, ?_⟩
        rcases (hcover p).1 hp with hpA | hpB | hpc
        · exact Relation.ReflTransGen.head ⟨hc, hAsub a ha, adjacent8_of_diagonal hca⟩
            (fgConnected_of_connectedSet img A hAsub hA a p ha hpA)
        · exact Relation.ReflTransGen.head ⟨hc, hBsub b hb, adjacent8_of_diagonal hcb⟩
            (fgConnected_of_connectedSet img B hBsub hB b p hb hpB)
        · rw [hpc]; exact Relation.ReflTransGen.refl)
    simpa using h
  · intro img i j hcover
    have h1 : isForeground img (i, j) := (hcover _).2 (Or.inl rfl)
    have h2 : isForeground img (i + 1, j + 1) := (hcover _).2 (Or.inr rfl)
    have hadj : adjacent8 (i, j) (i + 1, j + 1) := by
      apply adjacent8_of_diagonal
      unfold diagonal
      simp
    have h := labelComponents_of_reps img [(i, j)]
      (by intro r hr; rw [List.mem_singleton] at hr; rw [hr]; exact h1)
      (List.pairwise_singleton _ _)
      (by
        intro p hp
        refine ⟨(i, j), List.mem_singleton.2 rfl, ?_⟩
        rcases (hcover p).1 hp with hp1 | hp2
        · rw [hp1]; exact Relation.ReflTransGen.refl
        · rw [hp2]; exact Relation.ReflTransGen.single ⟨h1, h2, hadj⟩)
    simpa using h

/-- Witness of C8: the 3x3 grid with zeros on the main diagonal (regions `{(0,0)}` and
`{(2,2)}` bridged by `(1,1)`) and the 2x2 grid with zeros at `(0,0)` and `(1,1)`. -/
theorem diagonal_contact_merges_witness :
    labelComponents diagonalGrid = some 1 ∧ labelComponents diagonalPairGrid = some 1 :=
  ⟨diagonal_contact_merges.1 diagonalGrid {(0, 0)} {(2, 2)} (1, 1) (0, 0) (2, 2)
      (by
        rintro ⟨i, j⟩
        simp only [isForeground, inBounds, diagonalGrid, Set.mem_singleton_iff, Prod.mk.injEq]
        constructor
        · rintro ⟨⟨h1, h2, h3, h4⟩, h5⟩
          split at h5
          · omega
          · omega
        · rintro (⟨rfl, rfl⟩ | ⟨rfl, rfl⟩ | ⟨rfl, rfl⟩) <;> simp)
      (connectedSet_singleton _) (connectedSet_singleton _) rfl rfl
      (by unfold diagonal; simp) (by unfold diagonal; simp),
   diagonal_contact_merges.2 diagonalPairGrid 0 0
      (by
        rintro ⟨i, j⟩
        simp only [isForeground, inBounds, diagonalPairGrid, Prod.mk.injEq]
        constructor
        · rintro ⟨⟨h1, h2, h3, h4⟩, h5⟩
          split at h5
          · omega
          · omega
        · rintro (⟨rfl, rfl⟩ | ⟨rfl, rfl⟩) <;> simp)⟩

/-- C9: on a grid with no pixel of value 0, in particular on a grid all of whose pixels are
255, of any width and height, `labelComponents` returns 0. -/
theorem no_foreground_count_zero (img : PGM)
    (hno : ∀ p : Int × Int, inBounds img p → img.pixels p.1 p.2 ≠ 0) :
    labelComponents img = some 0 := by
  have h := labelComponents_of_reps img []
    (by intro r hr; simp at hr) List.Pairwise.nil
    (by intro p hp; exact absurd hp.2 (hno p hp.1))
  simpa using h

/-- Witness of C9 on the 3x4 grid all of whose pixels are 255. -/
theorem no_foreground_count_zero_witness : labelComponents whiteGrid = some 0 :=
  no_foreground_count_zero whiteGrid (by
    intro p _
    show (255 : Int) ≠ 0
    decide)

/-- C10: on a grid of width and height at least 3 in which exactly one pixel has value 0,
that pixel is interior and all other pixels are 255, `labelComponents` returns 1. -/
theorem single_interior_pixel (img : PGM) (p : Int × Int)
    (_hw : 3 ≤ img.width) (_hh : 3 ≤ img.height)
    (hint : 1 ≤ p.1 ∧ p.1 ≤ img.height - 2 ∧ 1 ≤ p.2 ∧ p.2 ≤ img.width - 2)
    (hp0 : img.pixels p.1 p.2 = 0)
    (hothers : ∀ q : Int × Int, inBounds img q → q ≠ p → img.pixels q.1 q.2 = 255) :
    labelComponents img = some 1 := by
  have hp : isForeground img p := by
    refine ⟨?_, hp0⟩
    unfold inBounds
    omega
  have h := labelComponents_of_reps img [p]
    (by intro r hr; rw [List.mem_singleton] at hr; rw [hr]; exact hp)
    (List.pairwise_singleton _ _)
    (by
      intro q hq
      refine ⟨p, List.mem_singleton.2 rfl, ?_⟩
      by_cases hqp : q = p
      · rw [hqp]; exact Relation.ReflTransGen.refl
      · have h255 := hothers q hq.1 hqp
        rw [hq.2] at h255
        exact absurd h255 (by decide))
  simpa using h

/-- Witness of C10 on the 3x3 grid with a single 0 at the centre. -/
theorem single_interior_pixel_witness : labelComponents dotGrid = some 1 :=
  single_interior_pixel dotGrid (1, 1) (by decide) (by decide) (by decide) (by decide)
    (by
      rintro ⟨i, j⟩ _ hne
      show (if (i = 1 ∧ j = 1) then (0 : Int) else 255) = 255
      rw [if_neg]
      rintro ⟨rfl, rfl⟩
      exact hne rfl)


/-! ## Marker propagation: seeding -/

theorem seedCell_eq (img : PGM) (st : Int × (Int → Int → Int)) (p : Int × Int) :
    seedCell img st p =
      if seedTest img p = true then (st.1 + 1, setCell st.2 p.1 p.2 st.1) else st := by
  unfold seedCell seedTest
  by_cases h0 : img.pixels p.1 p.2 = 0
  · by_cases hb : isBorder img p.1 p.2 = true
    · simp [h0, hb]
    · simp [h0, hb]
  · simp [h0]

theorem seedFold_label (img : PGM) :
    ∀ (l : List (Int × Int)) (st : Int × (Int → Int → Int)),
      (l.foldl (seedCell img) st).1 = st.1 + ((l.filter (seedTest img)).length : Int) := by
  intro l
  induction l with
  | nil => intro st; simp
  | cons a l ih =>
    intro st
    rw [List.foldl_cons, ih, seedCell_eq]
    by_cases ha : seedTest img a = true
    · rw [if_pos ha, List.filter_cons_of_pos ha, List.length_cons]
      push_cast
      ring
    · rw [if_neg ha, List.filter_cons_of_neg ha]

theorem seedFold_other (img : PGM) :
    ∀ (l : List (Int × Int)) (st : Int × (Int → Int → Int)) (q : Int × Int),
      q ∉ l.filter (seedTest img) → (l.foldl (seedCell img) st).2 q.1 q.2 = st.2 q.1 q.2 := by
  intro l
  induction l with
  | nil => intro st q _; rfl
  | cons a l ih =>
    intro st q hq
    rw [List.foldl_cons, seedCell_eq]
    by_cases ha : seedTest img a = true
    · rw [List.filter_cons_of_pos ha, List.mem_cons, not_or] at hq
      rw [ih _ q hq.2, if_pos ha]
      simp only [setCell_apply]
      rw [if_neg]
      rintro ⟨h1, h2⟩
      exact hq.1 (Prod.ext h1 h2)
    · rw [List.filter_cons_of_neg ha] at hq
      rw [ih _ q hq, if_neg ha]

theorem seedFold_index (img : PGM) :
    ∀ (l : List (Int × Int)), l.Nodup → ∀ (st : Int × (Int → Int → Int)) (i : Nat)
      (p : Int × Int), (l.filter (seedTest img))[i]? = some p →
      (l.foldl (seedCell img) st).2 p.1 p.2 = st.1 + (i : Int) := by
  intro l
  induction l with
  | nil => intro _ st i p h; simp at h
  | cons a l ih =>
    intro hnd st i p hp
    rw [List.nodup_cons] at hnd
    rw [List.foldl_cons, seedCell_eq]
    by_cases ha : seedTest img a = true
    · rw [List.filter_cons_of_pos ha] at hp
      rw [if_pos ha]
      cases i with
      | zero =>
        simp only [List.getElem?_cons_zero, Option.some.injEq] at hp
        subst hp
        rw [seedFold_other img l _ a (fun h => hnd.1 (List.mem_of_mem_filter h))]
        simp
      | succ j =>
        simp only [List.getElem?_cons_succ] at hp
        rw [ih hnd.2 _ j p hp]
        push_cast
        ring
    · rw [List.filter_cons_of_neg ha] at hp
      rw [if_neg ha]
      exact ih hnd.2 st i p hp

theorem isBorder_iff (img : PGM) (p : Int × Int) :
    isBorder img p.1 p.2 = true ↔ ∃ q, adjacent8 p q ∧ img.pixels q.1 q.2 = 255 := by
  unfold isBorder
  rw [List.any_eq_true]
  constructor
  · rintro ⟨d, hd, h⟩
    exact ⟨(p.1 + d.1, p.2 + d.2), (adjacent8_iff _ _).2 ⟨d, hd, rfl⟩, by simpa using h⟩
  · rintro ⟨q, hadj, h⟩
    obtain ⟨d, hd, rfl⟩ := (adjacent8_iff _ _).1 hadj
    exact ⟨d, hd, by simpa using h⟩

theorem mem_interiorCells (img : PGM) (p : Int × Int) :
    p ∈ rasterCells 1 (img.height - 1) 1 (img.width - 1) ↔ isInterior img p := by
  rw [mem_rasterCells]
  unfold isInterior
  omega

theorem mem_seedList (img : PGM) (p : Int × Int) : p ∈ seedList img ↔ isSeed img p := by
  unfold seedList seedTest isSeed
  rw [List.mem_filter, mem_interiorCells, Bool.and_eq_true, decide_eq_true_eq, isBorder_iff]
  unfold isInterior
  tauto

theorem nodup_seedList (img : PGM) : (seedList img).Nodup :=
  (nodup_rasterCells _ _ _ _).filter _

theorem isInterior_of_isSeed {img : PGM} {p : Int × Int} (h : isSeed img p) :
    isInterior img p := ⟨h.1, h.2.1, h.2.2.1, h.2.2.2.1⟩

theorem inBounds_of_isInterior {img : PGM} {p : Int × Int} (h : isInterior img p) :
    inBounds img p := by
  unfold isInterior at h
  unfold inBounds
  omega

theorem numSeeds_eq_length (img : PGM) : numSeeds img = (seedList img).length := by
  unfold numSeeds
  have hset : {p | isSeed img p} = ((seedList img).toFinset : Set (Int × Int)) := by
    ext p
    simp [mem_seedList]
  rw [hset, Set.ncard_coe_Finset, List.toFinset_card_of_nodup (nodup_seedList img)]

theorem seedMarkers_label (img : PGM) :
    (seedMarkers img).1 = ((seedList img).length : Int) + 1 := by
  unfold seedMarkers seedList
  rw [seedFold_label]
  ring

theorem seedMarkers_index (img : PGM) (i : Nat) (p : Int × Int)
    (h : (seedList img)[i]? = some p) : (seedMarkers img).2 p.1 p.2 = (i : Int) + 1 := by
  unfold seedMarkers
  rw [seedFold_index img _ (nodup_rasterCells _ _ _ _) _ i p h]
  ring

theorem seedMarkers_zero (img : PGM) (q : Int × Int) (h : ¬ isSeed img q) :
    (seedMarkers img).2 q.1 q.2 = 0 := by
  unfold seedMarkers
  rw [seedFold_other img _ _ q (fun hq => h ((mem_seedList img q).1 hq))]

theorem seedMarkers_ne_zero_iff (img : PGM) (q : Int × Int) :
    (seedMarkers img).2 q.1 q.2 ≠ 0 ↔ isSeed img q := by
  constructor
  · intro h
    by_contra hq
    exact h (seedMarkers_zero img q hq)
  · intro h
    obtain ⟨i, hi, hget⟩ := List.getElem_of_mem ((mem_seedList img q).2 h)
    have h1 : (seedList img)[i]? = some q := by
      rw [List.getElem?_eq_getElem hi, hget]
    rw [seedMarkers_index img i q h1]
    omega

theorem seedMarkers_range (img : PGM) (q : Int × Int) (h : (seedMarkers img).2 q.1 q.2 ≠ 0) :
    1 ≤ (seedMarkers img).2 q.1 q.2 ∧ (seedMarkers img).2 q.1 q.2 < (seedMarkers img).1 := by
  have hs := (seedMarkers_ne_zero_iff img q).1 h
  obtain ⟨i, hi, hget⟩ := List.getElem_of_mem ((mem_seedList img q).2 hs)
  have h1 : (seedList img)[i]? = some q := by
    rw [List.getElem?_eq_getElem hi, hget]
  rw [seedMarkers_index img i q h1, seedMarkers_label]
  omega

/-! ## Marker propagation: relaxation -/

theorem minLabel_eq_over (markers : Int → Int → Int) (current_label i j : Int) :
    minLabel markers current_label i j = minLabelOver markers i j (dx.zip dy) current_label :=
  rfl

theorem minLabelOver_cases (markers : Int → Int → Int) (i j : Int) :
    ∀ (ds : List (Int × Int)) (init : Int),
      minLabelOver markers i j ds init = init ∨
        ∃ d ∈ ds, minLabelOver markers i j ds init = markers (i + d.1) (j + d.2) ∧
          0 < markers (i + d.1) (j + d.2) := by
  intro ds
  induction ds with
  | nil => intro init; exact Or.inl rfl
  | cons e ds ih =>
    intro init
    unfold minLabelOver
    rw [List.foldl_cons]
    by_cases he : markers (i + e.1) (j + e.2) > 0 ∧ markers (i + e.1) (j + e.2) < init
    · rw [if_pos he]
      rcases ih (markers (i + e.1) (j + e.2)) with h | ⟨d, hd, h1, h2⟩
      · right
        exact ⟨e, List.mem_cons_self _ _, h, he.1⟩
      · right
        exact ⟨d, List.mem_cons_of_mem _ hd, h1, h2⟩
    · rw [if_neg he]
      rcases ih init with h | ⟨d, hd, h1, h2⟩
      · exact Or.inl h
      · right
        exact ⟨d, List.mem_cons_of_mem _ hd, h1, h2⟩

theorem minLabelOver_le_init (markers : Int → Int → Int) (i j : Int) :
    ∀ (ds : List (Int × Int)) (init : Int), minLabelOver markers i j ds init ≤ init := by
  intro ds
  induction ds with
  | nil => intro init; exact le_refl _
  | cons e ds ih =>
    intro init
    unfold minLabelOver
    rw [List.foldl_cons]
    by_cases he : markers (i + e.1) (j + e.2) > 0 ∧ markers (i + e.1) (j + e.2) < init
    · rw [if_pos he]
      exact le_trans (ih _) he.2.le
    · rw [if_neg he]
      exact ih init

theorem minLabelOver_le_neighbor (markers : Int → Int → Int) (i j : Int) :
    ∀ (ds : List (Int × Int)) (init : Int) (d : Int × Int), d ∈ ds →
      0 < markers (i + d.1) (j + d.2) →
      minLabelOver markers i j ds init ≤ markers (i + d.1) (j + d.2) := by
  intro ds
  induction ds with
  | nil => intro init d hd; simp at hd
  | cons e ds ih =>
    intro init d hd hpos
    unfold minLabelOver
    rw [List.foldl_cons]
    rcases List.mem_cons.1 hd with rfl | hd
    · by_cases he : markers (i + d.1) (j + d.2) > 0 ∧ markers (i + d.1) (j + d.2) < init
      · rw [if_pos he]
        exact minLabelOver_le_init markers i j ds _
      · rw [if_neg he]
        have h1 := minLabelOver_le_init markers i j ds init
        have h2 : init ≤ markers (i + d.1) (j + d.2) := by
          by_contra hlt
          exact he ⟨hpos, not_le.1 hlt⟩
        exact le_trans h1 h2
    · exact ih _ d hd hpos

theorem relaxCell_eq (img : PGM) (current_label : Int) (st : Int × (Int → Int → Int))
    (p : Int × Int) :
    relaxCell img current_label st p =
      if relaxFires img current_label st.2 p then
        (st.1 + 1, setCell st.2 p.1 p.2 (minLabel st.2 current_label p.1 p.2))
      else st := by
  unfold relaxCell relaxFires
  by_cases h1 : img.pixels p.1 p.2 = 0 ∧ st.2 p.1 p.2 = 0
  · by_cases h2 : minLabel st.2 current_label p.1 p.2 < current_label
    · rw [if_pos h1, if_pos h2, if_pos ⟨h1.1, h1.2, h2⟩]
    · rw [if_pos h1, if_neg h2, if_neg (fun h => h2 h.2.2)]
  · rw [if_neg h1, if_neg (fun h => h1 ⟨h.1, h.2.1⟩)]

theorem relaxFires_value (img : PGM) (current_label : Int) (markers : Int → Int → Int)
    (p : Int × Int) (h : relaxFires img current_label markers p) :
    ∃ d ∈ dx.zip dy,
      minLabel markers current_label p.1 p.2 = markers (p.1 + d.1) (p.2 + d.2) ∧
        0 < markers (p.1 + d.1) (p.2 + d.2) := by
  rcases minLabelOver_cases markers p.1 p.2 (dx.zip dy) current_label with h1 | h1
  · have := h.2.2
    rw [minLabel_eq_over, h1] at this
    exact absurd this (lt_irrefl _)
  · exact h1

theorem relaxCell_keep (img : PGM) (current_label : Int) (st : Int × (Int → Int → Int))
    (p q : Int × Int) (hq : st.2 q.1 q.2 ≠ 0) :
    (relaxCell img current_label st p).2 q.1 q.2 = st.2 q.1 q.2 := by
  rw [relaxCell_eq]
  by_cases hf : relaxFires img current_label st.2 p
  · rw [if_pos hf]
    simp only [setCell_apply]
    rw [if_neg]
    rintro ⟨h1, h2⟩
    apply hq
    rw [h1, h2]
    exact hf.2.1
  · rw [if_neg hf]

theorem relaxCells_keep (img : PGM) (current_label : Int) (q : Int × Int) :
    ∀ (l : List (Int × Int)) (st : Int × (Int → Int → Int)), st.2 q.1 q.2 ≠ 0 →
      (l.foldl (relaxCell img current_label) st).2 q.1 q.2 = st.2 q.1 q.2 := by
  intro l
  induction l with
  | nil => intro st _; rfl
  | cons a l ih =>
    intro st hq
    have h1 := relaxCell_keep img current_label st a q hq
    rw [List.foldl_cons, ih _ (by rw [h1]; exact hq), h1]

theorem relaxCell_other (img : PGM) (current_label : Int) (st : Int × (Int → Int → Int))
    (p q : Int × Int) (hne : q ≠ p) :
    (relaxCell img current_label st p).2 q.1 q.2 = st.2 q.1 q.2 := by
  rw [relaxCell_eq]
  by_cases hf : relaxFires img current_label st.2 p
  · rw [if_pos hf]
    simp only [setCell_apply]
    rw [if_neg]
    rintro ⟨h1, h2⟩
    exact hne (Prod.ext h1 h2)
  · rw [if_neg hf]

theorem relaxCells_other (img : PGM) (current_label : Int) (q : Int × Int) :
    ∀ (l : List (Int × Int)) (st : Int × (Int → Int → Int)), q ∉ l →
      (l.foldl (relaxCell img current_label) st).2 q.1 q.2 = st.2 q.1 q.2 := by
  intro l
  induction l with
  | nil => intro st _; rfl
  | cons a l ih =>
    intro st hq
    rw [List.mem_cons, not_or] at hq
    rw [List.foldl_cons, ih _ hq.2, relaxCell_other img current_label st a q hq.1]

theorem relaxCells_changes (img : PGM) (current_label : Int) :
    ∀ (l : List (Int × Int)) (st : Int × (Int → Int → Int)),
      st.1 ≤ (l.foldl (relaxCell img current_label) st).1 ∧
        ((l.foldl (relaxCell img current_label) st).1 = st.1 →
          l.foldl (relaxCell img current_label) st = st ∧
            ∀ p ∈ l, ¬ relaxFires img current_label st.2 p) := by
  intro l
  induction l with
  | nil => intro st; exact ⟨le_refl _, fun _ => ⟨rfl, fun p hp => by simp at hp⟩⟩
  | cons a l ih =>
    intro st
    rw [List.foldl_cons]
    obtain ⟨h1, h2⟩ := ih (relaxCell img current_label st a)
    rw [relaxCell_eq] at h1 h2 ⊢
    by_cases hf : relaxFires img current_label st.2 a
    · rw [if_pos hf] at h1 h2 ⊢
      simp only at h1
      refine ⟨by omega, fun h => ?_⟩
      omega
    · rw [if_neg hf] at h1 h2 ⊢
      refine ⟨h1, fun h => ?_⟩
      obtain ⟨h3, h4⟩ := h2 h
      refine ⟨h3, fun p hp => ?_⟩
      rcases List.mem_cons.1 hp with rfl | hp
      · exact hf
      · exact h4 p hp

theorem markerInv_interior (img : PGM) (markers : Int → Int → Int) (inv : MarkerInv img markers)
    (q : Int × Int) (hq : markers q.1 q.2 ≠ 0) :
    isInterior img q ∧ img.pixels q.1 q.2 = 0 := by
  obtain ⟨s, hs, _, hpath⟩ := inv.origin q hq
  cases hpath with
  | refl => exact ⟨isInterior_of_isSeed hs, hs.2.2.2.2.1⟩
  | tail _ hstep => exact ⟨hstep.2.2.1, hstep.2.2.2.1⟩

theorem markerInv_seed (img : PGM) : MarkerInv img (seedMarkers img).2 := by
  refine ⟨fun q hq => seedMarkers_range img q hq, fun q _ => rfl, fun q hq => ?_⟩
  exact ⟨q, (seedMarkers_ne_zero_iff img q).1 hq, rfl, Relation.ReflTransGen.refl⟩

theorem relaxCell_inv (img : PGM) (st : Int × (Int → Int → Int)) (p : Int × Int)
    (hp : isInterior img p) (inv : MarkerInv img st.2) :
    MarkerInv img (relaxCell img (seedMarkers img).1 st p).2 := by
  rw [relaxCell_eq]
  by_cases hf : relaxFires img (seedMarkers img).1 st.2 p
  · rw [if_pos hf]
    obtain ⟨d, hd, hval, hpos⟩ := relaxFires_value img _ st.2 p hf
    have hn : st.2 (p.1 + d.1, p.2 + d.2).1 (p.1 + d.1, p.2 + d.2).2 ≠ 0 := ne_of_gt hpos
    refine ⟨?_, ?_, ?_⟩
    · intro q hq
      simp only [setCell_apply] at hq ⊢
      split
      · exact ⟨by rw [hval]; omega, hf.2.2⟩
      · rename_i hne
        rw [if_neg hne] at hq
        exact inv.range q hq
    · intro q hq
      simp only [setCell_apply]
      rw [if_neg]
      · exact inv.seedKeep q hq
      · rintro ⟨h1, h2⟩
        have hkeep := inv.seedKeep q hq
        have hq0 : st.2 q.1 q.2 = 0 := by rw [h1, h2]; exact hf.2.1
        exact hq (hkeep.symm.trans hq0)
    · intro q hq
      simp only [setCell_apply] at hq ⊢
      split
      · rename_i heq
        obtain ⟨s, hs, hid, hpath⟩ := inv.origin _ hn
        obtain ⟨hni, hn0⟩ := markerInv_interior img st.2 inv _ hn
        have hadj : adjacent8 (p.1 + d.1, p.2 + d.2) p :=
          adjacent8_symm ((adjacent8_iff _ _).2 ⟨d, hd, rfl⟩)
        have hqp : q = p := Prod.ext heq.1 heq.2
        refine ⟨s, hs, by rw [hval]; exact hid, ?_⟩
        rw [hqp]
        exact Relation.ReflTransGen.tail hpath ⟨hni, hn0, hp, hf.1, hadj⟩
      · rename_i hne
        rw [if_neg hne] at hq
        exact inv.origin q hq
  · rw [if_neg hf]
    exact inv

theorem relaxCells_inv (img : PGM) :
    ∀ (l : List (Int × Int)), (∀ p ∈ l, isInterior img p) →
      ∀ st : Int × (Int → Int → Int), MarkerInv img st.2 →
      MarkerInv img (l.foldl (relaxCell img (seedMarkers img).1) st).2 := by
  intro l
  induction l with
  | nil => intro _ st inv; exact inv
  | cons a l ih =>
    intro hl st inv
    rw [List.foldl_cons]
    exact ih (fun p hp => hl p (List.mem_cons_of_mem _ hp)) _
      (relaxCell_inv img st a (hl a (List.mem_cons_self _ _)) inv)

theorem relaxSweep_inv (img : PGM) (markers : Int → Int → Int) (inv : MarkerInv img markers) :
    MarkerInv img (relaxSweep img (seedMarkers img).1 markers).2 :=
  relaxCells_inv img _ (fun p hp => (mem_interiorCells img p).1 hp) (0, markers) inv

theorem sweepStart_inv (img : PGM) (k : Nat) : MarkerInv img (sweepStart img k) := by
  induction k with
  | zero => exact markerInv_seed img
  | succ k ih =>
    unfold sweepStart at ih ⊢
    rw [Function.iterate_succ_apply']
    exact relaxSweep_inv img _ ih

theorem unmarked_relaxCell (img : PGM) (current_label : Int) (st : Int × (Int → Int → Int))
    (p : Int × Int) (hp : isInterior img p) :
    (relaxCell img current_label st p).1 + (unmarked img (relaxCell img current_label st p).2 : Int)
      ≤ st.1 + (unmarked img st.2 : Int) := by
  rw [relaxCell_eq]
  by_cases hf : relaxFires img current_label st.2 p
  · rw [if_pos hf]
    obtain ⟨d, _, hval, hpos⟩ := relaxFires_value img _ st.2 p hf
    have hlt : unmarked img (setCell st.2 p.1 p.2 (minLabel st.2 current_label p.1 p.2))
        < unmarked img st.2 := by
      unfold unmarked
      apply countP_lt_of_imp _ _ p
      · simp only [decide_eq_true_eq]
        exact ⟨hf.1, hf.2.1⟩
      · simp only [setCell_apply, and_self, if_true, decide_eq_false_iff_not, not_and]
        intro _
        rw [hval]
        exact ne_of_gt hpos
      · intro a ha
        simp only [setCell_apply, decide_eq_true_eq] at ha ⊢
        refine ⟨ha.1, ?_⟩
        have h2 := ha.2
        split at h2
        · rw [hval] at h2
          exact absurd h2 (ne_of_gt hpos)
        · exact h2
      · exact (mem_interiorCells img p).2 hp
    simp only
    omega
  · rw [if_neg hf]

theorem unmarked_relaxCells (img : PGM) (current_label : Int) :
    ∀ (l : List (Int × Int)), (∀ p ∈ l, isInterior img p) →
      ∀ st : Int × (Int → Int → Int),
      (l.foldl (relaxCell img current_label) st).1
          + (unmarked img (l.foldl (relaxCell img current_label) st).2 : Int)
        ≤ st.1 + (unmarked img st.2 : Int) := by
  intro l
  induction l with
  | nil => intro _ st; exact le_refl _
  | cons a l ih =>
    intro hl st
    rw [List.foldl_cons]
    exact le_trans (ih (fun p hp => hl p (List.mem_cons_of_mem _ hp)) _)
      (unmarked_relaxCell img current_label st a (hl a (List.mem_cons_self _ _)))

theorem unmarked_relaxSweep (img : PGM) (current_label : Int) (markers : Int → Int → Int) :
    (relaxSweep img current_label markers).1
        + (unmarked img (relaxSweep img current_label markers).2 : Int)
      ≤ (unmarked img markers : Int) := by
  have h := unmarked_relaxCells img current_label _
    (fun p hp => (mem_interiorCells img p).1 hp) (0, markers)
  simpa [relaxSweep] using h

theorem relaxSweep_fixed (img : PGM) (current_label : Int) (markers : Int → Int → Int)
    (h : ¬ (relaxSweep img current_label markers).1 > 0) :
    (relaxSweep img current_label markers).2 = markers ∧
      ∀ p, isInterior img p → ¬ relaxFires img current_label markers p := by
  obtain ⟨h1, h2⟩ := relaxCells_changes img current_label
    (rasterCells 1 (img.height - 1) 1 (img.width - 1)) (0, markers)
  have h0 : (relaxSweep img current_label markers).1 = 0 := by
    unfold relaxSweep at h ⊢
    simp only at h1
    omega
  obtain ⟨h3, h4⟩ := h2 h0
  refine ⟨?_, fun p hp => h4 p ((mem_interiorCells img p).2 hp)⟩
  unfold relaxSweep
  rw [h3]

theorem relaxLoop_succ (img : PGM) (current_label : Int) (fuel : Nat)
    (markers : Int → Int → Int) :
    relaxLoop img current_label (fuel + 1) markers =
      if (relaxSweep img current_label markers).1 > 0 then
        relaxLoop img current_label fuel (relaxSweep img current_label markers).2
      else some (relaxSweep img current_label markers).2 := rfl

theorem relaxLoop_spec (img : PGM) (current_label : Int) :
    ∀ (n : Nat) (markers : Int → Int → Int), unmarked img markers ≤ n →
      ∃ k, k ≤ n ∧ relaxLoop img current_label k markers = none ∧
        relaxLoop img current_label (k + 1) markers
          = some ((fun m => (relaxSweep img current_label m).2)^[k] markers) ∧
        ¬ (relaxSweep img current_label
            ((fun m => (relaxSweep img current_label m).2)^[k] markers)).1 > 0 := by
  intro n
  induction n with
  | zero =>
    intro markers hm
    refine ⟨0, le_refl _, rfl, ?_⟩
    have hs := unmarked_relaxSweep img current_label markers
    have hc := (relaxCells_changes img current_label
      (rasterCells 1 (img.height - 1) 1 (img.width - 1)) (0, markers)).1
    have hle : ¬ (relaxSweep img current_label markers).1 > 0 := by
      unfold relaxSweep at hs ⊢
      simp only at hc
      omega
    refine ⟨?_, hle⟩
    rw [relaxLoop_succ, if_neg hle, Function.iterate_zero, id_eq,
      (relaxSweep_fixed img current_label markers hle).1]
  | succ n ih =>
    intro markers hm
    by_cases hgt : (relaxSweep img current_label markers).1 > 0
    · have hs := unmarked_relaxSweep img current_label markers
      obtain ⟨k, hk, hnone, hsome, hfix⟩ :=
        ih (relaxSweep img current_label markers).2 (by omega)
      refine ⟨k + 1, by omega, ?_, ?_, ?_⟩
      · rw [relaxLoop_succ, if_pos hgt]
        exact hnone
      · rw [relaxLoop_succ, if_pos hgt, hsome, Function.iterate_succ_apply]
      · rw [Function.iterate_succ_apply]
        exact hfix
    · refine ⟨0, Nat.zero_le _, rfl, ?_, hgt⟩
      rw [relaxLoop_succ, if_neg hgt, Function.iterate_zero, id_eq,
        (relaxSweep_fixed img current_label markers hgt).1]

theorem relaxLoop_fuel_mono (img : PGM) (current_label : Int) :
    ∀ (k : Nat) (markers r : Int → Int → Int),
      relaxLoop img current_label k markers = some r →
      ∀ d : Nat, relaxLoop img current_label (k + d) markers = some r := by
  intro k
  induction k with
  | zero => intro markers r h; simp [relaxLoop] at h
  | succ k ih =>
    intro markers r h d
    rw [show k + 1 + d = (k + d) + 1 by omega]
    rw [relaxLoop_succ] at h ⊢
    by_cases hgt : (relaxSweep img current_label markers).1 > 0
    · rw [if_pos hgt] at h ⊢
      exact ih _ r h d
    · rw [if_neg hgt] at h ⊢
      exact h

/-! ## Marker propagation: the result of `applyWatershed` -/

theorem foreground_finite (img : PGM) : {p | isForeground img p}.Finite := by
  apply Set.Finite.subset (rasterCells 0 img.height 0 img.width).toFinset.finite_toSet
  intro p hp
  simp only [Finset.mem_coe, List.mem_toFinset, mem_rasterCells]
  exact ⟨⟨hp.1.1, hp.1.2.1⟩, hp.1.2.2.1, hp.1.2.2.2⟩

theorem unmarked_le_numForeground (img : PGM) (markers : Int → Int → Int) :
    unmarked img markers ≤ numForeground img := by
  unfold unmarked numForeground
  rw [List.countP_eq_length_filter,
    ← List.toFinset_card_of_nodup ((nodup_rasterCells _ _ _ _).filter _),
    ← Set.ncard_coe_Finset]
  apply Set.ncard_le_ncard _ (foreground_finite img)
  intro p hp
  simp only [Finset.mem_coe, List.mem_toFinset, List.mem_filter, decide_eq_true_eq] at hp
  exact ⟨inBounds_of_isInterior ((mem_interiorCells img p).1 hp.1), hp.2.1⟩

theorem unmarked_le_cells (img : PGM) (markers : Int → Int → Int) :
    unmarked img markers ≤ (img.height * img.width).toNat := by
  unfold unmarked
  refine le_trans (List.countP_le_length _) ?_
  rw [length_rasterCells]
  by_cases hh : 2 ≤ img.height
  · by_cases hw : 2 ≤ img.width
    · obtain ⟨a, ha⟩ := Int.eq_ofNat_of_zero_le (show 0 ≤ img.height - 2 by omega)
      obtain ⟨b, hb⟩ := Int.eq_ofNat_of_zero_le (show 0 ≤ img.width - 2 by omega)
      have h1 : img.height - 1 - 1 = (a : Int) := by omega
      have h2 : img.width - 1 - 1 = (b : Int) := by omega
      have h3 : img.height * img.width = (((a + 2) * (b + 2) : Nat) : Int) := by
        push_cast
        rw [show img.height = (a : Int) + 2 by omega, show img.width = (b : Int) + 2 by omega]
      rw [h1, h2, h3, Int.toNat_natCast, Int.toNat_natCast, Int.toNat_natCast]
      nlinarith
    · have : (img.width - 1 - 1).toNat = 0 := by omega
      rw [this, Nat.mul_zero]
      exact Nat.zero_le _
  · have : (img.height - 1 - 1).toNat = 0 := by omega
    rw [this, Nat.zero_mul]
    exact Nat.zero_le _

theorem fixed_closed (img : PGM) (r : Int → Int → Int) (inv : MarkerInv img r)
    (hfix : ∀ p, isInterior img p → ¬ relaxFires img (seedMarkers img).1 r p)
    (q : Int × Int) (hq : joinedToSeed img q) : r q.1 q.2 ≠ 0 := by
  obtain ⟨s, hs, hpath⟩ := hq
  induction hpath with
  | refl =>
    have h1 := (seedMarkers_ne_zero_iff img s).2 hs
    rw [inv.seedKeep s h1]
    exact h1
  | @tail b c _ hbc ih =>
    intro hc0
    apply hfix c hbc.2.2.1
    refine ⟨hbc.2.2.2.1, hc0, ?_⟩
    obtain ⟨d, hd, hbd⟩ := (adjacent8_iff c b).1 (adjacent8_symm hbc.2.2.2.2)
    have hb := inv.range b ih
    have hpos : 0 < r (c.1 + d.1) (c.2 + d.2) := by
      have : r b.1 b.2 = r (c.1 + d.1) (c.2 + d.2) := by rw [hbd]
      omega
    have hle := minLabelOver_le_neighbor r c.1 c.2 (dx.zip dy) (seedMarkers img).1 d hd hpos
    rw [minLabel_eq_over]
    have : r (c.1 + d.1) (c.2 + d.2) = r b.1 b.2 := by rw [hbd]
    omega

/-- The run of `applyWatershed` ends after `k` changing sweeps with the marker buffer
`sweepStart img k`, which is a fixed point of the sweep. -/
theorem applyWatershed_spec (img : PGM) :
    ∃ k, k ≤ unmarked img (seedMarkers img).2 ∧
      relaxLoop img (seedMarkers img).1 k (seedMarkers img).2 = none ∧
      relaxLoop img (seedMarkers img).1 (k + 1) (seedMarkers img).2
        = some (sweepStart img k) ∧
      applyWatershed img = some (commitMarkers img (sweepStart img k)) ∧
      (∀ j, k ≤ j → sweepStart img j = sweepStart img k) ∧
      (∀ q, sweepStart img k q.1 q.2 ≠ 0 ↔ joinedToSeed img q) := by
  obtain ⟨k, hk, hnone, hsome, hfix⟩ :=
    relaxLoop_spec img (seedMarkers img).1 _ (seedMarkers img).2 (le_refl _)
  have hfixed := relaxSweep_fixed img (seedMarkers img).1 _ hfix
  refine ⟨k, hk, hnone, hsome, ?_, ?_, ?_⟩
  · unfold applyWatershed
    have hle : k + 1 ≤ (img.height * img.width).toNat + 1 :=
      Nat.succ_le_succ (le_trans hk (unmarked_le_cells img _))
    obtain ⟨d, hd⟩ := Nat.exists_eq_add_of_le hle
    rw [hd, relaxLoop_fuel_mono img _ _ _ _ hsome d]
    rfl
  · intro j hj
    obtain ⟨d, rfl⟩ := Nat.exists_eq_add_of_le hj
    induction d with
    | zero => rfl
    | succ d ih =>
      have hstep : sweepStart img (k + (d + 1))
          = (relaxSweep img (seedMarkers img).1 (sweepStart img (k + d))).2 := by
        unfold sweepStart
        rw [show k + (d + 1) = (k + d) + 1 by omega, Function.iterate_succ_apply']
      rw [hstep, ih (Nat.le_add_right _ _)]
      exact hfixed.1
  · intro q
    constructor
    · intro hq
      obtain ⟨s, hs, _, hpath⟩ := (sweepStart_inv img k).origin q hq
      exact ⟨s, hs, hpath⟩
    · exact fixed_closed img _ (sweepStart_inv img k) hfixed.2 q

/-! ## Marker propagation: the points of the run -/

theorem seedFold_prefix (img : PGM) (pre post : List (Int × Int)) (hnd : (pre ++ post).Nodup)
    (c0 : Int) (q : Int × Int)
    (hq : (pre.foldl (seedCell img) (c0, fun _ _ => 0)).2 q.1 q.2 ≠ 0) :
    ((pre ++ post).foldl (seedCell img) (c0, fun _ _ => 0)).2 q.1 q.2
      = (pre.foldl (seedCell img) (c0, fun _ _ => 0)).2 q.1 q.2 := by
  have hmem : q ∈ pre.filter (seedTest img) := by
    by_contra hno
    exact hq (seedFold_other img pre _ q hno)
  rw [List.foldl_append]
  apply seedFold_other
  intro hpost
  exact (List.nodup_append.1 hnd).2.2 (List.mem_of_mem_filter hmem)
    (List.mem_of_mem_filter hpost)

theorem seedAt_interior (img : PGM) (n : Nat) (q : Int × Int)
    (hq : (seedAt img n).2 q.1 q.2 ≠ 0) : isInterior img q := by
  have hmem : q ∈ ((rasterCells 1 (img.height - 1) 1 (img.width - 1)).take n).filter
      (seedTest img) := by
    by_contra hno
    exact hq (seedFold_other img _ _ q hno)
  exact (mem_interiorCells img q).1 (List.mem_of_mem_take (List.mem_of_mem_filter hmem))

theorem seedAt_mono (img : PGM) (n d : Nat) (q : Int × Int)
    (hq : (seedAt img n).2 q.1 q.2 ≠ 0) :
    (seedAt img (n + d)).2 q.1 q.2 = (seedAt img n).2 q.1 q.2 := by
  unfold seedAt at hq ⊢
  rw [List.take_add]
  apply seedFold_prefix img _ _ _ 1 q hq
  rw [← List.take_add]
  exact (nodup_rasterCells _ _ _ _).sublist (List.take_sublist _ _)

theorem seedAt_full (img : PGM) (n : Nat)
    (hn : (rasterCells 1 (img.height - 1) 1 (img.width - 1)).length ≤ n) :
    seedAt img n = seedMarkers img := by
  unfold seedAt seedMarkers
  rw [List.take_of_length_le hn]

theorem seedAt_final (img : PGM) (n : Nat) (q : Int × Int)
    (hq : (seedAt img n).2 q.1 q.2 ≠ 0) :
    (seedMarkers img).2 q.1 q.2 = (seedAt img n).2 q.1 q.2 := by
  rw [← seedAt_full img (n + (rasterCells 1 (img.height - 1) 1 (img.width - 1)).length)
    (Nat.le_add_left _ _)]
  exact seedAt_mono img n _ q hq

theorem relaxAt_inv (img : PGM) (k n : Nat) : MarkerInv img (relaxAt img k n).2 :=
  relaxCells_inv img _
    (fun p hp => (mem_interiorCells img p).1 (List.mem_of_mem_take hp)) _ (sweepStart_inv img k)

theorem relaxAt_mono (img : PGM) (k n d : Nat) (q : Int × Int)
    (hq : (relaxAt img k n).2 q.1 q.2 ≠ 0) :
    (relaxAt img k (n + d)).2 q.1 q.2 = (relaxAt img k n).2 q.1 q.2 := by
  unfold relaxAt at hq ⊢
  rw [List.take_add, List.foldl_append]
  exact relaxCells_keep img _ q _ _ hq

theorem relaxAt_full (img : PGM) (k n : Nat)
    (hn : (rasterCells 1 (img.height - 1) 1 (img.width - 1)).length ≤ n) :
    (relaxAt img k n).2 = sweepStart img (k + 1) := by
  unfold relaxAt sweepStart
  rw [List.take_of_length_le hn, Function.iterate_succ_apply']
  rfl

theorem relaxAt_final (img : PGM) (k n : Nat) (q : Int × Int)
    (hq : (relaxAt img k n).2 q.1 q.2 ≠ 0) :
    sweepStart img (k + 1) q.1 q.2 = (relaxAt img k n).2 q.1 q.2 := by
  rw [← relaxAt_full img k (n + (rasterCells 1 (img.height - 1) 1 (img.width - 1)).length)
    (Nat.le_add_left _ _)]
  exact relaxAt_mono img k n _ q hq

theorem relaxAt_start (img : PGM) (k n : Nat) (q : Int × Int)
    (hq : sweepStart img k q.1 q.2 ≠ 0) :
    (relaxAt img k n).2 q.1 q.2 = sweepStart img k q.1 q.2 := by
  unfold relaxAt
  exact relaxCells_keep img _ q _ _ hq

theorem sweepStart_mono (img : PGM) (k d : Nat) (q : Int × Int)
    (hq : sweepStart img k q.1 q.2 ≠ 0) :
    sweepStart img (k + d) q.1 q.2 = sweepStart img k q.1 q.2 := by
  induction d with
  | zero => rfl
  | succ d ih =>
    have h1 : (relaxAt img (k + d) 0).2 q.1 q.2 ≠ 0 := by
      rw [relaxAt_start img (k + d) 0 q (by rw [ih]; exact hq), ih]
      exact hq
    rw [show k + (d + 1) = (k + d) + 1 by omega, relaxAt_final img (k + d) 0 q h1,
      relaxAt_start img (k + d) 0 q (by rw [ih]; exact hq), ih]

theorem markersAt_phase_end (img : PGM) (k n : Nat) (q : Int × Int)
    (hq : markersAt img k n q.1 q.2 ≠ 0) :
    sweepStart img k q.1 q.2 = markersAt img k n q.1 q.2 := by
  cases k with
  | zero => exact seedAt_final img n q hq
  | succ j => exact relaxAt_final img j n q hq

theorem markersAt_interior (img : PGM) (k n : Nat) (q : Int × Int)
    (hq : markersAt img k n q.1 q.2 ≠ 0) : isInterior img q := by
  cases k with
  | zero => exact seedAt_interior img n q hq
  | succ j => exact (markerInv_interior img _ (relaxAt_inv img j n) q hq).1

theorem markersAt_mono (img : PGM) (k n k' n' : Nat) (q : Int × Int)
    (hlater : k < k' ∨ (k = k' ∧ n ≤ n')) (hq : markersAt img k n q.1 q.2 ≠ 0) :
    markersAt img k' n' q.1 q.2 = markersAt img k n q.1 q.2 := by
  rcases hlater with hlt | ⟨rfl, hn⟩
  · obtain ⟨j, rfl⟩ : ∃ j, k' = j + 1 := ⟨k' - 1, by omega⟩
    obtain ⟨d, rfl⟩ := Nat.exists_eq_add_of_le (show k ≤ j by omega)
    have hend := markersAt_phase_end img k n q hq
    have h1 : sweepStart img k q.1 q.2 ≠ 0 := by rw [hend]; exact hq
    have h2 := sweepStart_mono img k d q h1
    show (relaxAt img (k + d) n').2 q.1 q.2 = markersAt img k n q.1 q.2
    rw [relaxAt_start img (k + d) n' q (by rw [h2]; exact h1), h2, hend]
  · obtain ⟨d, rfl⟩ := Nat.exists_eq_add_of_le hn
    cases k with
    | zero => exact seedAt_mono img n d q hq
    | succ j => exact relaxAt_mono img j n d q hq

theorem commitMarkers_marked (img : PGM) (r : Int → Int → Int) (inv : MarkerInv img r)
    (q : Int × Int) (hq : r q.1 q.2 ≠ 0) : (commitMarkers img r).pixels q.1 q.2 = r q.1 q.2 := by
  have hin := inBounds_of_isInterior (markerInv_interior img r inv q hq).1
  have hpos := (inv.range q hq).1
  unfold commitMarkers
  simp only
  rw [if_pos ⟨hin.1, hin.2.1, hin.2.2.1, hin.2.2.2, by omega⟩]

theorem commitMarkers_unmarked (img : PGM) (r : Int → Int → Int)
    (q : Int × Int) (hq : r q.1 q.2 = 0) :
    (commitMarkers img r).pixels q.1 q.2 = img.pixels q.1 q.2 := by
  unfold commitMarkers
  simp only
  rw [if_neg]
  intro h
  have := h.2.2.2.2
  omega

/-! ## Marker propagation: helpers for the claims -/

theorem pairwise_rangeInt (lo hi : Int) : (rangeInt lo hi).Pairwise (fun a b => a < b) := by
  unfold rangeInt
  refine List.Pairwise.map _ ?_ (List.pairwise_lt_range _)
  intro a b hab
  omega

theorem pairwise_rasterCells (r0 r1 c0 c1 : Int) :
    (rasterCells r0 r1 c0 c1).Pairwise rasterBefore := by
  unfold rasterCells
  rw [List.pairwise_flatMap]
  constructor
  · intro i _
    refine List.Pairwise.map _ ?_ (pairwise_rangeInt c0 c1)
    intro a b hab
    exact Or.inr ⟨rfl, hab⟩
  · refine (pairwise_rangeInt r0 r1).imp ?_
    intro a b hab x hx y hy
    rw [List.mem_map] at hx hy
    obtain ⟨_, _, rfl⟩ := hx
    obtain ⟨_, _, rfl⟩ := hy
    exact Or.inl hab

theorem fgConnected_of_intPath (img : PGM) (s q : Int × Int)
    (h : Relation.ReflTransGen (intStep img) s q) : fgConnected img s q :=
  Relation.ReflTransGen.mono
    (fun a b hab => ⟨⟨inBounds_of_isInterior hab.1, hab.2.1⟩,
      ⟨inBounds_of_isInterior hab.2.2.1, hab.2.2.2.1⟩, hab.2.2.2.2⟩) h

theorem sweep_marks_new_cell (img : PGM) (current_label : Int) (markers : Int → Int → Int)
    (h : (relaxSweep img current_label markers).1 > 0) :
    ∃ p, isForeground img p ∧ markers p.1 p.2 = 0 ∧
      (relaxSweep img current_label markers).2 p.1 p.2 ≠ 0 := by
  have hm := unmarked_relaxSweep img current_label markers
  by_contra hno
  have hle : unmarked img markers ≤ unmarked img (relaxSweep img current_label markers).2 := by
    unfold unmarked
    apply List.countP_mono_left
    intro p hp hP
    simp only [decide_eq_true_eq] at hP ⊢
    refine ⟨hP.1, ?_⟩
    by_contra hne
    exact hno ⟨p, ⟨inBounds_of_isInterior ((mem_interiorCells img p).1 hp), hP.1⟩, hP.2, hne⟩
  omega

theorem seed_index_unique (img : PGM) (s s' : Int × Int) (hs : isSeed img s)
    (hs' : isSeed img s')
    (h : (seedMarkers img).2 s.1 s.2 = (seedMarkers img).2 s'.1 s'.2) : s = s' := by
  obtain ⟨i, hi, hget⟩ := List.getElem_of_mem ((mem_seedList img s).2 hs)
  obtain ⟨j, hj, hget'⟩ := List.getElem_of_mem ((mem_seedList img s').2 hs')
  have h1 : (seedList img)[i]? = some s := by rw [List.getElem?_eq_getElem hi, hget]
  have h2 : (seedList img)[j]? = some s' := by rw [List.getElem?_eq_getElem hj, hget']
  rw [seedMarkers_index img i s h1, seedMarkers_index img j s' h2] at h
  have hij : i = j := by omega
  subst hij
  rw [h1] at h2
  exact Option.some.inj h2

/-- Everything the claims need about the grid returned by `applyWatershed`. -/
theorem applyWatershed_result (img : PGM) :
    ∃ r : Int → Int → Int, applyWatershed img = some (commitMarkers img r) ∧
      MarkerInv img r ∧ (∀ q : Int × Int, r q.1 q.2 ≠ 0 ↔ joinedToSeed img q) ∧
      (∀ (k n : Nat) (q : Int × Int), markersAt img k n q.1 q.2 ≠ 0 →
        r q.1 q.2 = markersAt img k n q.1 q.2) := by
  obtain ⟨K, _, _, _, happ, hstable, hiff⟩ := applyWatershed_spec img
  refine ⟨sweepStart img K, happ, sweepStart_inv img K, hiff, ?_⟩
  intro k n q hq
  have hend := markersAt_phase_end img k n q hq
  have h1 : sweepStart img k q.1 q.2 ≠ 0 := by rw [hend]; exact hq
  have h2 := sweepStart_mono img k K q h1
  rw [hstable (k + K) (Nat.le_add_left _ _)] at h2
  rw [h2, hend]

theorem changed_iff_marked (img : PGM) (r : Int → Int → Int) (inv : MarkerInv img r)
    (q : Int × Int) :
    (commitMarkers img r).pixels q.1 q.2 ≠ img.pixels q.1 q.2 ↔ r q.1 q.2 ≠ 0 := by
  constructor
  · intro h h0
    exact h (commitMarkers_unmarked img r q h0)
  · intro h
    rw [commitMarkers_marked img r inv q h, (markerInv_interior img r inv q h).2]
    exact h

theorem marker_ids_set (img : PGM) (r : Int → Int → Int) (inv : MarkerInv img r) :
    {v : Int | ∃ q : Int × Int,
        (commitMarkers img r).pixels q.1 q.2 ≠ img.pixels q.1 q.2 ∧
          (commitMarkers img r).pixels q.1 q.2 = v}
      = ((Finset.Icc (1 : Int) ((seedList img).length : Int) : Finset Int) : Set Int) := by
  ext v
  simp only [Set.mem_setOf_eq, Finset.coe_Icc, Set.mem_Icc]
  constructor
  · rintro ⟨q, hq, rfl⟩
    have hm := (changed_iff_marked img r inv q).1 hq
    rw [commitMarkers_marked img r inv q hm]
    have := inv.range q hm
    rw [seedMarkers_label] at this
    omega
  · rintro ⟨h1, h2⟩
    have hlt : (v - 1).toNat < (seedList img).length := by omega
    have hget : (seedList img)[(v - 1).toNat]? = some ((seedList img)[(v - 1).toNat]) :=
      List.getElem?_eq_getElem hlt
    have hidx := seedMarkers_index img _ _ hget
    have hseed : (seedMarkers img).2 ((seedList img)[(v - 1).toNat]).1
        ((seedList img)[(v - 1).toNat]).2 ≠ 0 := by
      rw [hidx]; omega
    have hr := inv.seedKeep _ hseed
    have hr0 : r ((seedList img)[(v - 1).toNat]).1 ((seedList img)[(v - 1).toNat]).2 ≠ 0 := by
      rw [hr]; exact hseed
    refine ⟨(seedList img)[(v - 1).toNat], (changed_iff_marked img r inv _).2 hr0, ?_⟩
    rw [commitMarkers_marked img r inv _ hr0, hr, hidx]
    omega

/-! ## Claims about marker propagation -/

/-- C11: `applyWatershed` assigns no marker to a pixel in row 0, row `height - 1`, column 0
or column `width - 1`: the marker buffer is 0 there at every point of the run (after any
number of cells of the seeding loop and of any relaxation sweep), `applyWatershed` returns,
and the grid value of that pixel is the same after as before. -/
theorem watershed_ring_untouched (img : PGM) (p : Int × Int)
    (hring : p.1 = 0 ∨ p.1 = img.height - 1 ∨ p.2 = 0 ∨ p.2 = img.width - 1) :
    (∀ k n : Nat, markersAt img k n p.1 p.2 = 0) ∧
      ∃ g, applyWatershed img = some g ∧ g.pixels p.1 p.2 = img.pixels p.1 p.2 := by
  have hni : ¬ isInterior img p := by
    unfold isInterior
    omega
  constructor
  · intro k n
    by_contra h
    exact hni (markersAt_interior img k n p h)
  · obtain ⟨r, happ, inv, _, _⟩ := applyWatershed_result img
    refine ⟨_, happ, commitMarkers_unmarked img r p ?_⟩
    by_contra h
    exact hni (markerInv_interior img r inv p h).1

/-- Witness of C11 at the corner `(0, 0)` of the 3x3 grid with a single 0 at the centre. -/
theorem watershed_ring_untouched_witness :
    (∀ k n : Nat, markersAt dotGrid k n 0 0 = 0) ∧
      ∃ g, applyWatershed dotGrid = some g ∧ g.pixels 0 0 = dotGrid.pixels 0 0 :=
  watershed_ring_untouched dotGrid (0, 0) (Or.inl rfl)

/-- C12: the relaxation loop of `applyWatershed` terminates.  The number `k` of sweeps that
change something is at most the number of foreground pixels (`k` sweeps are not enough for
the loop to exit, `k + 1` are), `applyWatershed` returns, and every sweep with
`changes > 0`, from any marker buffer, gives a marker to at least one zero-valued pixel that
had none before the sweep. -/
theorem relaxation_terminates (img : PGM) :
    (∃ (k : Nat) (r : Int → Int → Int), k ≤ numForeground img ∧
        relaxLoop img (seedMarkers img).1 k (seedMarkers img).2 = none ∧
        relaxLoop img (seedMarkers img).1 (k + 1) (seedMarkers img).2 = some r ∧
        applyWatershed img = some (commitMarkers img r)) ∧
      (∀ markers : Int → Int → Int, (relaxSweep img (seedMarkers img).1 markers).1 > 0 →
        ∃ p, isForeground img p ∧ markers p.1 p.2 = 0 ∧
          (relaxSweep img (seedMarkers img).1 markers).2 p.1 p.2 ≠ 0) := by
  constructor
  · obtain ⟨k, hk, hnone, hsome, happ, _, _⟩ := applyWatershed_spec img
    exact ⟨k, _, le_trans hk (unmarked_le_numForeground img _), hnone, hsome, happ⟩
  · intro markers h
    exact sweep_marks_new_cell img _ markers h

/-- C13: marker assignment is monotone.  If the marker buffer holds a non-zero value at `q`
at some point `(k, n)` of the run, it holds the same value at `q` at every later point
`(k', n')`, and that value is the one committed to the grid at `q`. -/
theorem marker_assignment_monotone (img : PGM) (k n k' n' : Nat) (q : Int × Int)
    (hlater : k < k' ∨ (k = k' ∧ n ≤ n')) (hq : markersAt img k n q.1 q.2 ≠ 0) :
    markersAt img k' n' q.1 q.2 = markersAt img k n q.1 q.2 ∧
      ∃ g, applyWatershed img = some g ∧ g.pixels q.1 q.2 = markersAt img k n q.1 q.2 := by
  refine ⟨markersAt_mono img k n k' n' q hlater hq, ?_⟩
  obtain ⟨r, happ, inv, _, htrace⟩ := applyWatershed_result img
  have hr := htrace k n q hq
  refine ⟨_, happ, ?_⟩
  rw [commitMarkers_marked img r inv q (by rw [hr]; exact hq), hr]

/-- Witness of C13 on `markerGrid`: the marker given to `(1, 1)` by the first step of the
seeding loop is still there at the start of the first sweep and is committed. -/
theorem marker_assignment_monotone_witness :
    markersAt markerGrid 1 0 1 1 = markersAt markerGrid 0 1 1 1 ∧
      ∃ g, applyWatershed markerGrid = some g ∧ g.pixels 1 1 = markersAt markerGrid 0 1 1 1 :=
  marker_assignment_monotone markerGrid 0 1 1 0 (1, 1) (Or.inl (by decide)) (by decide)

/-- C14, refuted as stated: in `markerGrid` the pixels `(1, 1)` and `(1, 2)` belong to one
8-connected foreground component and both receive a marker, but `(1, 1)` receives 1 and
`(1, 2)` receives 2. -/
theorem markerGrid_two_ids_in_one_component :
    fgConnected markerGrid (1, 1) (1, 2) ∧
      (applyWatershed markerGrid).map (fun g => (g.pixels 1 1, g.pixels 1 2)) = some (1, 2) ∧
      ¬ (∀ g, applyWatershed markerGrid = some g → ∀ p q : Int × Int,
          fgConnected markerGrid p q → g.pixels p.1 p.2 ≠ markerGrid.pixels p.1 p.2 →
          g.pixels q.1 q.2 ≠ markerGrid.pixels q.1 q.2 → g.pixels p.1 p.2 = g.pixels q.1 q.2) := by
  have hconn : fgConnected markerGrid (1, 1) (1, 2) := by
    apply Relation.ReflTransGen.single
    refine ⟨⟨by unfold inBounds; decide, by decide⟩, ⟨by unfold inBounds; decide, by decide⟩,
      ?_⟩
    unfold adjacent8
    refine ⟨by decide, by decide, by decide⟩
  have hval : (applyWatershed markerGrid).map (fun g => (g.pixels 1 1, g.pixels 1 2))
      = some (1, 2) := by decide
  refine ⟨hconn, hval, ?_⟩
  intro hall
  cases hg : applyWatershed markerGrid with
  | none => rw [hg] at hval; simp at hval
  | some g =>
    rw [hg] at hval
    simp only [Option.map_some', Option.some.injEq, Prod.mk.injEq] at hval
    have h0a : markerGrid.pixels 1 1 = 0 := by decide
    have h0b : markerGrid.pixels 1 2 = 0 := by decide
    have := hall g hg (1, 1) (1, 2) hconn (by rw [hval.1, h0a]; decide)
      (by rw [hval.2, h0b]; decide)
    rw [hval.1, hval.2] at this
    exact absurd this (by decide)

/-- C14, amended: `applyWatershed` writes one marker id per seed.  Every pixel that
receives a marker receives the id of a seed of its own 8-connected foreground component,
distinct seeds carry distinct ids, and the number of distinct marker ids written to the grid
equals the number of seeds. -/
theorem marker_ids_per_seed (img : PGM) :
    ∃ g, applyWatershed img = some g ∧
      (∀ q : Int × Int, g.pixels q.1 q.2 ≠ img.pixels q.1 q.2 →
        ∃ s, isSeed img s ∧ fgConnected img s q ∧ g.pixels q.1 q.2 = g.pixels s.1 s.2) ∧
      (∀ s s' : Int × Int, isSeed img s → isSeed img s' →
        g.pixels s.1 s.2 = g.pixels s'.1 s'.2 → s = s') ∧
      Set.ncard {v : Int | ∃ q : Int × Int,
          g.pixels q.1 q.2 ≠ img.pixels q.1 q.2 ∧ g.pixels q.1 q.2 = v} = numSeeds img := by
  obtain ⟨r, happ, inv, _, _⟩ := applyWatershed_result img
  have hseedval : ∀ s, isSeed img s →
      (commitMarkers img r).pixels s.1 s.2 = (seedMarkers img).2 s.1 s.2 := by
    intro s hs
    have h1 := (seedMarkers_ne_zero_iff img s).2 hs
    have h2 := inv.seedKeep s h1
    rw [commitMarkers_marked img r inv s (by rw [h2]; exact h1), h2]
  refine ⟨_, happ, ?_, ?_, ?_⟩
  · intro q hq
    have hm := (changed_iff_marked img r inv q).1 hq
    obtain ⟨s, hs, hid, hpath⟩ := inv.origin q hm
    refine ⟨s, hs, fgConnected_of_intPath img s q hpath, ?_⟩
    rw [commitMarkers_marked img r inv q hm, hseedval s hs, hid]
  · intro s s' hs hs' h
    rw [hseedval s hs, hseedval s' hs'] at h
    exact seed_index_unique img s s' hs hs' h
  · rw [marker_ids_set img r inv, Set.ncard_coe_Finset, Int.card_Icc, numSeeds_eq_length]
    omega

/-- C17: a pixel is changed by `applyWatershed` exactly when it is interior, has value 0
and is joined to a seed by a path of 8-adjacent interior zero-valued pixels; every other
pixel keeps its value, and every changed pixel receives a value between 1 and the number
of seeds. -/
theorem watershed_changed_iff (img : PGM) :
    ∃ g, applyWatershed img = some g ∧
      (∀ q : Int × Int, g.pixels q.1 q.2 ≠ img.pixels q.1 q.2 ↔
        (isInterior img q ∧ img.pixels q.1 q.2 = 0 ∧ joinedToSeed img q)) ∧
      (∀ q : Int × Int, ¬ (isInterior img q ∧ img.pixels q.1 q.2 = 0 ∧ joinedToSeed img q) →
        g.pixels q.1 q.2 = img.pixels q.1 q.2) ∧
      (∀ q : Int × Int, g.pixels q.1 q.2 ≠ img.pixels q.1 q.2 →
        1 ≤ g.pixels q.1 q.2 ∧ g.pixels q.1 q.2 ≤ (numSeeds img : Int)) := by
  obtain ⟨r, happ, inv, hiff, _⟩ := applyWatershed_result img
  have hchar : ∀ q : Int × Int, (commitMarkers img r).pixels q.1 q.2 ≠ img.pixels q.1 q.2 ↔
      (isInterior img q ∧ img.pixels q.1 q.2 = 0 ∧ joinedToSeed img q) := by
    intro q
    rw [changed_iff_marked img r inv q]
    constructor
    · intro h
      obtain ⟨h1, h2⟩ := markerInv_interior img r inv q h
      exact ⟨h1, h2, (hiff q).1 h⟩
    · intro h
      exact (hiff q).2 h.2.2
  refine ⟨_, happ, hchar, ?_, ?_⟩
  · intro q hq
    by_contra hne
    exact hq ((hchar q).1 hne)
  · intro q hq
    have hm := (changed_iff_marked img r inv q).1 hq
    rw [commitMarkers_marked img r inv q hm, numSeeds_eq_length]
    have := inv.range q hm
    rw [seedMarkers_label] at this
    omega

/-- C18: the seeding loop marks exactly the seeds (interior pixels of value 0 with an
8-neighbour of value 255).  `seedList` lists them in raster order; the seed at position `i`
(counted from 0) receives the id `i + 1`, so the ids are 1, ..., n and distinct; the
sentinel `current_label` passed to relaxation is `n + 1`; and after `applyWatershed` the grid
value at the seed at position `i` is `i + 1`. -/
theorem seed_ids_in_raster_order (img : PGM) :
    (∀ p : Int × Int, (seedMarkers img).2 p.1 p.2 ≠ 0 ↔ isSeed img p) ∧
      (∀ p : Int × Int, p ∈ seedList img ↔ isSeed img p) ∧
      (seedList img).Pairwise rasterBefore ∧
      (seedList img).length = numSeeds img ∧
      (∀ (i : Nat) (p : Int × Int), (seedList img)[i]? = some p →
        (seedMarkers img).2 p.1 p.2 = (i : Int) + 1) ∧
      (seedMarkers img).1 = (numSeeds img : Int) + 1 ∧
      ∃ g, applyWatershed img = some g ∧
        ∀ (i : Nat) (p : Int × Int), (seedList img)[i]? = some p →
          g.pixels p.1 p.2 = (i : Int) + 1 := by
  obtain ⟨r, happ, inv, _, _⟩ := applyWatershed_result img
  refine ⟨seedMarkers_ne_zero_iff img, mem_seedList img,
    (pairwise_rasterCells _ _ _ _).filter _, (numSeeds_eq_length img).symm,
    seedMarkers_index img, ?_, _, happ, ?_⟩
  · rw [seedMarkers_label, numSeeds_eq_length]
  · intro i p hp
    have hidx := seedMarkers_index img i p hp
    have h1 : (seedMarkers img).2 p.1 p.2 ≠ 0 := by rw [hidx]; omega
    have h2 := inv.seedKeep p h1
    rw [commitMarkers_marked img r inv p (by rw [h2]; exact h1), h2, hidx]

/-! ## The pixel range after the two image stages -/

theorem unitGrid_output : (applySauvolaThreshold unitGrid 0 0.5 128).pixels 0 0 = 255 := by
  have hk : (0.5 : ℝ) = ((1 : Int) : ℝ) / ((2 : Int) : ℝ) := by norm_num
  have hR : (128 : ℝ) = ((128 : Int) : ℝ) / ((1 : Int) : ℝ) := by norm_num
  rw [hk, hR, applySauvolaThreshold_exact unitGrid 0 1 2 128 1 0 0 (by norm_num) (by norm_num)
    (by norm_num) (by norm_num) (by decide)]
  decide

theorem stripeGrid_seeds : (seedList stripeGrid).length = 256 := by
  have hall : ∀ p ∈ rasterCells 1 (stripeGrid.height - 1) 1 (stripeGrid.width - 1),
      seedTest stripeGrid p = true := by
    intro p hp
    rw [mem_rasterCells] at hp
    have hh : stripeGrid.height = 3 := rfl
    have hw : stripeGrid.width = 258 := rfl
    rw [hh, hw] at hp
    have hp1 : p.1 = 1 := by omega
    unfold seedTest
    rw [Bool.and_eq_true, decide_eq_true_eq, isBorder_iff]
    constructor
    · show (if (p.1 = 1 ∧ 1 ≤ p.2 ∧ p.2 ≤ 256) then (0 : Int) else 255) = 0
      rw [if_pos ⟨hp1, by omega, by omega⟩]
    · refine ⟨(0, p.2), ?_, ?_⟩
      · unfold adjacent8
        refine ⟨fun h => ?_, ?_, ?_⟩
        · have := congrArg Prod.fst h
          simp only at this
          omega
        · simp only [hp1]
          decide
        · simp
      · show (if ((0 : Int) = 1 ∧ 1 ≤ p.2 ∧ p.2 ≤ 256) then (0 : Int) else 255) = 255
        rw [if_neg]
        intro h
        exact absurd h.1 (by decide)
  unfold seedList
  rw [List.filter_eq_self.2 hall, length_rasterCells]
  rfl

theorem stripeGrid_output :
    ∃ g q, applyWatershed stripeGrid = some g ∧ inBounds stripeGrid q ∧
      g.pixels q.1 q.2 = 256 := by
  obtain ⟨r, happ, inv, _, _⟩ := applyWatershed_result stripeGrid
  have hlt : 255 < (seedList stripeGrid).length := by rw [stripeGrid_seeds]; decide
  have hget : (seedList stripeGrid)[255]? = some ((seedList stripeGrid)[255]) :=
    List.getElem?_eq_getElem hlt
  have hidx := seedMarkers_index stripeGrid _ _ hget
  have h1 : (seedMarkers stripeGrid).2 ((seedList stripeGrid)[255]).1
      ((seedList stripeGrid)[255]).2 ≠ 0 := by rw [hidx]; decide
  have h2 := inv.seedKeep _ h1
  have hseed := (seedMarkers_ne_zero_iff stripeGrid _).1 h1
  refine ⟨_, (seedList stripeGrid)[255], happ,
    inBounds_of_isInterior (isInterior_of_isSeed hseed), ?_⟩
  rw [commitMarkers_marked stripeGrid r inv _ (by rw [h2]; exact h1), h2, hidx]
  norm_num

/-- C15, refuted as stated.  The 1x1 grid with `max_val = 1` and pixel 1 satisfies the grid
invariant, but `applySauvolaThreshold` (here with `windowSize = 0`, `k = 0.5`, `R = 128`)
writes 255, above `max_val`.  The 3x258 grid `stripeGrid` with `max_val = 255` satisfies the
grid invariant, but it has 256 seeds and `applyWatershed` writes the marker id 256. -/
theorem grid_invariant_broken :
    ((∀ p : Int × Int, inBounds unitGrid p →
          0 ≤ unitGrid.pixels p.1 p.2 ∧ unitGrid.pixels p.1 p.2 ≤ unitGrid.max_val) ∧
        (applySauvolaThreshold unitGrid 0 0.5 128).max_val
          < (applySauvolaThreshold unitGrid 0 0.5 128).pixels 0 0) ∧
      ((∀ p : Int × Int, inBounds stripeGrid p →
          0 ≤ stripeGrid.pixels p.1 p.2 ∧ stripeGrid.pixels p.1 p.2 ≤ stripeGrid.max_val) ∧
        ∃ g q, applyWatershed stripeGrid = some g ∧ inBounds stripeGrid q ∧
          g.max_val < g.pixels q.1 q.2) := by
  refine ⟨⟨?_, ?_⟩, ?_, ?_⟩
  · intro p _
    show (0 : Int) ≤ 1 ∧ (1 : Int) ≤ 1
    decide
  · rw [unitGrid_output]
    decide
  · intro p _
    show 0 ≤ (if (p.1 = 1 ∧ 1 ≤ p.2 ∧ p.2 ≤ 256) then (0 : Int) else 255) ∧
      (if (p.1 = 1 ∧ 1 ≤ p.2 ∧ p.2 ≤ 256) then (0 : Int) else 255) ≤ 255
    split <;> decide
  · obtain ⟨g, q, happ, hq, hval⟩ := stripeGrid_output
    refine ⟨g, q, happ, hq, ?_⟩
    have hmax : g.max_val = 255 := by
      unfold applyWatershed at happ
      cases hloop : relaxLoop stripeGrid (seedMarkers stripeGrid).1
          ((stripeGrid.height * stripeGrid.width).toNat + 1) (seedMarkers stripeGrid).2 with
      | none => rw [hloop] at happ; simp at happ
      | some r =>
        rw [hloop] at happ
        simp only [Option.map_some', Option.some.injEq] at happ
        rw [← happ]
        rfl
    rw [hmax, hval]
    decide

/-- C15, amended: for a grid whose pixels lie in `[0, max_val]`.  After
`applySauvolaThreshold` (any parameters) `max_val` is unchanged, every pixel is 0 or 255,
and hence every pixel lies in `[0, max_val]` provided `max_val ≥ 255`.  `applyWatershed`
returns a grid with `max_val` unchanged, and every pixel of it lies in `[0, max_val]`
provided the number of seeds is at most `max_val`. -/
theorem grid_range_after_stages (img : PGM)
    (hrange : ∀ p : Int × Int, inBounds img p →
      0 ≤ img.pixels p.1 p.2 ∧ img.pixels p.1 p.2 ≤ img.max_val) :
    (∀ (windowSize : Int) (k R : ℝ),
        (applySauvolaThreshold img windowSize k R).max_val = img.max_val ∧
        (∀ p : Int × Int, inBounds img p →
          (applySauvolaThreshold img windowSize k R).pixels p.1 p.2 = 0 ∨
            (applySauvolaThreshold img windowSize k R).pixels p.1 p.2 = 255) ∧
        (255 ≤ img.max_val → ∀ p : Int × Int, inBounds img p →
          0 ≤ (applySauvolaThreshold img windowSize k R).pixels p.1 p.2 ∧
            (applySauvolaThreshold img windowSize k R).pixels p.1 p.2 ≤ img.max_val)) ∧
      ∃ g, applyWatershed img = some g ∧ g.max_val = img.max_val ∧
        ((numSeeds img : Int) ≤ img.max_val → ∀ p : Int × Int, inBounds img p →
          0 ≤ g.pixels p.1 p.2 ∧ g.pixels p.1 p.2 ≤ img.max_val) := by
  constructor
  · intro windowSize k R
    refine ⟨rfl, ?_, ?_⟩
    · intro p _
      unfold applySauvolaThreshold
      simp only
      split
      · exact Or.inl rfl
      · exact Or.inr rfl
    · intro hmax p _
      unfold applySauvolaThreshold
      simp only
      split
      · omega
      · omega
  · obtain ⟨r, happ, inv, _, _⟩ := applyWatershed_result img
    refine ⟨_, happ, rfl, ?_⟩
    intro hseeds p hp
    by_cases hm : r p.1 p.2 = 0
    · rw [commitMarkers_unmarked img r p hm]
      exact hrange p hp
    · rw [commitMarkers_marked img r inv p hm]
      have := inv.range p hm
      rw [seedMarkers_label, ← numSeeds_eq_length] at this
      omega

/-- Witness of the amended C15 on `markerGrid` (3x5, `max_val = 255`), which has the two
seeds `(1, 1)` and `(1, 2)`: `applyWatershed` writes the marker ids 1 and 2 there. -/
theorem grid_range_after_stages_witness :
    numSeeds markerGrid = 2 ∧
      (applyWatershed markerGrid).map (fun g => (g.pixels 1 1, g.pixels 1 2)) = some (1, 2) ∧
      (∀ (windowSize : Int) (k R : ℝ),
        (applySauvolaThreshold markerGrid windowSize k R).max_val = markerGrid.max_val ∧
        (∀ p : Int × Int, inBounds markerGrid p →
          (applySauvolaThreshold markerGrid windowSize k R).pixels p.1 p.2 = 0 ∨
            (applySauvolaThreshold markerGrid windowSize k R).pixels p.1 p.2 = 255) ∧
        (∀ p : Int × Int, inBounds markerGrid p →
          0 ≤ (applySauvolaThreshold markerGrid windowSize k R).pixels p.1 p.2 ∧
            (applySauvolaThreshold markerGrid windowSize k R).pixels p.1 p.2
              ≤ markerGrid.max_val)) ∧
      ∃ g, applyWatershed markerGrid = some g ∧ g.max_val = markerGrid.max_val ∧
        ∀ p : Int × Int, inBounds markerGrid p →
          0 ≤ g.pixels p.1 p.2 ∧ g.pixels p.1 p.2 ≤ markerGrid.max_val :=
  have hrange : ∀ p : Int × Int, inBounds markerGrid p →
      0 ≤ markerGrid.pixels p.1 p.2 ∧ markerGrid.pixels p.1 p.2 ≤ markerGrid.max_val := by
    intro p _
    show 0 ≤ (if (p.1 = 1 ∧ (p.2 = 1 ∨ p.2 = 2)) then (0 : Int)
        else if (p.1 = 1 ∧ p.2 = 4) then 152 else 255) ∧
      (if (p.1 = 1 ∧ (p.2 = 1 ∨ p.2 = 2)) then (0 : Int)
        else if (p.1 = 1 ∧ p.2 = 4) then 152 else 255) ≤ 255
    split
    · decide
    · split <;> decide
  have hseeds : numSeeds markerGrid = 2 := by
    rw [numSeeds_eq_length]
    have h0 : seedList markerGrid = [(1, 1), (1, 2)] := by decide
    rw [h0]
    rfl
  ⟨hseeds, by decide,
   fun windowSize k R =>
    ⟨((grid_range_after_stages markerGrid hrange).1 windowSize k R).1,
     ((grid_range_after_stages markerGrid hrange).1 windowSize k R).2.1,
     ((grid_range_after_stages markerGrid hrange).1 windowSize k R).2.2 (by decide)⟩,
   (grid_range_after_stages markerGrid hrange).2.imp (fun _ hg =>
    ⟨hg.1, hg.2.1, hg.2.2 (by rw [hseeds]; decide)⟩)⟩

/-! ## Flood fill: stack bound -/

theorem floodNeighbor_stackInv (img : PGM) (label x y : Int) (hl : label ≠ 0)
    (st : FloodState) (d : Int × Int) (inv : StackInv img st) :
    StackInv img (floodNeighbor img label x y st d) := by
  have hm := floodNeighbor_measure img label x y hl st d
  have hmono := floodNeighbor_mono img label x y hl st d
  refine ⟨le_trans hm inv.measure, ?_, ?_⟩
  · unfold floodNeighbor
    simp only
    split
    · rename_i h
      refine List.nodup_cons.2 ⟨?_, inv.nodup⟩
      intro hmem
      exact inv.labelled _ hmem h.2.2.2.2.2
    · exact inv.nodup
  · unfold floodNeighbor at hmono ⊢
    simp only at hmono ⊢
    split
    · rename_i h
      rw [if_pos h] at hmono
      intro c hc
      rcases List.mem_cons.1 hc with rfl | hc
      · simp [hl]
      · exact hmono c (inv.labelled c hc)
    · exact inv.labelled

theorem floodNeighbors_stackInv (img : PGM) (label x y : Int) (hl : label ≠ 0) :
    ∀ (ds : List (Int × Int)) (st : FloodState), StackInv img st →
      StackInv img (ds.foldl (floodNeighbor img label x y) st) := by
  intro ds
  induction ds with
  | nil => intro st inv; exact inv
  | cons d ds ih =>
    intro st inv
    exact ih _ (floodNeighbor_stackInv img label x y hl st d inv)

theorem pop_stackInv (img : PGM) (c : Int × Int) (rest : List (Int × Int))
    (labels : Int → Int → Int) (inv : StackInv img ⟨c :: rest, labels⟩) :
    StackInv img ⟨rest, labels⟩ := by
  refine ⟨?_, (List.nodup_cons.1 inv.nodup).2, fun a ha => inv.labelled a (List.mem_cons_of_mem _ ha)⟩
  have := inv.measure
  simp only [List.length_cons] at this ⊢
  omega

theorem floodMid_stackInv (img : PGM) (label : Int) (hl : label ≠ 0) (st : FloodState)
    (n : Nat) (inv : StackInv img st) : StackInv img (floodMid img label st n) := by
  obtain ⟨stack, labels⟩ := st
  cases stack with
  | nil => exact inv
  | cons c rest =>
    obtain ⟨x, y⟩ := c
    exact floodNeighbors_stackInv img label x y hl _ _ (pop_stackInv img _ _ _ inv)

theorem floodNext_stackInv (img : PGM) (label : Int) (hl : label ≠ 0) (st : FloodState)
    (inv : StackInv img st) : StackInv img (floodNext img label st) := by
  obtain ⟨stack, labels⟩ := st
  cases stack with
  | nil => exact inv
  | cons c rest =>
    obtain ⟨x, y⟩ := c
    exact floodNeighbors_stackInv img label x y hl _ _ (pop_stackInv img _ _ _ inv)

theorem floodInit_stackInv (img : PGM) (x y label : Int) (labels : Int → Int → Int)
    (hl : label ≠ 0) (hin : inBounds img (x, y)) (hlab : labels x y = 0) :
    StackInv img { stack := [(x, y)], labels := setCell labels x y label } := by
  refine ⟨?_, List.nodup_singleton _, ?_⟩
  · have h1 := unlabeled_setCell_lt img labels (x, y) label hin hlab hl
    have h2 := unlabeled_le img labels
    simp only [List.length_singleton] at h1 ⊢
    omega
  · intro c hc
    rw [List.mem_singleton] at hc
    subst hc
    simp [hl]

theorem floodHead_stackInv (img : PGM) (x y label : Int) (labels : Int → Int → Int)
    (hl : label ≠ 0) (hin : inBounds img (x, y)) (hlab : labels x y = 0) (k : Nat) :
    StackInv img (floodHead img x y label labels k) := by
  induction k with
  | zero => exact floodInit_stackInv img x y label labels hl hin hlab
  | succ k ih =>
    unfold floodHead at ih ⊢
    rw [Function.iterate_succ_apply']
    exact floodNext_stackInv img label hl _ ih

theorem floodLoop_eq_head (img : PGM) (label : Int) :
    ∀ (k : Nat) (st : FloodState), ((floodNext img label)^[k] st).stack = [] →
      ∀ fuel, k < fuel →
      floodLoop img label fuel st = some ((floodNext img label)^[k] st).labels := by
  intro k
  induction k with
  | zero =>
    intro st hst fuel hf
    obtain ⟨f, rfl⟩ : ∃ f, fuel = f + 1 := ⟨fuel - 1, by omega⟩
    simp only [Function.iterate_zero, id_eq] at hst ⊢
    simp [floodLoop, hst]
  | succ k ih =>
    intro st hst fuel hf
    obtain ⟨f, rfl⟩ : ∃ f, fuel = f + 1 := ⟨fuel - 1, by omega⟩
    rw [Function.iterate_succ_apply] at hst ⊢
    obtain ⟨stack, labels⟩ := st
    cases stack with
    | nil =>
      have hfix : floodNext img label ⟨[], labels⟩ = ⟨[], labels⟩ := rfl
      rw [hfix] at hst ⊢
      exact ih _ hst (f + 1) (by omega)
    | cons c rest =>
      obtain ⟨x, y⟩ := c
      have hnext : floodNext img label ⟨(x, y) :: rest, labels⟩
          = floodStep img label x y ⟨rest, labels⟩ := rfl
      rw [hnext] at hst ⊢
      have := ih _ hst f (by omega)
      simpa [floodLoop] using this

theorem floodHead_empties (img : PGM) (label : Int) (hl : label ≠ 0) :
    ∀ (n : Nat) (st : FloodState), st.stack.length + unlabeled img st.labels ≤ n →
      ∃ k, k ≤ n ∧ ((floodNext img label)^[k] st).stack = [] := by
  intro n
  induction n with
  | zero =>
    intro st h
    refine ⟨0, le_refl _, ?_⟩
    have : st.stack.length = 0 := by omega
    simpa using List.length_eq_zero.1 this
  | succ n ih =>
    intro st h
    obtain ⟨stack, labels⟩ := st
    cases stack with
    | nil => exact ⟨0, Nat.zero_le _, rfl⟩
    | cons c rest =>
      obtain ⟨x, y⟩ := c
      have hm := floodStep_measure img label x y hl (dx.zip dy) ⟨rest, labels⟩
      simp only [List.length_cons] at h hm
      obtain ⟨k, hk, hempty⟩ := ih (floodStep img label x y ⟨rest, labels⟩)
        (by unfold floodStep; omega)
      refine ⟨k + 1, by omega, ?_⟩
      rw [Function.iterate_succ_apply]
      exact hempty

theorem floodNeighbors_mono (img : PGM) (label x y : Int) (hl : label ≠ 0) (c : Int × Int) :
    ∀ (ds : List (Int × Int)) (st : FloodState), st.labels c.1 c.2 ≠ 0 →
      (ds.foldl (floodNeighbor img label x y) st).labels c.1 c.2 ≠ 0 :=
  floodStep_mono img label x y hl c

theorem floodMid_labels_start (img : PGM) (label : Int) (hl : label ≠ 0) (st : FloodState)
    (n : Nat) (c : Int × Int) (h : st.labels c.1 c.2 ≠ 0) :
    (floodMid img label st n).labels c.1 c.2 ≠ 0 := by
  obtain ⟨stack, labels⟩ := st
  cases stack with
  | nil => exact h
  | cons a rest =>
    obtain ⟨x, y⟩ := a
    exact floodNeighbors_mono img label x y hl c _ _ h

theorem floodMid_labels_add (img : PGM) (label : Int) (hl : label ≠ 0) (st : FloodState)
    (n d : Nat) (c : Int × Int) (h : (floodMid img label st n).labels c.1 c.2 ≠ 0) :
    (floodMid img label st (n + d)).labels c.1 c.2 ≠ 0 := by
  obtain ⟨stack, labels⟩ := st
  cases stack with
  | nil => exact h
  | cons a rest =>
    obtain ⟨x, y⟩ := a
    unfold floodMid at h ⊢
    simp only at h ⊢
    rw [List.take_add, List.foldl_append]
    exact floodNeighbors_mono img label x y hl c _ _ h

theorem floodMid_full (img : PGM) (label : Int) (st : FloodState) (n : Nat) (hn : 8 ≤ n) :
    floodMid img label st n = floodNext img label st := by
  obtain ⟨stack, labels⟩ := st
  cases stack with
  | nil => rfl
  | cons a rest =>
    obtain ⟨x, y⟩ := a
    unfold floodMid floodNext floodStep
    simp only
    rw [List.take_of_length_le (by simpa [dx, dy] using hn)]

theorem floodNext_labels (img : PGM) (label : Int) (hl : label ≠ 0) (st : FloodState)
    (n : Nat) (c : Int × Int) (h : (floodMid img label st n).labels c.1 c.2 ≠ 0) :
    (floodNext img label st).labels c.1 c.2 ≠ 0 := by
  rw [← floodMid_full img label st (n + 8) (Nat.le_add_left _ _)]
  exact floodMid_labels_add img label hl st n 8 c h

theorem floodHead_labels (img : PGM) (x y label : Int) (labels : Int → Int → Int)
    (hl : label ≠ 0) (k d : Nat) (c : Int × Int)
    (h : (floodHead img x y label labels k).labels c.1 c.2 ≠ 0) :
    (floodHead img x y label labels (k + d)).labels c.1 c.2 ≠ 0 := by
  induction d with
  | zero => exact h
  | succ d ih =>
    have hstep : floodHead img x y label labels (k + (d + 1))
        = floodNext img label (floodHead img x y label labels (k + d)) := by
      unfold floodHead
      rw [show k + (d + 1) = (k + d) + 1 by omega, Function.iterate_succ_apply']
    rw [hstep]
    exact floodNext_labels img label hl _ 0 c (floodMid_labels_start img label hl _ 0 c ih)

theorem floodAt_labels_mono (img : PGM) (x y label : Int) (labels : Int → Int → Int)
    (hl : label ≠ 0) (k n k' n' : Nat) (c : Int × Int)
    (hlater : k < k' ∨ (k = k' ∧ n ≤ n'))
    (h : (floodAt img x y label labels k n).labels c.1 c.2 ≠ 0) :
    (floodAt img x y label labels k' n').labels c.1 c.2 ≠ 0 := by
  rcases hlater with hlt | ⟨rfl, hn⟩
  · obtain ⟨d, rfl⟩ := Nat.exists_eq_add_of_le (show k + 1 ≤ k' by omega)
    unfold floodAt at h ⊢
    have h1 : (floodHead img x y label labels (k + 1)).labels c.1 c.2 ≠ 0 := by
      have hstep : floodHead img x y label labels (k + 1)
          = floodNext img label (floodHead img x y label labels k) := by
        unfold floodHead
        rw [Function.iterate_succ_apply']
      rw [hstep]
      exact floodNext_labels img label hl _ n c h
    exact floodMid_labels_start img label hl _ n' c
      (floodHead_labels img x y label labels hl (k + 1) d c h1)
  · obtain ⟨d, rfl⟩ := Nat.exists_eq_add_of_le hn
    exact floodMid_labels_add img label hl _ n d c h

theorem floodMid_push (img : PGM) (label : Int) (hl : label ≠ 0) (st : FloodState) (n : Nat)
    (c : Int × Int)
    (hpush : (floodMid img label st (n + 1)).stack = c :: (floodMid img label st n).stack) :
    (floodMid img label st n).labels c.1 c.2 = 0 ∧
      (floodMid img label st (n + 1)).labels c.1 c.2 = label := by
  obtain ⟨stack, labels⟩ := st
  cases stack with
  | nil => exact absurd hpush.symm (List.cons_ne_self _ _)
  | cons a rest =>
    obtain ⟨x, y⟩ := a
    unfold floodMid at hpush ⊢
    simp only at hpush ⊢
    rw [List.take_succ, List.foldl_append] at hpush ⊢
    cases hd : (dx.zip dy)[n]? with
    | none =>
      rw [hd] at hpush
      exact absurd hpush.symm (List.cons_ne_self _ _)
    | some d =>
      rw [hd] at hpush
      simp only [Option.toList_some, List.foldl_cons, List.foldl_nil] at hpush ⊢
      generalize List.foldl (floodNeighbor img label x y) ⟨rest, labels⟩
        (List.take n (dx.zip dy)) = s at hpush ⊢
      unfold floodNeighbor at hpush ⊢
      simp only at hpush ⊢
      split at hpush
      · rename_i hcond
        rw [if_pos hcond]
        have hc : c = (x + d.1, y + d.2) := by
          have := List.cons.inj hpush
          exact this.1.symm
        subst hc
        exact ⟨hcond.2.2.2.2.2, by simp⟩
      · exact absurd hpush.symm (List.cons_ne_self _ _)

theorem cells_cast (img : PGM) (p : Int × Int) (hin : inBounds img p) :
    ((img.height.toNat * img.width.toNat : Nat) : Int) = img.width * img.height ∧
      (img.height * img.width).toNat = img.height.toNat * img.width.toNat := by
  obtain ⟨h1, h2, h3, h4⟩ := hin
  obtain ⟨a, ha⟩ := Int.eq_ofNat_of_zero_le (show 0 ≤ img.height by omega)
  obtain ⟨b, hb⟩ := Int.eq_ofNat_of_zero_le (show 0 ≤ img.width by omega)
  rw [ha, hb]
  constructor
  · rw [Int.toNat_natCast, Int.toNat_natCast]
    push_cast
    ring
  · rw [← Nat.cast_mul, Int.toNat_natCast, Int.toNat_natCast, Int.toNat_natCast]

theorem stackInv_bound (img : PGM) (p : Int × Int) (hin : inBounds img p) (st : FloodState)
    (inv : StackInv img st) : 2 * (st.stack.length : Int) ≤ 2 * (img.width * img.height) := by
  have h1 := inv.measure
  have h2 : (st.stack.length : Int) ≤ ((img.height.toNat * img.width.toNat : Nat) : Int) := by
    exact_mod_cast le_trans (Nat.le_add_right _ _) h1
  rw [(cells_cast img p hin).1] at h2
  omega

/-- C19: in a call `floodFill img x y label labels` as made by `labelComponents`
(`label ≥ 1`, `(x, y)` an in-bounds zero-valued pixel whose label is 0) the stack pointer
`2 * stack.length` is at most `2 * width * height` at the head of every iteration and after
every pass of the neighbour loop, so all stack reads and writes stay inside the allocated
slots; a cell is pushed only while its label is 0 and is labelled by that step, no cell is
pushed twice, and the loop ends after at most `width * height` iterations. -/
theorem flood_stack_bound (img : PGM) (x y label : Int) (labels : Int → Int → Int)
    (hl : 1 ≤ label) (hin : inBounds img (x, y)) (_h0 : img.pixels x y = 0)
    (hlab : labels x y = 0) :
    (∀ k : Nat, 2 * ((floodHead img x y label labels k).stack.length : Int)
        ≤ 2 * (img.width * img.height)) ∧
      (∀ k n : Nat, 2 * ((floodAt img x y label labels k n).stack.length : Int)
        ≤ 2 * (img.width * img.height)) ∧
      (∀ (k n : Nat) (c : Int × Int),
        (floodAt img x y label labels k (n + 1)).stack
            = c :: (floodAt img x y label labels k n).stack →
        (floodAt img x y label labels k n).labels c.1 c.2 = 0 ∧
          (floodAt img x y label labels k (n + 1)).labels c.1 c.2 = label) ∧
      (∀ (k n k' n' : Nat) (c : Int × Int),
        (floodAt img x y label labels k (n + 1)).stack
            = c :: (floodAt img x y label labels k n).stack →
        (floodAt img x y label labels k' (n' + 1)).stack
            = c :: (floodAt img x y label labels k' n').stack →
        k = k' ∧ n = n') ∧
      ∃ k : Nat, (k : Int) ≤ img.width * img.height ∧
        (floodHead img x y label labels k).stack = [] ∧
        floodFill img x y label labels
          = some (label, (floodHead img x y label labels k).labels) := by
  have hl0 : label ≠ 0 := by omega
  have hhead := floodHead_stackInv img x y label labels hl0 hin hlab
  have hpush : ∀ (k n : Nat) (c : Int × Int),
      (floodAt img x y label labels k (n + 1)).stack
          = c :: (floodAt img x y label labels k n).stack →
      (floodAt img x y label labels k n).labels c.1 c.2 = 0 ∧
        (floodAt img x y label labels k (n + 1)).labels c.1 c.2 = label :=
    fun k n c h => floodMid_push img label hl0 _ n c h
  have honce : ∀ (k n k' n' : Nat) (c : Int × Int),
      (floodAt img x y label labels k (n + 1)).stack
          = c :: (floodAt img x y label labels k n).stack →
      (floodAt img x y label labels k' (n' + 1)).stack
          = c :: (floodAt img x y label labels k' n').stack →
      (k < k' ∨ (k = k' ∧ n < n')) → False := by
    intro k n k' n' c h1 h2 hlt
    have hafter : (floodAt img x y label labels k (n + 1)).labels c.1 c.2 ≠ 0 := by
      rw [(hpush k n c h1).2]
      exact hl0
    have hlater : k < k' ∨ (k = k' ∧ n + 1 ≤ n') := by
      rcases hlt with h | ⟨h, h'⟩
      · exact Or.inl h
      · exact Or.inr ⟨h, h'⟩
    exact floodAt_labels_mono img x y label labels hl0 k (n + 1) k' n' c hlater hafter
      (hpush k' n' c h2).1
  refine ⟨fun k => stackInv_bound img (x, y) hin _ (hhead k),
    fun k n => stackInv_bound img (x, y) hin _ (floodMid_stackInv img label hl0 _ n (hhead k)),
    hpush, ?_, ?_⟩
  · intro k n k' n' c h1 h2
    by_contra hne
    have : (k < k' ∨ (k = k' ∧ n < n')) ∨ (k' < k ∨ (k' = k ∧ n' < n)) := by omega
    rcases this with h | h
    · exact honce k n k' n' c h1 h2 h
    · exact honce k' n' k n c h2 h1 h
  · obtain ⟨k, hk, hempty⟩ := floodHead_empties img label hl0 _ _ (hhead 0).measure
    have hcast := cells_cast img (x, y) hin
    have hempty' : (floodHead img x y label labels k).stack = [] := hempty
    refine ⟨k, ?_, hempty', ?_⟩
    · rw [← hcast.1]
      exact_mod_cast hk
    · have hrun := floodLoop_eq_head img label k
        { stack := [(x, y)], labels := setCell labels x y label } hempty'
        ((img.height * img.width).toNat + 1) (by rw [hcast.2]; omega)
      unfold floodFill
      simp only
      rw [hrun]
      rfl

/-- Witness of C19: the single flood fill started by `labelComponents` on the 3x3 grid with
a 0 at the centre. -/
theorem flood_stack_bound_witness :
    (∀ k : Nat, 2 * ((floodHead dotGrid 1 1 1 (fun _ _ => 0) k).stack.length : Int)
        ≤ 2 * (dotGrid.width * dotGrid.height)) ∧
      (∀ k n : Nat, 2 * ((floodAt dotGrid 1 1 1 (fun _ _ => 0) k n).stack.length : Int)
        ≤ 2 * (dotGrid.width * dotGrid.height)) ∧
      (∀ (k n : Nat) (c : Int × Int),
        (floodAt dotGrid 1 1 1 (fun _ _ => 0) k (n + 1)).stack
            = c :: (floodAt dotGrid 1 1 1 (fun _ _ => 0) k n).stack →
        (floodAt dotGrid 1 1 1 (fun _ _ => 0) k n).labels c.1 c.2 = 0 ∧
          (floodAt dotGrid 1 1 1 (fun _ _ => 0) k (n + 1)).labels c.1 c.2 = 1) ∧
      (∀ (k n k' n' : Nat) (c : Int × Int),
        (floodAt dotGrid 1 1 1 (fun _ _ => 0) k (n + 1)).stack
            = c :: (floodAt dotGrid 1 1 1 (fun _ _ => 0) k n).stack →
        (floodAt dotGrid 1 1 1 (fun _ _ => 0) k' (n' + 1)).stack
            = c :: (floodAt dotGrid 1 1 1 (fun _ _ => 0) k' n').stack →
        k = k' ∧ n = n') ∧
      ∃ k : Nat, (k : Int) ≤ dotGrid.width * dotGrid.height ∧
        (floodHead dotGrid 1 1 1 (fun _ _ => 0) k).stack = [] ∧
        floodFill dotGrid 1 1 1 (fun _ _ => 0)
          = some (1, (floodHead dotGrid 1 1 1 (fun _ _ => 0) k).labels) :=
  flood_stack_bound dotGrid 1 1 1 (fun _ _ => 0) (by decide) (by unfold inBounds; decide)
    (by decide) rfl

/-! ## Uniform images -/

theorem wrapInt_le (x : Int) (hx : 0 ≤ x) : wrapInt x ≤ x := by
  unfold wrapInt
  omega

theorem sum_map_const_on {α : Type} (f : α → ℝ) (c : ℝ) :
    ∀ l : List α, (∀ a ∈ l, f a = c) → (l.map f).sum = (l.length : ℝ) * c := by
  intro l
  induction l with
  | nil => intro _; simp
  | cons a l ih =>
    intro h
    rw [List.map_cons, List.sum_cons, h a (List.mem_cons_self _ _),
      ih (fun b hb => h b (List.mem_cons_of_mem _ hb)), List.length_cons]
    push_cast
    ring

theorem windowCells_inBounds (img : PGM) (windowSize i j : Int) (p : Int × Int)
    (hp : p ∈ windowCells img windowSize i j) : inBounds img p := by
  unfold windowCells at hp
  rw [mem_rasterCells] at hp
  unfold inBounds
  omega

theorem uniform_window (img : PGM) (v : Int) (windowSize : Int) (i j : Int)
    (hv : 0 ≤ v) (hw : 0 ≤ windowSize)
    (hij : 0 ≤ i ∧ i < img.height ∧ 0 ≤ j ∧ j < img.width)
    (huni : ∀ p : Int × Int, inBounds img p → img.pixels p.1 p.2 = v) :
    sauvolaMean img windowSize i j = (v : ℝ) ∧ sauvolaStdDev img windowSize i j = 0 := by
  have hN : (0 : ℝ) < ((windowCells img windowSize i j).length : ℝ) := by
    have hpos : (0 : Int) < ((windowCells img windowSize i j).length : Int) :=
      windowSumsInt_num_pos img windowSize i j hw hij
    exact_mod_cast hpos
  have hsum : (windowSums img windowSize i j).sum
      = ((windowCells img windowSize i j).length : ℝ) * (v : ℝ) := by
    unfold windowSums
    rw [foldl_windowAdd]
    simp only [zero_add]
    apply sum_map_const_on
    intro p hp
    rw [huni p (windowCells_inBounds img windowSize i j p hp)]
  have hsq : (windowSums img windowSize i j).sumSq
      = ((windowCells img windowSize i j).length : ℝ) * ((wrapInt (v * v) : Int) : ℝ) := by
    unfold windowSums
    rw [foldl_windowAdd]
    simp only [zero_add]
    apply sum_map_const_on
    intro p hp
    rw [huni p (windowCells_inBounds img windowSize i j p hp)]
  have hnum : (windowSums img windowSize i j).num
      = ((windowCells img windowSize i j).length : ℝ) := by
    unfold windowSums
    rw [foldl_windowAdd]
    simp only [zero_add]
  have hmean : sauvolaMean img windowSize i j = (v : ℝ) := by
    unfold sauvolaMean
    rw [hsum, hnum]
    field_simp
  refine ⟨hmean, ?_⟩
  unfold sauvolaStdDev
  rw [hmean, hsq, hnum]
  apply Real.sqrt_eq_zero_of_nonpos
  have hwrap : ((wrapInt (v * v) : Int) : ℝ) ≤ (v : ℝ) * (v : ℝ) := by
    exact_mod_cast wrapInt_le (v * v) (mul_nonneg hv hv)
  have hdiv : ((windowCells img windowSize i j).length : ℝ) * ((wrapInt (v * v) : Int) : ℝ)
      / ((windowCells img windowSize i j).length : ℝ) = ((wrapInt (v * v) : Int) : ℝ) := by
    field_simp
  rw [hdiv]
  linarith

/-- C20: a uniform image contains no objects.  When every pixel of the grid has the same
value `v ≥ 0`, `windowSize ≥ 0`, `0 < k < 1` and `R > 0`, then at every pixel the window
deviation is 0 and the threshold is `v * (1 - k)`, `applySauvolaThreshold` sets every pixel
to 255, and `labelComponents` on the result returns 0. -/
theorem uniform_image_no_objects (img : PGM) (v : Int) (windowSize : Int) (k R : ℝ)
    (hv : 0 ≤ v) (hw : 0 ≤ windowSize) (hk0 : 0 < k) (_hk1 : k < 1) (_hR : 0 < R)
    (huni : ∀ p : Int × Int, inBounds img p → img.pixels p.1 p.2 = v) :
    (∀ p : Int × Int, inBounds img p →
        sauvolaStdDev img windowSize p.1 p.2 = 0 ∧
        sauvolaThreshold img windowSize k R p.1 p.2 = (v : ℝ) * (1 - k) ∧
        (applySauvolaThreshold img windowSize k R).pixels p.1 p.2 = 255) ∧
      labelComponents (applySauvolaThreshold img windowSize k R) = some 0 := by
  have hpix : ∀ p : Int × Int, inBounds img p →
      sauvolaStdDev img windowSize p.1 p.2 = 0 ∧
      sauvolaThreshold img windowSize k R p.1 p.2 = (v : ℝ) * (1 - k) ∧
      (applySauvolaThreshold img windowSize k R).pixels p.1 p.2 = 255 := by
    intro p hp
    obtain ⟨hmean, hsd⟩ := uniform_window img v windowSize p.1 p.2 hv hw hp huni
    have hthr : sauvolaThreshold img windowSize k R p.1 p.2 = (v : ℝ) * (1 - k) := by
      unfold sauvolaThreshold
      rw [hmean, hsd]
      ring
    refine ⟨hsd, hthr, ?_⟩
    unfold applySauvolaThreshold
    simp only
    rw [hthr, huni p hp, if_neg]
    have hv' : (0 : ℝ) ≤ (v : ℝ) := by exact_mod_cast hv
    nlinarith [mul_nonneg hv' hk0.le]
  refine ⟨hpix, ?_⟩
  have h := labelComponents_of_reps (applySauvolaThreshold img windowSize k R) []
    (by intro r hr; simp at hr) List.Pairwise.nil
    (by
      intro p hp
      have h255 := (hpix p hp.1).2.2
      rw [hp.2] at h255
      exact absurd h255 (by decide))
  simpa using h

/-- Witness of C20 on the 3x4 grid all of whose pixels are 255, with `windowSize = 1`,
`k = 0.5`, `R = 128`. -/
theorem uniform_image_no_objects_witness :
    (∀ p : Int × Int, inBounds whiteGrid p →
        sauvolaStdDev whiteGrid 1 p.1 p.2 = 0 ∧
        sauvolaThreshold whiteGrid 1 0.5 128 p.1 p.2 = ((255 : Int) : ℝ) * (1 - 0.5) ∧
        (applySauvolaThreshold whiteGrid 1 0.5 128).pixels p.1 p.2 = 255) ∧
      labelComponents (applySauvolaThreshold whiteGrid 1 0.5 128) = some 0 :=
  uniform_image_no_objects whiteGrid 255 1 0.5 128 (by decide) (by decide) (by norm_num)
    (by norm_num) (by norm_num) (fun _ _ => rfl)

/-! ## File round trip -/

theorem digitChar_toNat (d : Nat) (hd : d < 10) : (digitChar d).toNat = 48 + d := by
  unfold digitChar
  interval_cases d <;> rfl

theorem digitChar_isDigit (d : Nat) (hd : d < 10) : isDigitChar (digitChar d) = true := by
  unfold isDigitChar
  rw [digitChar_toNat d hd, decide_eq_true_eq]
  omega

theorem digitChar_value (d : Nat) (hd : d < 10) : digitValue (digitChar d) = d := by
  unfold digitValue
  rw [digitChar_toNat d hd]
  omega

theorem printNat_digits (n : Nat) : ∀ c ∈ printNat n, isDigitChar c = true := by
  intro c hc
  unfold printNat at hc
  split at hc
  · rw [List.mem_singleton] at hc
    rw [hc]
    exact digitChar_isDigit 0 (by decide)
  · rw [List.mem_map] at hc
    obtain ⟨d, hd, rfl⟩ := hc
    exact digitChar_isDigit d (Nat.digits_lt_base (by decide) (List.mem_reverse.1 hd))

theorem printNat_ne_nil (n : Nat) : printNat n ≠ [] := by
  unfold printNat
  split
  · exact List.cons_ne_nil _ _
  · rename_i hn
    intro h
    rw [List.map_eq_nil_iff, List.reverse_eq_nil_iff] at h
    exact (Nat.digits_ne_nil_iff_ne_zero.2 hn) h

theorem digitsValue_append (ds : List Char) (c : Char) :
    digitsValue (ds ++ [c]) = 10 * digitsValue ds + digitValue c := by
  unfold digitsValue
  rw [List.foldl_append]
  rfl

theorem digitsValue_reverse_map (l : List Nat) (hl : ∀ d ∈ l, d < 10) :
    digitsValue (l.reverse.map digitChar) = Nat.ofDigits 10 l := by
  induction l with
  | nil => rfl
  | cons d l ih =>
    rw [List.reverse_cons, List.map_append, List.map_singleton, digitsValue_append,
      ih (fun x hx => hl x (List.mem_cons_of_mem _ hx)),
      digitChar_value d (hl d (List.mem_cons_self _ _)), Nat.ofDigits_cons]
    ring

theorem digitsValue_printNat (n : Nat) : digitsValue (printNat n) = n := by
  unfold printNat
  split
  · rename_i h0
    rw [h0]
    rfl
  · rw [digitsValue_reverse_map _ (fun d hd => Nat.digits_lt_base (by decide) hd),
      Nat.ofDigits_digits]

theorem printNat_length (n : Nat) (hn : n < 2147483648) : (printNat n).length ≤ 10 := by
  unfold printNat
  split
  · simp
  · rw [List.length_map, List.length_reverse]
    have h1 := Nat.le_digits_len_le 10 n 2147483647 (by omega)
    have h2 : (Nat.digits 10 2147483647).length = 10 := by norm_num
    omega

theorem printInt_nonneg (v : Int) (hv : 0 ≤ v) : printInt v = printNat v.toNat := by
  unfold printInt
  rw [if_neg (by omega)]

theorem isDigit_not_space (c : Char) (h : isDigitChar c = true) : isSpaceChar c = false := by
  unfold isDigitChar at h
  unfold isSpaceChar
  rw [decide_eq_true_eq] at h
  rw [decide_eq_false_iff_not]
  omega

theorem isDigit_not_sign (c : Char) (h : isDigitChar c = true) :
    c ≠ chMinus ∧ c ≠ chPlus ∧ c ≠ chNul ∧ c ≠ chNewline ∧ c ≠ chHash := by
  unfold isDigitChar at h
  rw [decide_eq_true_eq] at h
  refine ⟨?_, ?_, ?_, ?_, ?_⟩ <;>
  · intro hc
    rw [hc] at h
    revert h
    decide

theorem scanNat_digits (ds rest : List Char) (hne : ds ≠ [])
    (hds : ∀ c ∈ ds, isDigitChar c = true) (hrest : rest.head?.all (fun c => !isDigitChar c)) :
    scanNat (ds ++ rest) = some (digitsValue ds, rest) := by
  have hrest' : rest.takeWhile isDigitChar = [] ∧ rest.dropWhile isDigitChar = rest := by
    cases rest with
    | nil => exact ⟨rfl, rfl⟩
    | cons c t =>
      have hc : isDigitChar c = false := by simpa using hrest
      exact ⟨by rw [List.takeWhile_cons, hc]; rfl, by rw [List.dropWhile_cons, hc]; rfl⟩
  unfold scanNat
  rw [List.takeWhile_append_of_pos hds, List.dropWhile_append_of_pos hds, hrest'.1, hrest'.2,
    List.append_nil, if_neg hne]

theorem dropWhile_space (ws t : List Char) (hws : ∀ c ∈ ws, isSpaceChar c = true)
    (ht : t.head?.all (fun c => !isSpaceChar c)) :
    (ws ++ t).dropWhile isSpaceChar = t := by
  rw [List.dropWhile_append_of_pos hws]
  cases t with
  | nil => rfl
  | cons c t =>
    have hc : isSpaceChar c = false := by simpa using ht
    rw [List.dropWhile_cons, hc]
    rfl

/-- Reading back, with `%d`, a non-negative number that was written with `%d` and is
followed by a character that is not a digit. -/
theorem scanInt_printInt (ws rest : List Char) (v : Int) (hv : 0 ≤ v)
    (hws : ∀ c ∈ ws, isSpaceChar c = true) (hrest : rest.head?.all (fun c => !isDigitChar c)) :
    scanInt (ws ++ (printInt v ++ rest)) = some (v, rest) := by
  rw [printInt_nonneg v hv]
  obtain ⟨d, ds, hds⟩ := List.exists_cons_of_ne_nil (printNat_ne_nil v.toNat)
  have hdig := printNat_digits v.toNat
  have hd : isDigitChar d = true := hdig d (by rw [hds]; exact List.mem_cons_self _ _)
  have hdrop : (ws ++ (printNat v.toNat ++ rest)).dropWhile isSpaceChar
      = printNat v.toNat ++ rest := by
    apply dropWhile_space ws _ hws
    rw [hds]
    simp [isDigit_not_space d hd]
  have hhead : (printNat v.toNat ++ rest).head? = some d := by rw [hds]; rfl
  unfold scanInt
  rw [hdrop, hhead, if_neg, if_neg, scanNat_digits _ _ (printNat_ne_nil _) hdig hrest,
    digitsValue_printNat]
  · simp only [Option.map_some']
    rw [Int.toNat_of_nonneg hv]
  · intro h
    exact (isDigit_not_sign d hd).2.1 (Option.some.inj h)
  · intro h
    exact (isDigit_not_sign d hd).1 (Option.some.inj h)

theorem fgetsAux_line (rest : List Char) :
    ∀ (line : List Char) (n : Nat), (∀ c ∈ line, c ≠ chNewline) → line.length < n →
      fgetsAux n (line ++ chNewline :: rest) = (line ++ [chNewline], rest) := by
  intro line
  induction line with
  | nil =>
    intro n _ hn
    obtain ⟨m, rfl⟩ : ∃ m, n = m + 1 := ⟨n - 1, by simp at hn; omega⟩
    simp [fgetsAux]
  | cons c t ih =>
    intro n hno hn
    obtain ⟨m, rfl⟩ : ∃ m, n = m + 1 := ⟨n - 1, by simp at hn; omega⟩
    have hc : c ≠ chNewline := hno c (List.mem_cons_self _ _)
    have ht := ih m (fun a ha => hno a (List.mem_cons_of_mem _ ha))
      (by simp only [List.length_cons] at hn; omega)
    simp only [List.cons_append, fgetsAux, if_neg hc, List.append_eq, ht]

theorem fgets_line (line rest : List Char) (hno : ∀ c ∈ line, c ≠ chNewline)
    (hlen : line.length < 1023) :
    fgets 1024 (line ++ chNewline :: rest) = some (line ++ [chNewline], rest) := by
  unfold fgets
  rw [if_neg (by simp), fgetsAux_line rest line 1023 hno hlen]

theorem cstr_eq_self (l : List Char) (h : ∀ c ∈ l, c ≠ chNul) : cstr l = l := by
  unfold cstr
  induction l with
  | nil => rfl
  | cons a l ih =>
    rw [List.takeWhile_cons, if_pos (by simpa using h a (List.mem_cons_self _ _)),
      ih (fun c hc => h c (List.mem_cons_of_mem _ hc))]

theorem readValidLine_line (line rest : List Char) (fuel : Nat)
    (hne : line ≠ []) (hhead : line.head? ≠ some chHash)
    (hnl : ∀ c ∈ line, c ≠ chNewline) (hnul : ∀ c ∈ line, c ≠ chNul)
    (hlen : line.length < 1023) :
    readValidLine (fuel + 1) (line ++ chNewline :: rest) = some (line ++ [chNewline], rest) := by
  have hcstr : cstr (line ++ [chNewline]) = line ++ [chNewline] := by
    apply cstr_eq_self
    intro c hc
    rcases List.mem_append.1 hc with h | h
    · exact hnul c h
    · rw [List.mem_singleton] at h
      rw [h]
      decide
  have hh : (line ++ [chNewline]).head? ≠ some chHash := by
    obtain ⟨a, t, rfl⟩ := List.exists_cons_of_ne_nil hne
    exact hhead
  have hl : (line ++ [chNewline]).length > 1 := by
    obtain ⟨a, t, rfl⟩ := List.exists_cons_of_ne_nil hne
    simp
  simp only [readValidLine, fgets_line line rest hnl hlen, hcstr]
  rw [if_pos ⟨hh, hl⟩]

theorem foldl_flatMap_nested {α β γ : Type} (f : γ → β → γ) (g : α → List β) :
    ∀ (l : List α) (init : γ),
      (l.flatMap g).foldl f init = l.foldl (fun acc a => (g a).foldl f acc) init := by
  intro l
  induction l with
  | nil => intro init; rfl
  | cons a l ih =>
    intro init
    rw [List.flatMap_cons, List.foldl_append, ih, List.foldl_cons]

theorem fillCells_correct (pix : Int → Int → Int) :
    ∀ (cells : List (Int × Int)) (buf : Int → Int → Int) (q : Int × Int),
      (q ∈ cells ∨ buf q.1 q.2 = pix q.1 q.2) →
      fillCells pix cells buf q.1 q.2 = pix q.1 q.2 := by
  intro cells
  induction cells with
  | nil =>
    intro buf q h
    rcases h with h | h
    · simp at h
    · exact h
  | cons a cells ih =>
    intro buf q h
    unfold fillCells
    rw [List.foldl_cons]
    apply ih
    by_cases hqa : q = a
    · right
      rw [hqa]
      simp
    · rcases h with h | h
      · rcases List.mem_cons.1 h with h | h
        · exact absurd h hqa
        · exact Or.inl h
      · right
        simp only [setCell_apply]
        rw [if_neg]
        · exact h
        · rintro ⟨h1, h2⟩
          exact hqa (Prod.ext h1 h2)

theorem readPixels_row (pix : Int → Int → Int) :
    ∀ (cs : List (Int × Int)) (buf : Int → Int → Int) (ws tail : List Char),
      (∀ c ∈ ws, isSpaceChar c = true) → (∀ p ∈ cs, 0 ≤ pix p.1 p.2) →
      ∃ ws', (∀ c ∈ ws', isSpaceChar c = true) ∧
        cs.foldl readPixel
            (some (buf, ws ++ (cs.flatMap (fun p => printInt (pix p.1 p.2) ++ [chSpace]) ++ tail)))
          = some (fillCells pix cs buf, ws' ++ tail) := by
  intro cs
  induction cs with
  | nil =>
    intro buf ws tail hws _
    exact ⟨ws, hws, rfl⟩
  | cons p cs ih =>
    intro buf ws tail hws hpos
    have hscan := scanInt_printInt ws
      (chSpace :: (cs.flatMap (fun p => printInt (pix p.1 p.2) ++ [chSpace]) ++ tail))
      (pix p.1 p.2) (hpos p (List.mem_cons_self _ _)) hws
      (by show (!isDigitChar chSpace) = true; decide)
    have hstep : readPixel
        (some (buf, ws ++ ((p :: cs).flatMap (fun p => printInt (pix p.1 p.2) ++ [chSpace])
          ++ tail))) p
        = some (setCell buf p.1 p.2 (pix p.1 p.2),
            [chSpace] ++ (cs.flatMap (fun p => printInt (pix p.1 p.2) ++ [chSpace]) ++ tail)) := by
      unfold readPixel
      simp only [Option.some_bind, List.flatMap_cons, List.append_assoc, List.singleton_append,
        List.cons_append, List.nil_append]
      rw [hscan]
      rfl
    obtain ⟨ws', hws', hrun⟩ := ih (setCell buf p.1 p.2 (pix p.1 p.2)) [chSpace] tail
      (by intro c hc; rw [List.mem_singleton] at hc; rw [hc]; decide)
      (fun q hq => hpos q (List.mem_cons_of_mem _ hq))
    refine ⟨ws', hws', ?_⟩
    rw [List.foldl_cons, hstep, hrun]
    rfl

theorem readPixels_rows (pix : Int → Int → Int) (cols : List Int) :
    ∀ (rows : List Int) (buf : Int → Int → Int) (ws tail : List Char),
      (∀ c ∈ ws, isSpaceChar c = true) → (∀ i ∈ rows, ∀ j ∈ cols, 0 ≤ pix i j) →
      ∃ ws', (∀ c ∈ ws', isSpaceChar c = true) ∧
        rows.foldl (fun acc i => (cols.map (fun j => (i, j))).foldl readPixel acc)
            (some (buf, ws ++ (rows.flatMap (fun i =>
              cols.flatMap (fun j => printInt (pix i j) ++ [chSpace]) ++ [chNewline]) ++ tail)))
          = some (rows.foldl (fun b i => fillCells pix (cols.map (fun j => (i, j))) b) buf,
              ws' ++ tail) := by
  intro rows
  induction rows with
  | nil =>
    intro buf ws tail hws _
    exact ⟨ws, hws, rfl⟩
  | cons i rows ih =>
    intro buf ws tail hws hpos
    have htext : (cols.map (fun j => (i, j))).flatMap
        (fun p => printInt (pix p.1 p.2) ++ [chSpace])
        = cols.flatMap (fun j => printInt (pix i j) ++ [chSpace]) := by
      rw [List.flatMap_map]
    obtain ⟨ws1, hws1, hrow⟩ := readPixels_row pix (cols.map (fun j => (i, j))) buf ws
      (chNewline :: (rows.flatMap (fun i =>
        cols.flatMap (fun j => printInt (pix i j) ++ [chSpace]) ++ [chNewline]) ++ tail)) hws
      (by
        intro p hp
        rw [List.mem_map] at hp
        obtain ⟨j, hj, rfl⟩ := hp
        exact hpos i (List.mem_cons_self _ _) j hj)
    rw [htext] at hrow
    obtain ⟨ws', hws', hrest⟩ := ih (fillCells pix (cols.map (fun j => (i, j))) buf)
      (ws1 ++ [chNewline]) tail
      (by
        intro c hc
        rcases List.mem_append.1 hc with h | h
        · exact hws1 c h
        · rw [List.mem_singleton] at h
          rw [h]
          decide)
      (fun i' hi' => hpos i' (List.mem_cons_of_mem _ hi'))
    refine ⟨ws', hws', ?_⟩
    rw [List.foldl_cons, List.flatMap_cons]
    simp only [List.append_assoc, List.singleton_append, List.cons_append, List.nil_append]
      at hrow hrest ⊢
    rw [hrow, hrest]
    rfl

theorem printInt_digits (v : Int) (hv : 0 ≤ v) : ∀ c ∈ printInt v, isDigitChar c = true := by
  rw [printInt_nonneg v hv]
  exact printNat_digits v.toNat

theorem printInt_ne_nil (v : Int) (hv : 0 ≤ v) : printInt v ≠ [] := by
  rw [printInt_nonneg v hv]
  exact printNat_ne_nil v.toNat

theorem printInt_length (v : Int) (hv : 0 ≤ v) (hlt : v < 2147483648) :
    (printInt v).length ≤ 10 := by
  rw [printInt_nonneg v hv]
  exact printNat_length v.toNat (by omega)

theorem isSpaceChar_chSpace : isSpaceChar chSpace = true := by decide

theorem isSpaceChar_chNewline : isSpaceChar chNewline = true := by decide

/-- The pixel loop of `readPGM` on the pixel text written by `writePGM`. -/
theorem readPixels_written (pix : Int → Int → Int) (h w : Int)
    (hpix : ∀ i j, 0 ≤ i → i < h → 0 ≤ j → j < w → 0 ≤ pix i j) :
    ∃ ws, (rasterCells 0 h 0 w).foldl readPixel
        (some (fun _ _ => 0, (rangeInt 0 h).flatMap (fun i =>
          (rangeInt 0 w).flatMap (fun j => printInt (pix i j) ++ [chSpace]) ++ [chNewline])))
      = some (fillCells pix (rasterCells 0 h 0 w) (fun _ _ => 0), ws) := by
  obtain ⟨ws, _, hrun⟩ := readPixels_rows pix (rangeInt 0 w) (rangeInt 0 h) (fun _ _ => 0) [] []
    (by intro c hc; simp at hc)
    (by
      intro i hi j hj
      rw [mem_rangeInt] at hi hj
      exact hpix i j hi.1 hi.2 hj.1 hj.2)
  refine ⟨ws, ?_⟩
  simp only [List.nil_append, List.append_nil] at hrun
  unfold fillCells rasterCells
  rw [foldl_flatMap_nested, foldl_flatMap_nested]
  exact hrun

/-- Reading, with `readPGM`, the text written by `writePGM`. -/
theorem readPGM_writePGM (img : PGM)
    (hw : 0 ≤ img.width) (hh : 0 ≤ img.height) (hm : 0 ≤ img.max_val)
    (hwlt : img.width < 2147483648) (hhlt : img.height < 2147483648)
    (hmlt : img.max_val < 2147483648)
    (hpix : ∀ i j, 0 ≤ i → i < img.height → 0 ≤ j → j < img.width → 0 ≤ img.pixels i j) :
    readPGM (writePGM img)
      = some { width := img.width, height := img.height, max_val := img.max_val,
               pixels := fillCells img.pixels (rasterCells 0 img.height 0 img.width)
                 (fun _ _ => 0) } := by
  obtain ⟨ws, hpixels⟩ := readPixels_written img.pixels img.height img.width hpix
  generalize hP : (rangeInt 0 img.height).flatMap (fun i =>
      (rangeInt 0 img.width).flatMap (fun j => printInt (img.pixels i j) ++ [chSpace])
        ++ [chNewline]) = pixText at hpixels
  have hW : writePGM img = [Char.ofNat 80, Char.ofNat 50] ++ chNewline ::
      ((printInt img.width ++ chSpace :: printInt img.height) ++ chNewline ::
        (printInt img.max_val ++ chNewline :: pixText)) := by
    unfold writePGM magicLine
    rw [hP]
    simp only [List.append_assoc, List.cons_append, List.nil_append, List.singleton_append]
  have hdw := printInt_digits img.width hw
  have hdh := printInt_digits img.height hh
  have hdm := printInt_digits img.max_val hm
  have hline2 : ∀ c ∈ printInt img.width ++ chSpace :: printInt img.height,
      c ≠ chNul ∧ c ≠ chNewline := by
    intro c hc
    rcases List.mem_append.1 hc with h | h
    · exact ⟨(isDigit_not_sign c (hdw c h)).2.2.1, (isDigit_not_sign c (hdw c h)).2.2.2.1⟩
    · rcases List.mem_cons.1 h with h | h
      · rw [h]
        exact ⟨by decide, by decide⟩
      · exact ⟨(isDigit_not_sign c (hdh c h)).2.2.1, (isDigit_not_sign c (hdh c h)).2.2.2.1⟩
  have hhead2 : (printInt img.width ++ chSpace :: printInt img.height).head? ≠ some chHash := by
    obtain ⟨d, ds, hds⟩ := List.exists_cons_of_ne_nil (printInt_ne_nil img.width hw)
    have hd : isDigitChar d = true := hdw d (by rw [hds]; exact List.mem_cons_self _ _)
    rw [hds]
    intro h
    exact (isDigit_not_sign d hd).2.2.2.2 (Option.some.inj h)
  have hhead3 : (printInt img.max_val).head? ≠ some chHash := by
    obtain ⟨d, ds, hds⟩ := List.exists_cons_of_ne_nil (printInt_ne_nil img.max_val hm)
    have hd : isDigitChar d = true := hdm d (by rw [hds]; exact List.mem_cons_self _ _)
    rw [hds]
    intro h
    exact (isDigit_not_sign d hd).2.2.2.2 (Option.some.inj h)
  have hlen2 : (printInt img.width ++ chSpace :: printInt img.height).length < 1023 := by
    have h1 := printInt_length img.width hw hwlt
    have h2 := printInt_length img.height hh hhlt
    simp only [List.length_append, List.length_cons]
    omega
  have hlen3 : (printInt img.max_val).length < 1023 := by
    have h1 := printInt_length img.max_val hm hmlt
    omega
  have hf1 : fgets 1024 (writePGM img) = some (magicLine,
      (printInt img.width ++ chSpace :: printInt img.height) ++ chNewline ::
        (printInt img.max_val ++ chNewline :: pixText)) := by
    rw [hW]
    exact fgets_line [Char.ofNat 80, Char.ofNat 50] _ (by decide) (by decide)
  have hmagic : cstr magicLine = magicLine := by decide
  have hcstr2 : cstr ((printInt img.width ++ chSpace :: printInt img.height) ++ [chNewline])
      = printInt img.width ++ (chSpace :: (printInt img.height ++ [chNewline])) := by
    rw [cstr_eq_self]
    · simp only [List.append_assoc, List.cons_append]
    · intro c hc
      rcases List.mem_append.1 hc with h | h
      · exact (hline2 c h).1
      · rw [List.mem_singleton] at h
        rw [h]
        decide
  have hcstr3 : cstr (printInt img.max_val ++ [chNewline])
      = printInt img.max_val ++ [chNewline] := by
    apply cstr_eq_self
    intro c hc
    rcases List.mem_append.1 hc with h | h
    · exact (isDigit_not_sign c (hdm c h)).2.2.1
    · rw [List.mem_singleton] at h
      rw [h]
      decide
  have hs1 : scanInt (printInt img.width ++ (chSpace :: (printInt img.height ++ [chNewline])))
      = some (img.width, chSpace :: (printInt img.height ++ [chNewline])) :=
    scanInt_printInt [] _ img.width hw (by intro c hc; simp at hc)
      (by show (!isDigitChar chSpace) = true; decide)
  have hs2 : scanInt (chSpace :: (printInt img.height ++ [chNewline]))
      = some (img.height, [chNewline]) :=
    scanInt_printInt [chSpace] [chNewline] img.height hh
      (by intro c hc; rw [List.mem_singleton] at hc; rw [hc]; decide) (by decide)
  have hs3 : scanInt (printInt img.max_val ++ [chNewline]) = some (img.max_val, [chNewline]) :=
    scanInt_printInt [] [chNewline] img.max_val hm (by intro c hc; simp at hc) (by decide)
  unfold readPGM
  rw [hf1]
  simp only [Option.some_bind]
  rw [if_neg (fun h => h hmagic),
    readValidLine_line _ _ _ (by simp) hhead2 (fun c hc => (hline2 c hc).2)
      (fun c hc => (hline2 c hc).1) hlen2]
  simp only [Option.some_bind]
  rw [hcstr2, hs1]
  simp only [Option.some_bind]
  rw [hs2]
  simp only [Option.some_bind]
  rw [readValidLine_line _ _ _ (printInt_ne_nil img.max_val hm) hhead3
      (fun c hc => (isDigit_not_sign c (hdm c hc)).2.2.2.1)
      (fun c hc => (isDigit_not_sign c (hdm c hc)).2.2.1) hlen3]
  simp only [Option.some_bind]
  rw [hcstr3, hs3]
  simp only [Option.some_bind]
  rw [hpixels]
  rfl

/-- C16: file round trip.  For every grid with width and height at least 1 and non-negative
width, height, `max_val` and pixel values (width, height and `max_val` being values of the
C type `int`, hence below `2^31`), `readPGM` applied to the text produced by `writePGM`
returns a grid, and that grid has the same width, height and `max_val` and the same value
at every pixel. -/
theorem pgm_round_trip (img : PGM)
    (hw : 1 ≤ img.width) (hh : 1 ≤ img.height) (hm : 0 ≤ img.max_val)
    (hwlt : img.width < 2147483648) (hhlt : img.height < 2147483648)
    (hmlt : img.max_val < 2147483648)
    (hpix : ∀ p : Int × Int, inBounds img p → 0 ≤ img.pixels p.1 p.2) :
    ∃ g : PGM, readPGM (writePGM img) = some g ∧
      g.width = img.width ∧ g.height = img.height ∧ g.max_val = img.max_val ∧
      ∀ p : Int × Int, inBounds img p → g.pixels p.1 p.2 = img.pixels p.1 p.2 := by
  refine ⟨_, readPGM_writePGM img (by omega) (by omega) hm hwlt hhlt hmlt
    (fun i j h1 h2 h3 h4 => hpix (i, j) ⟨h1, h2, h3, h4⟩), rfl, rfl, rfl, ?_⟩
  intro p hp
  apply fillCells_correct
  left
  rw [mem_rasterCells]
  exact ⟨⟨hp.1, hp.2.1⟩, hp.2.2.1, hp.2.2.2⟩

/-- Witness of C16 on the 5x5 grid with a 3x3 block of value 10 inside a frame of value
240. -/
theorem pgm_round_trip_witness :
    ∃ g : PGM, readPGM (writePGM blockGrid) = some g ∧
      g.width = blockGrid.width ∧ g.height = blockGrid.height ∧
      g.max_val = blockGrid.max_val ∧
      ∀ p : Int × Int, inBounds blockGrid p → g.pixels p.1 p.2 = blockGrid.pixels p.1 p.2 :=
  pgm_round_trip blockGrid (by decide) (by decide) (by decide) (by decide) (by decide)
    (by decide)
    (by
      intro p _
      show 0 ≤ (if (1 ≤ p.1 ∧ p.1 ≤ 3 ∧ 1 ≤ p.2 ∧ p.2 ≤ 3) then (10 : Int) else 240)
      split <;> decide)

end BeanCounter
